import Mathlib

/-!
# Verification of the dataflow-studio workflow engine

A shallow embedding of the Python workflow-execution engine
(`backend/app/engine/`): the safe-expression validator (`parser.py`),
the workflow executor (`executor.py` — graph build, Kahn topological
sort, run loop, input fan-out), and the Sort and Aggregate nodes
(`transform_nodes.py`, `combine_nodes.py`).

Conventions of the embedding:

* Python dicts become association lists (`List (String × _)`); insertion
  with an existing key replaces the value in place (Python `d[k] = v`
  keeps the original position of the key).
* Python's stable sorts (`list.sort`, `sorted`, and pandas' stable
  lexicographic sort) are embedded as an insertion sort `stableSort`
  over a boolean comparator; for a total transitive comparator this is
  extensionally the unique stable sort.
* pandas `DataFrame`s become `Table`s (column names, an explicit row
  index, and row-major cells).  Cell values are `Value` (int, bool,
  string or null); float results of `mean`/`std`/`var` are abstracted to
  `Value.null` (no claim depends on their numeric value).  Cross-kind
  comparisons, which raise in pandas, are totalised by a kind rank, and
  nulls order last (pandas `na_position='last'`).
* Exceptions become `Except`; calls into CPython's `ast.parse` and into
  pandas' query/eval engines are parameters of the embedding, since the
  rejected claims are decided before those calls are reached.
-/

/-! ## Association-list helpers (Python `dict` semantics) -/

/-- Python `d[k] = v`: replace in place when the key exists (keeping the
original key position), otherwise append at the end. -/
def dictInsert {α : Type} (l : List (String × α)) (k : String) (v : α) :
    List (String × α) :=
  if l.any (fun p => p.1 == k) then
    l.map (fun p => if p.1 == k then (p.1, v) else p)
  else l ++ [(k, v)]

/-- Python `d[k]` / `d.get(k)`. -/
def dictGet {α : Type} (l : List (String × α)) (k : String) : Option α :=
  (l.find? (fun p => p.1 == k)).map (fun p => p.2)

/-! ## A stable insertion sort over a boolean comparator -/

/-- Insert `a` in front of the first element `b` with `le a b`; elements
equivalent to `a` that are already present stay behind `a`'s insertion
point only if `le a b` fails, so insertion is stable. -/
def insertSorted {α : Type} (le : α → α → Bool) (a : α) : List α → List α
  | [] => [a]
  | b :: t => if le a b then a :: b :: t else b :: insertSorted le a t

/-- Stable sort by a boolean comparator (insertion sort).  For a total,
transitive `le` this is extensionally the unique stable sort, hence a
faithful model of Python's `sorted`/`list.sort` and of pandas' stable
lexicographic sort. -/
def stableSort {α : Type} (le : α → α → Bool) : List α → List α
  | [] => []
  | a :: t => insertSorted le a (stableSort le t)

/-! ## Character and string order (Python code-point comparison) -/

/-- Python compares strings lexicographically by code point. -/
def charLe (c d : Char) : Bool := c.val.toNat ≤ d.val.toNat

/-- Lexicographic comparison of char lists by code point. -/
def charListLe : List Char → List Char → Bool
  | [], _ => true
  | _ :: _, [] => false
  | c :: cs, d :: ds => if c == d then charListLe cs ds else charLe c d

/-- Python `str` `<=` (lexicographic by code point). -/
def strLe (a b : String) : Bool := charListLe a.data b.data

/-! ## Values and tables (the pandas data model) -/

/-- A cell value: `int64`, `bool`, `string` or NULL.  Floats appear in
this engine only as results of `mean`/`std`/`var`, which no claim
inspects; they are abstracted to `null`. -/
inductive Value : Type
  | int (n : Int)
  | bool (b : Bool)
  | str (s : String)
  | null
deriving DecidableEq, Repr

/-- Rank used to totalise cross-kind comparisons (which raise a
`TypeError` in pandas and are therefore never exercised by a claim);
nulls rank last, matching pandas `na_position='last'`. -/
def Value.rank : Value → Nat
  | .int _ => 0
  | .bool _ => 1
  | .str _ => 2
  | .null => 3

/-- Ascending comparison of two cell values. -/
def valueLe : Value → Value → Bool
  | .int a, .int b => decide (a ≤ b)
  | .bool a, .bool b => !a || b
  | .str a, .str b => strLe a b
  | x, y => decide (Value.rank x ≤ Value.rank y)

/-- Lexicographic ascending comparison of key tuples (pandas multi-key
sort and group-key order). -/
def keyLe : List Value → List Value → Bool
  | [], _ => true
  | _ :: _, [] => false
  | a :: as, b :: bs => if a == b then keyLe as bs else valueLe a b

/-- Descending cell comparison; pandas keeps NaN/None last even for
`ascending=False` (`na_position='last'`). -/
def valueDescLe : Value → Value → Bool
  | .null, y => y == Value.null
  | _, .null => true
  | x, y => valueLe y x

/-- Lexicographic descending comparison of key tuples. -/
def keyDescLe : List Value → List Value → Bool
  | [], _ => true
  | _ :: _, [] => false
  | a :: as, b :: bs => if a == b then keyDescLe as bs else valueDescLe a b

/-- A pandas `DataFrame`: ordered column names, an explicit row index
(as produced by `read_csv`, `sort_values`, `reset_index`, ...), and
row-major cells aligned positionally with `cols`. -/
structure Table : Type where
  cols : List String
  index : List Nat
  rows : List (List Value)
deriving DecidableEq, Repr

/-- Position of a column name in the column list (`df.columns.get_loc`). -/
def colPos (cols : List String) (c : String) : Nat := cols.indexOf c

/-- The cell of `row` in column `c` of a table with columns `cols`. -/
def cellAt (cols : List String) (row : List Value) (c : String) : Value :=
  row.getD (colPos cols c) Value.null

/-- The key tuple of `row` w.r.t. the sort / group-by columns. -/
def keyOf (cols : List String) (columns : List String) (row : List Value) :
    List Value :=
  columns.map (cellAt cols row)

/-- `NodeResult` of `nodes/base.py` (the `metadata` dict is carried by no
claim and is omitted), generic in the table type so that the executor —
whose claims hold for arbitrary node behaviour — can be stated over an
arbitrary payload. -/
structure NodeResultG (τ : Type) : Type where
  success : Bool
  data : Option τ := none
  error : Option String := none
deriving DecidableEq, Repr

/-- `NodeResult` carrying a concrete `Table`. -/
abbrev NodeResultT : Type := NodeResultG Table

/-! ## SortNode (`transform_nodes.py`, lines 117–145)

`df.sort_values(by=columns, ascending=ascending).reset_index(drop=True)`,
followed by resetting the index to `0, 1, 2, ...`.  `ascending` is
modelled in its scalar-bool form (the per-column list form is exercised
by no claim).  `sort_values` is called without a `kind` argument: for
two or more sort columns pandas ignores `kind` and uses a stable
lexsort, but for exactly one column it applies the default
`kind='quicksort'`, whose order among tied rows is unspecified — so the
single-column sorting backend enters the model as a parameter,
constrained only by its documented contract (a sorted permutation). -/

/-- Row comparator used by `sort_values`. -/
def rowLe (cols columns : List String) (ascending : Bool) :
    (Nat × List Value) → (Nat × List Value) → Bool :=
  fun p q =>
    if ascending then keyLe (keyOf cols columns p.2) (keyOf cols columns q.2)
    else keyDescLe (keyOf cols columns p.2) (keyOf cols columns q.2)

/-- A sorting backend for the single-column `sort_values` call: numpy's
default `kind='quicksort'`, taking the row comparator and the
(index, row) pairs. -/
def SortKind : Type :=
  ((Nat × List Value) → (Nat × List Value) → Bool) →
    List (Nat × List Value) → List (Nat × List Value)

/-- The documented contract of the default `kind='quicksort'` backend:
for a total, transitive comparator it returns a sorted permutation of
its input — and nothing more; in particular no stability. -/
def SortKindSpec (qs : SortKind) : Prop :=
  ∀ (le : (Nat × List Value) → (Nat × List Value) → Bool)
    (l : List (Nat × List Value)),
    (∀ a b, le a b = true ∨ le b a = true) →
    (∀ a b c, le a b = true → le b c = true → le a c = true) →
    (qs le l).Perm l ∧ (qs le l).Pairwise (fun a b => le a b = true)

/-- `df.sort_values(by=columns, ascending=ascending)`: the stable
lexsort for two or more sort columns, the `kind` backend (default
quicksort) for exactly one. -/
def sortValues (qs : SortKind) (df : Table) (columns : List String)
    (ascending : Bool) : Table :=
  let pairs := df.index.zip df.rows
  let le := rowLe df.cols columns ascending
  let sorted := if columns.length == 1 then qs le pairs
    else stableSort le pairs
  { cols := df.cols, index := sorted.map (fun p => p.1),
    rows := sorted.map (fun p => p.2) }

/-- `df.reset_index(drop=True)`. -/
def resetIndex (df : Table) : Table :=
  { df with index := List.range df.rows.length }

/-- `", ".join(missing)` for error messages. -/
def joinComma : List String → String
  | [] => ""
  | [c] => c
  | c :: t => c ++ ", " ++ joinComma t

/-- `SortNode.execute` (config fields `columns` and `ascending` already
extracted from the config dict, with their source defaults; the
quicksort backend `qs` is the library environment, like the parser and
eval engines of the expression claims). -/
def SortNode.execute (qs : SortKind) (columns : List String)
    (ascending : Bool) (inputs : List Table) : NodeResultT :=
  match inputs with
  | [] => { success := false, error := some "No input data" }
  | df :: _ =>
    if columns.isEmpty then { success := true, data := some df }
    else
      let missing := columns.filter (fun c => !(df.cols.contains c))
      if !missing.isEmpty then
        { success := false,
          error := some ("Sort columns not found: " ++ joinComma missing) }
      else
        { success := true,
          data := some (resetIndex (sortValues qs df columns ascending)) }

/-! ## AggregateNode (`combine_nodes.py`, lines 112–216) -/

/-- One entry of the `aggregations` config list; the dict keys `col`,
`op`, `as`, `alias` may each be absent. -/
structure AggSpec : Type where
  col : Option String := none
  op : Option String := none
  asKey : Option String := none
  aliasKey : Option String := none
deriving DecidableEq, Repr

/-- `AggregateNode.VALID_OPS`. -/
def VALID_OPS : List String :=
  ["sum", "mean", "count", "min", "max", "first", "last", "std", "var"]

/-- `agg.get('as', agg.get('alias', f"{col}_{op}"))`; `col`/`op` default
to the Python string `"None"` exactly as the f-string renders a missing
key (the node then fails before the alias is ever used). -/
def aggAlias (a : AggSpec) : String :=
  a.asKey.getD (a.aliasKey.getD
    (a.col.getD "None" ++ "_" ++ a.op.getD "None"))

/-- The number pandas coerces a value to for a numeric aggregation
(`bool` counts as 1/0); `none` for strings and nulls. -/
def toNum : Value → Option Int
  | Value.int n => some n
  | Value.bool b => some (if b then 1 else 0)
  | _ => none

/-- Minimum of a list of string values (lexicographic), used for `min`
on an all-string column. -/
def valuesMin : List Value → Value
  | [] => Value.null
  | v :: t => match valuesMin t with
    | Value.null => v
    | m => if valueLe v m then v else m

/-- Maximum of a list of string values, used for `max` on an all-string
column. -/
def valuesMax : List Value → Value
  | [] => Value.null
  | v :: t => match valuesMax t with
    | Value.null => v
    | m => if valueLe m v then v else m

/-- First value attaining the numeric minimum (`min` on a numeric
column; Python's comparison coerces `bool` to `int`). -/
def valuesMinNum (vs : List Value) : Value :=
  vs.foldl (fun acc v =>
    match acc with
    | Value.null => v
    | a => if (toNum v).getD 0 < (toNum a).getD 0 then v else a) Value.null

/-- First value attaining the numeric maximum. -/
def valuesMaxNum (vs : List Value) : Value :=
  vs.foldl (fun acc v =>
    match acc with
    | Value.null => v
    | a => if (toNum a).getD 0 < (toNum v).getD 0 then v else a) Value.null

/-- Sum of the non-null values (pandas `sum` skips NA): the integer sum
on a numeric column (`bool` coerced to 1/0, empty sum 0), string
concatenation on an all-string column (pandas `sum` on object dtype).
Only applied where `applyOp` has checked one of the two holds. -/
def valuesSum (vs : List Value) : Value :=
  let present := vs.filter (fun v => v ≠ Value.null)
  if present.all (fun v => (toNum v).isSome) then
    Value.int (present.foldl (fun acc v => acc + (toNum v).getD 0) 0)
  else
    Value.str (present.foldl
      (fun acc v => acc ++ (match v with | Value.str s => s | _ => "")) "")

/-- One pandas group aggregation applied to the column values of a
group, in original row order; `none` models the exception pandas raises
for an op unsupported on the column's values (`mean`/`std`/`var` on
anything non-numeric, `sum`/`min`/`max` on a mix of numbers and
strings), which `AggregateNode.execute`'s `except` clause turns into a
failed result.  `count` counts non-null values; `first`/`last` return
the first/last non-null value (pandas `GroupBy` semantics); the
floating-point results of `mean`/`std`/`var` are abstracted to `null`
(no claim inspects them), but their applicability is modelled exactly. -/
def applyOp (op : String) (vs : List Value) : Option Value :=
  let present := vs.filter (fun v => v ≠ Value.null)
  let numeric := present.all (fun v => (toNum v).isSome)
  let stringy := present.all (fun v =>
    match v with | Value.str _ => true | _ => false)
  if op == "count" then some (Value.int (Int.ofNat present.length))
  else if op == "first" then some (present.headD Value.null)
  else if op == "last" then some (present.getLastD Value.null)
  else if op == "sum" then
    if numeric || stringy then some (valuesSum vs) else none
  else if op == "min" then
    if numeric then some (valuesMinNum present)
    else if stringy then some (valuesMin present)
    else none
  else if op == "max" then
    if numeric then some (valuesMaxNum present)
    else if stringy then some (valuesMax present)
    else none
  else if numeric then some Value.null
  else none

/-- The result of the per-aggregation config loop of
`AggregateNode.execute` (lines 155–179): either the first error message,
or the insertion-ordered `agg_dict` mapping alias to `(col, op)`. -/
def buildAggDict (dfCols : List String) :
    List AggSpec → List (String × String × String) →
    Except String (List (String × String × String))
  | [], acc => Except.ok acc
  | a :: rest, acc =>
    let al := aggAlias a
    match a.col with
    | none => Except.error "Aggregation missing 'col'"
    | some c =>
      if c == "" then Except.error "Aggregation missing 'col'"
      else match a.op with
        | none => Except.error "Aggregation missing 'op'"
        | some o =>
          if o == "" then Except.error "Aggregation missing 'op'"
          else if !(VALID_OPS.contains o) then
            Except.error ("Invalid aggregation op: " ++ o)
          else if !(dfCols.contains c) then
            Except.error ("Aggregation column not found: " ++ c)
          else buildAggDict dfCols rest (dictInsert acc al (c, o))

/-- Group keys of `df.groupby(group_by)`: the key tuples of the rows,
those containing a null dropped (pandas `dropna=True`), sorted ascending
(pandas `sort=True`) and deduplicated. -/
def groupKeys (df : Table) (group_by : List String) : List (List Value) :=
  let keys := (df.rows.map (keyOf df.cols group_by)).filter
    (fun k => !(k.contains Value.null))
  (stableSort keyLe keys).dedup

/-- The rows of the group with key tuple `k`, in original order (pandas
preserves within-group row order). -/
def groupRows (df : Table) (group_by : List String) (k : List Value) :
    List (List Value) :=
  df.rows.filter (fun r => keyOf df.cols group_by r == k)

/-- `df.groupby(group_by, as_index=False).agg(**agg_dict)`: group-key
columns first, then one column per `agg_dict` entry.  pandas raises when
a result column name collides with a group key (`as_index=False` cannot
re-insert the key), and when an aggregation op is unsupported on its
column's values (`applyOp` returning `none`); both exceptions are
represented by `Except.error` (the library's exception texts are
version-specific and abstracted — no claim inspects them). -/
def groupbyAgg (df : Table) (group_by : List String)
    (aggDict : List (String × String × String)) : Except String Table :=
  if aggDict.any (fun e => group_by.contains e.1) then
    Except.error "cannot insert group key, already exists"
  else
    let ks := groupKeys df group_by
    if ks.all (fun k => aggDict.all (fun e =>
        (applyOp e.2.2 ((groupRows df group_by k).map
          (fun r => cellAt df.cols r e.2.1))).isSome)) then
      Except.ok
        { cols := group_by ++ aggDict.map (fun e => e.1),
          index := List.range ks.length,
          rows := ks.map (fun k =>
            k ++ aggDict.map (fun e =>
              (applyOp e.2.2 ((groupRows df group_by k).map
                (fun r => cellAt df.cols r e.2.1))).getD Value.null)) }
    else Except.error "agg function failed"

/-- `AggregateNode.execute` (config fields `groupBy` and `aggregations`
already extracted from the config dict, with their source defaults). -/
def AggregateNode.execute (group_by : List String)
    (aggregations : List AggSpec) (inputs : List Table) : NodeResultT :=
  match inputs with
  | [] => { success := false, error := some "No input data" }
  | df :: _ =>
    if group_by.isEmpty then
      { success := false, error := some "groupBy columns are required" }
    else if aggregations.isEmpty then
      { success := false, error := some "At least one aggregation is required" }
    else
      let missing := group_by.filter (fun c => !(df.cols.contains c))
      if !missing.isEmpty then
        { success := false,
          error := some ("Group columns not found: " ++ joinComma missing) }
      else
        match buildAggDict df.cols aggregations [] with
        | Except.error e => { success := false, error := some e }
        | Except.ok aggDict =>
          match groupbyAgg df group_by aggDict with
          | Except.error e =>
            { success := false, error := some ("Aggregation failed: " ++ e) }
          | Except.ok result => { success := true, data := some result }

/-! ## SafeExpressionParser (`parser.py`)

The `DANGEROUS_PATTERNS` regexes are hand-compiled to matchers over
`List Char`.  Python's `re` searches every position; `\b` before the
first (word) character of each pattern holds exactly when the previous
character is not a word character (or the position is the start), which
the scanner tracks.  `re.IGNORECASE` is modelled by lower-casing the
scanned character; `\w`/`\s` are modelled by the ASCII classes (the
engine's expressions are ASCII). -/

/-- Python regex `\w` (ASCII fragment). -/
def isWordChar (c : Char) : Bool := c.isAlphanum || c == '_'

/-- Python regex `\s` (ASCII fragment; Lean's `Char.isWhitespace` covers
space, tab, CR, LF). -/
def isSpaceChar (c : Char) : Bool := c.isWhitespace

/-- Case-insensitive literal prefix match; `pat` is given lower-case.
Returns the remaining input on success. -/
def matchCI : List Char → List Char → Option (List Char)
  | [], cs => some cs
  | _ :: _, [] => none
  | p :: ps, c :: cs => if c.toLower == p then matchCI ps cs else none

/-- `\s*\(`: skip whitespace, then require an opening parenthesis. -/
def wsThenParen : List Char → Bool
  | [] => false
  | c :: t => if c == '(' then true else if isSpaceChar c then wsThenParen t else false

/-- `\b` after a match: the next character (if any) is not a word
character. -/
def boundaryAfter : List Char → Bool
  | [] => true
  | c :: _ => !isWordChar c

/-- `__\b`-closing for the dunder pattern: some word characters, then
`__` followed by a word boundary. -/
def startsDunderEnd : List Char → Bool
  | '_' :: '_' :: u => boundaryAfter u
  | _ => false

/-- `\w+__\b`: at least one word character, then `__` and a boundary
(the existence-of-a-match semantics of the greedy regex). -/
def dunderClose : List Char → Bool
  | [] => false
  | c :: t => isWordChar c && (startsDunderEnd t || dunderClose t)

/-- `\b__\w+__\b` at the current position (the leading `\b` is checked
by the scanner). -/
def dunderAt (cs : List Char) : Bool :=
  match cs with
  | '_' :: '_' :: rest => dunderClose rest
  | _ => false

/-- `\b<name>\s*\(` at the current position. -/
def callAt (name : List Char) (cs : List Char) : Bool :=
  match matchCI name cs with
  | some rest => wsThenParen rest
  | none => false

/-- `\b<name><one whitespace>` at the current position (the `import` and
`lambda` patterns). -/
def nameSpaceAt (name : List Char) (cs : List Char) : Bool :=
  match matchCI name cs with
  | some (c :: _) => isSpaceChar c
  | _ => false

/-- `\b<prefix>.\w` at the current position (`os.`/`sys.` patterns;
`\w+` needs one word character to exist). -/
def dottedAt (name : List Char) (cs : List Char) : Bool :=
  match matchCI name cs with
  | some (c :: _) => isWordChar c
  | _ => false

/-- A bare literal (the `subprocess` and `__builtins__` patterns need
nothing after the match). -/
def literalAt (name : List Char) (cs : List Char) : Bool :=
  (matchCI name cs).isSome

/-- Scan every position of the input, tracking whether the previous
character is a word character (for the leading `\b` of every pattern). -/
def scanFrom (p : List Char → Bool) : Bool → List Char → Bool
  | _, [] => false
  | prevWord, c :: t => (!prevWord && p (c :: t)) || scanFrom p (isWordChar c) t

/-- `pattern.search(expression)` for one compiled pattern. -/
def patSearch (p : List Char → Bool) (s : String) : Bool :=
  scanFrom p false s.data

/-- `SafeExpressionParser.DANGEROUS_PATTERNS`, in source order, each as
its regex text (for the error message) paired with its matcher. -/
def DANGEROUS_PATTERNS : List (String × (List Char → Bool)) :=
  [("\\b__\\w+__\\b", dunderAt),
   ("\\bexec\\s*\\(", callAt "exec".data),
   ("\\beval\\s*\\(", callAt "eval".data),
   ("\\bcompile\\s*\\(", callAt "compile".data),
   ("\\bopen\\s*\\(", callAt "open".data),
   ("\\bimport\\s", nameSpaceAt "import".data),
   ("\\bos\\.\\w+", dottedAt "os.".data),
   ("\\bsys\\.\\w+", dottedAt "sys.".data),
   ("\\bsubprocess", literalAt "subprocess".data),
   ("\\bglobals\\s*\\(", callAt "globals".data),
   ("\\blocals\\s*\\(", callAt "locals".data),
   ("\\bgetattr\\s*\\(", callAt "getattr".data),
   ("\\bsetattr\\s*\\(", callAt "setattr".data),
   ("\\bdelattr\\s*\\(", callAt "delattr".data),
   ("\\b__builtins__", literalAt "__builtins__".data),
   ("\\blambda\\s", nameSpaceAt "lambda".data)]

/-- The `for pattern in self._compiled_patterns` loop of `validate`:
the first pattern that matches anywhere decides the error message. -/
def firstDangerous (s : String) : Option String :=
  (DANGEROUS_PATTERNS.find? (fun pp => patSearch pp.2 s)).map (fun pp => pp.1)

/-- `SafeExpressionParser.validate`.  `astParse` stands for CPython's
`ast.parse(expression, mode='eval')`: `none` when the expression parses,
`some msg` for a `SyntaxError` rendering as `msg`.  It is a parameter of
the embedding because the claims are decided before (or independently
of) the syntax check. -/
def validate (astParse : String → Option String) (expression : String) :
    Bool × Option String :=
  if expression.data.all Char.isWhitespace then
    (false, some "Expression cannot be empty")
  else
    match firstDangerous expression with
    | some pat =>
      (false, some ("Expression contains forbidden pattern: " ++ pat))
    | none =>
      match astParse expression with
      | some e => (false, some ("Invalid expression syntax: " ++ e))
      | none => (true, none)

/-- One text-level pass of `expr.replace('&&', ' and ')` (Python
`str.replace` scans left to right without overlap). -/
def replacePairABy (x y : Char) (rep : List Char) : List Char → List Char
  | [] => []
  | [c] => [c]
  | c :: d :: t =>
    if c == x && d == y then rep ++ replacePairABy x y rep t
    else c :: replacePairABy x y rep (d :: t)

/-- `re.sub(r'!(?!=)', ' not ', expr)`. -/
def replaceBang : List Char → List Char
  | [] => []
  | '!' :: '=' :: t => '!' :: '=' :: replaceBang t
  | '!' :: t => ' ' :: 'n' :: 'o' :: 't' :: ' ' :: replaceBang t
  | c :: t => c :: replaceBang t

/-- `re.sub(r'\s+', ' ', expr)`: each maximal whitespace run becomes a
single space (the flag records being inside a run). -/
def collapseWsAux : Bool → List Char → List Char
  | _, [] => []
  | inWs, c :: t =>
    if isSpaceChar c then
      if inWs then collapseWsAux true t else ' ' :: collapseWsAux true t
    else c :: collapseWsAux false t

/-- `re.sub(r'\s+', ' ', expr)`. -/
def collapseWs (cs : List Char) : List Char := collapseWsAux false cs

/-- `str.strip()`. -/
def stripStr (cs : List Char) : List Char :=
  ((cs.dropWhile isSpaceChar).reverse.dropWhile isSpaceChar).reverse

/-- `SafeExpressionParser._normalize_expression`. -/
def normalize_expression (expression : String) : String :=
  let e0 := stripStr expression.data
  let e1 := replacePairABy '&' '&' " and ".data e0
  let e2 := replacePairABy '|' '|' " or ".data e1
  let e3 := replaceBang e2
  String.mk (stripStr (collapseWs e3))

/-- `SafeExpressionParser.evaluate_filter`.  `queryFn` and `evalFn`
stand for pandas `DataFrame.query` and the `df.eval`-mask fallback; they
are parameters because the claims are about what happens before they are
reached.  An `Except.error` is a raised `ExpressionError`. -/
def evaluate_filter (astParse : String → Option String)
    (queryFn evalFn : Table → String → Except String Table)
    (df : Table) (expression : String) : Except String Table :=
  match validate astParse expression with
  | (false, err) => Except.error (err.getD "")
  | (true, _) =>
    let expr := normalize_expression expression
    match queryFn df expr with
    | Except.ok r => Except.ok r
    | Except.error _ =>
      match evalFn df expr with
      | Except.ok r => Except.ok r
      | Except.error e2 =>
        Except.error ("Failed to evaluate filter: " ++ e2)

/-- `SafeExpressionParser.evaluate_formula`; `evalFn` stands for
`df.eval` assigning the result to `new_column` on a copy of `df`. -/
def evaluate_formula (astParse : String → Option String)
    (evalFn : Table → String → String → Except String Table)
    (df : Table) (expression : String) (new_column : String) :
    Except String Table :=
  match validate astParse expression with
  | (false, err) => Except.error (err.getD "")
  | (true, _) =>
    let expr := normalize_expression expression
    match evalFn df expr new_column with
    | Except.ok r => Except.ok r
    | Except.error e =>
      Except.error ("Failed to evaluate formula: " ++ e)

/-! ## WorkflowExecutor (`executor.py`)

The executor is embedded generically: node behaviour enters as a
function `impl : type → node_id → config → inputs → ExecOutcome`, since
the executor claims quantify over what nodes do; a returned
`ExecOutcome.raises` is an exception escaping `node.execute` (Python
`except Exception`; process-killing `BaseException`s such as
`SystemExit` are outside the model). -/

/-- The three exception classes of `executor.py`. -/
inductive WorkflowErr : Type
  | workflow (msg : String)
  | nodeNotFound (msg : String)
  | cycle (msg : String)
deriving DecidableEq, Repr

/-- A node entry of the workflow document (§3 of the spec: `id`, `type`
and `config` are always present; the HTTP layer's pydantic models
guarantee this before `execute` is reached). -/
structure NodeDef (α : Type) : Type where
  id : String
  type : String
  config : α
deriving DecidableEq, Repr

/-- An edge of the workflow document; the camelCase/snake_case alternate
field names accepted by `_build_graph` denote the same field, and the
port defaults `'out'`/`'in'` are applied by `edge.get`. -/
structure EdgeDef : Type where
  fromNodeId : String
  toNodeId : String
  fromPort : String := "out"
  toPort : String := "in"
deriving DecidableEq, Repr

/-- A workflow document. -/
structure Workflow (α : Type) : Type where
  nodes : List (NodeDef α) := []
  edges : List EdgeDef := []
deriving DecidableEq, Repr

/-- The keys of `NODE_REGISTRY` (`nodes/__init__.py`). -/
def NODE_REGISTRY_KEYS : List String :=
  ["ReadCSV", "Filter", "Select", "Join", "Aggregate", "Sort", "Formula",
   "Output"]

/-- The node-creation loop of `_build_graph` (lines 152–161): reject the
first unknown type, otherwise build the `nodes` dict (later entries with
a duplicate id silently replace earlier ones). -/
def buildNodes {α : Type} :
    List (NodeDef α) → List (String × NodeDef α) →
    Except WorkflowErr (List (String × NodeDef α))
  | [], acc => Except.ok acc
  | nd :: rest, acc =>
    if NODE_REGISTRY_KEYS.contains nd.type then
      buildNodes rest (dictInsert acc nd.id nd)
    else Except.error (WorkflowErr.workflow ("Unknown node type: " ++ nd.type))

/-- The edge loop of `_build_graph` (lines 164–176): verify both
endpoints, and collect `adjacency` as (from, to) pairs and
`reverse_adj` as (to, from, fromPort, toPort) tuples, in edge order
(`defaultdict(list).append`). -/
def buildEdges (ids : List String) :
    List EdgeDef → List (String × String) →
    List (String × String × String × String) →
    Except WorkflowErr
      (List (String × String) × List (String × String × String × String))
  | [], adj, radj => Except.ok (adj, radj)
  | e :: rest, adj, radj =>
    if !(ids.contains e.fromNodeId) then
      Except.error (WorkflowErr.nodeNotFound
        ("Edge references unknown node: " ++ e.fromNodeId))
    else if !(ids.contains e.toNodeId) then
      Except.error (WorkflowErr.nodeNotFound
        ("Edge references unknown node: " ++ e.toNodeId))
    else
      buildEdges ids rest (adj ++ [(e.fromNodeId, e.toNodeId)])
        (radj ++ [(e.toNodeId, e.fromNodeId, e.fromPort, e.toPort)])

/-- `WorkflowExecutor._build_graph`. -/
def buildGraph {α : Type} (nodes_config : List (NodeDef α))
    (edges_config : List EdgeDef) :
    Except WorkflowErr
      (List (String × NodeDef α) × List (String × String) ×
       List (String × String × String × String)) :=
  match buildNodes nodes_config [] with
  | Except.error e => Except.error e
  | Except.ok nm =>
    match buildEdges (nm.map (fun p => p.1)) edges_config [] [] with
    | Except.error e => Except.error e
    | Except.ok (adj, radj) => Except.ok (nm, adj, radj)

/-- `adjacency.get(v, [])`: downstream neighbours in edge order. -/
def adjOf (adj : List (String × String)) (v : String) : List String :=
  (adj.filter (fun e => e.1 == v)).map (fun e => e.2)

/-- `in_degree[k] += 1`. -/
def bumpDeg (d : List (String × Nat)) (k : String) : List (String × Nat) :=
  d.map (fun p => if p.1 == k then (p.1, p.2 + 1) else p)

/-- `in_degree[k] -= 1` (never called on a zero entry along reachable
states, see `kahnInv`). -/
def decrDeg (d : List (String × Nat)) (k : String) : List (String × Nat) :=
  d.map (fun p => if p.1 == k then (p.1, p.2 - 1) else p)

/-- `in_degree[v]`. -/
def degOf (d : List (String × Nat)) (v : String) : Nat :=
  ((d.find? (fun p => p.1 == v)).map (fun p => p.2)).getD 0

/-- In-degree initialisation of `_topological_sort` (lines 198–201). -/
def initInDegree (ids : List String) (adj : List (String × String)) :
    List (String × Nat) :=
  adj.foldl (fun d e => bumpDeg d e.2) (ids.map (fun v => (v, 0)))

/-- The `while queue` loop of `_topological_sort` (lines 207–217):
sort the queue, pop the least id, decrement its downstream in-degrees,
append freshly-zeroed nodes.  The loop body runs at most once per node
(each iteration emits one id, and emitted ids are distinct), so fuel
equal to the node count realises the unbounded `while`. -/
def kahnLoop (adj : List (String × String)) :
    Nat → List (String × Nat) → List String → List String → List String
  | 0, _, _, res => res
  | fuel + 1, deg, queue, res =>
    match stableSort strLe queue with
    | [] => res
    | m :: rest =>
      let step := (adjOf adj m).foldl
        (fun (s : List (String × Nat) × List String) w =>
          let d2 := decrDeg s.1 w
          if degOf d2 w == 0 then (d2, s.2 ++ [w]) else (d2, s.2))
        (deg, rest)
      kahnLoop adj fuel step.1 step.2 (res ++ [m])

/-- `WorkflowExecutor._topological_sort`. -/
def topologicalSort (ids : List String) (adj : List (String × String)) :
    Except WorkflowErr (List String) :=
  let deg := initInDegree ids adj
  let queue := (deg.filter (fun p => p.2 == 0)).map (fun p => p.1)
  let result := kahnLoop adj ids.length deg queue []
  if result.length == ids.length then Except.ok result
  else Except.error (WorkflowErr.cycle "Workflow contains a cycle")

/-- Outcome of one `node.execute(inputs)` call. -/
inductive ExecOutcome (τ : Type) : Type
  | result (r : NodeResultG τ)
  | raises (msg : String)
deriving DecidableEq, Repr

/-- `WorkflowExecutor._gather_inputs`: upstream entries of `reverse_adj`
sorted (stably) by `to_port`, each cached upstream output copied into
the input list; upstream nodes without a cached output are skipped. -/
def gatherInputs {τ : Type}
    (radj : List (String × String × String × String))
    (outputs : List (String × τ)) (node_id : String) : List τ :=
  let upstream := (radj.filter (fun e => e.1 == node_id)).map (fun e => e.2)
  let sortedIn := stableSort (fun a b => strLe a.2.2 b.2.2) upstream
  sortedIn.filterMap (fun u => dictGet outputs u.1)

/-- The per-node run loop of `execute` (lines 97–123): gather inputs,
invoke the node, convert an escaped exception to
`NodeResult(success=False, error=str(e))`, record the result, and cache
`result.data` when `result.success and result.data is not None`. -/
def runNodes {α τ : Type} (impl : String → String → α → List τ → ExecOutcome τ)
    (nodesMap : List (String × NodeDef α))
    (radj : List (String × String × String × String)) :
    List String → List (String × τ) → List (String × NodeResultG τ) →
    List (String × τ) × List (String × NodeResultG τ)
  | [], outputs, results => (outputs, results)
  | nid :: rest, outputs, results =>
    match dictGet nodesMap nid with
    | none => runNodes impl nodesMap radj rest outputs results
    | some nd =>
      let inputs := gatherInputs radj outputs nid
      match impl nd.type nid nd.config inputs with
      | ExecOutcome.result r =>
        let outputs2 :=
          match r.data with
          | some d => if r.success then dictInsert outputs nid d else outputs
          | none => outputs
        runNodes impl nodesMap radj rest outputs2 (dictInsert results nid r)
      | ExecOutcome.raises msg =>
        runNodes impl nodesMap radj rest outputs
          (dictInsert results nid
            { success := false, data := none, error := some msg })

/-- `WorkflowExecutor.execute`. -/
def execute {α τ : Type} (impl : String → String → α → List τ → ExecOutcome τ)
    (wf : Workflow α) :
    Except WorkflowErr (List (String × NodeResultG τ)) :=
  if wf.nodes.isEmpty then
    Except.error (WorkflowErr.workflow "Workflow has no nodes")
  else
    match buildGraph wf.nodes wf.edges with
    | Except.error e => Except.error e
    | Except.ok (nm, adj, radj) =>
      match topologicalSort (nm.map (fun p => p.1)) adj with
      | Except.error e => Except.error e
      | Except.ok order => Except.ok (runNodes impl nm radj order [] []).2

/-! ## The canonical Kahn order (specification side)

Modelled from the spec: "Kahn's algorithm with deterministic
tie-breaking: the ready set is kept sorted by node id (lexicographic)
and the least id is dequeued first."  Used as the comparison point for
the refinement claim about `_topological_sort`. -/

/-- The ready set: nodes not yet emitted all of whose predecessors have
been emitted. -/
def readyNodes (edges : List (String × String)) (ids emitted : List String) :
    List String :=
  (ids.filter (fun v => !(emitted.contains v))).filter
    (fun v => edges.all (fun e => e.2 != v || emitted.contains e.1))

/-- Repeatedly emit the least ready node id. -/
def canonicalFrom (edges : List (String × String)) (ids : List String) :
    Nat → List String → List String
  | 0, _ => []
  | fuel + 1, emitted =>
    match stableSort strLe (readyNodes edges ids emitted) with
    | [] => []
    | m :: _ => m :: canonicalFrom edges ids fuel (emitted ++ [m])

/-- The canonical Kahn order of a graph. -/
def canonicalKahn (edges : List (String × String)) (ids : List String) :
    List String :=
  canonicalFrom edges ids ids.length []

/-- A (directed) cycle in the edge list: a nonempty node sequence with
an edge between consecutive entries and an edge from the last entry back
to the first. -/
def IsCycleIn (edges : List (String × String)) (c : List String) : Prop :=
  c ≠ [] ∧ List.Chain' (fun a b => (a, b) ∈ edges) c ∧
    (∀ a b, c.head? = some a → c.getLast? = some b → (b, a) ∈ edges)

/-- "The graph contains a cycle." -/
def HasCycle (edges : List (String × String)) : Prop :=
  ∃ c, IsCycleIn edges c

/-! ## The heap-instrumented executor (for the input-copy claim)

`executeH` refines `execute` by making table storage explicit: tables
live in a heap (`List τ`, references are indices), the `outputs` cache
maps a node id to the reference of its cached output (together with a
ghost snapshot of the value stored there), and `_gather_inputs`'s
`outputs[upstream_id].copy()` allocates a fresh cell holding a copy of
the cached table.  A node may mutate its input tables in place: its
outcome carries the final contents of the input cells it received, which
the executor writes back before continuing.  The `log` records, for each
node, which upstream output it consumed, through which fresh reference,
and with which value — the "pre-execution snapshot" of claim C5. -/

/-- Outcome of one node execution in the heap model: the `NodeResult`
(or escaped exception) together with the final contents of the node's
input cells after any in-place mutation. -/
inductive HOutcome (τ : Type) : Type
  | result (r : NodeResultG τ) (mutated : List τ)
  | raises (msg : String) (mutated : List τ)
deriving DecidableEq, Repr

/-- Executor state in the heap model. -/
structure HState (τ : Type) : Type where
  heap : List τ := []
  outputs : List (String × Nat × τ) := []
  results : List (String × NodeResultG τ) := []
  log : List (String × String × Nat × τ) := []
deriving DecidableEq, Repr

/-- Write mutated input contents back into the heap cells. -/
def writeRefs {τ : Type} (heap : List τ) : List (Nat × τ) → List τ
  | [] => heap
  | (r, v) :: t => writeRefs (heap.set r v) t

/-- One upstream entry of `_gather_inputs` in the heap model: skip an
upstream without a cached output, otherwise read the cached cell and
allocate a fresh cell with a copy of its contents (`.copy()`), recording
the hand-over in the log. -/
def gatherStep {τ : Type} (node_id : String)
    (acc : HState τ × List (Nat × τ)) (u : String × String × String) :
    HState τ × List (Nat × τ) :=
  match (acc.1.outputs.find? (fun o => o.1 == u.1)) with
  | none => acc
  | some o =>
    match acc.1.heap.get? o.2.1 with
    | none => acc
    | some v =>
      let newRef := acc.1.heap.length
      ({ acc.1 with
          heap := acc.1.heap ++ [v],
          log := acc.1.log ++ [(node_id, u.1, newRef, v)] },
       acc.2 ++ [(newRef, v)])

/-- `_gather_inputs` in the heap model: for each upstream entry (sorted
by `to_port`) with a cached output, read the cached cell and allocate a
fresh cell with a copy of its contents; record the hand-over in the
log.  Returns the new state and the references handed to the node. -/
def gatherInputsH {τ : Type}
    (radj : List (String × String × String × String))
    (node_id : String) (st : HState τ) : HState τ × List (Nat × τ) :=
  let upstream := (radj.filter (fun e => e.1 == node_id)).map (fun e => e.2)
  let sortedIn := stableSort (fun a b => strLe a.2.2 b.2.2) upstream
  sortedIn.foldl (gatherStep node_id) (st, [])

/-- The run loop of `execute` in the heap model. -/
def runNodesH {α τ : Type}
    (impl : String → String → α → List τ → HOutcome τ)
    (nodesMap : List (String × NodeDef α))
    (radj : List (String × String × String × String)) :
    List String → HState τ → HState τ
  | [], st => st
  | nid :: rest, st =>
    match dictGet nodesMap nid with
    | none => runNodesH impl nodesMap radj rest st
    | some nd =>
      let g := gatherInputsH radj nid st
      let st1 := g.1
      let refs := g.2
      match impl nd.type nid nd.config (refs.map (fun p => p.2)) with
      | HOutcome.result r mutated =>
        let heap2 := writeRefs st1.heap ((refs.map (fun p => p.1)).zip mutated)
        let st2 :=
          match r.data with
          | some d =>
            if r.success then
              { st1 with
                  heap := heap2 ++ [d],
                  outputs := st1.outputs ++ [(nid, heap2.length, d)],
                  results := dictInsert st1.results nid r }
            else { st1 with heap := heap2,
                            results := dictInsert st1.results nid r }
          | none => { st1 with heap := heap2,
                               results := dictInsert st1.results nid r }
        runNodesH impl nodesMap radj rest st2
      | HOutcome.raises msg mutated =>
        let heap2 := writeRefs st1.heap ((refs.map (fun p => p.1)).zip mutated)
        runNodesH impl nodesMap radj rest
          { st1 with
              heap := heap2,
              results := dictInsert st1.results nid
                { success := false, data := none, error := some msg } }

/-- `WorkflowExecutor.execute` in the heap model. -/
def executeH {α τ : Type}
    (impl : String → String → α → List τ → HOutcome τ) (wf : Workflow α) :
    Except WorkflowErr (HState τ) :=
  if wf.nodes.isEmpty then
    Except.error (WorkflowErr.workflow "Workflow has no nodes")
  else
    match buildGraph wf.nodes wf.edges with
    | Except.error e => Except.error e
    | Except.ok (nm, adj, radj) =>
      match topologicalSort (nm.map (fun p => p.1)) adj with
      | Except.error e => Except.error e
      | Except.ok order => Except.ok (runNodesH impl nm radj order {})

/-! ## Class-level I/O directories (`executor.py` lines 50–62,
`io_nodes.py` lines 24–25 and 79–80)

`ReadCSVNode.upload_dir` and `OutputNode.output_dir` are class-level
attributes — process-global mutable state — assigned by every
`WorkflowExecutor.__init__`.  A node instance resolves its directory
from the class attribute at execution time, not from the executor that
created it. -/

/-- The process-global class attributes. -/
structure IODirs : Type where
  uploadDir : Option String := none
  outputDir : Option String := none
deriving DecidableEq, Repr

/-- Interpreter start-up: both class attributes are `None`. -/
def initialIODirs : IODirs := {}

/-- `WorkflowExecutor.__init__(upload_dir, output_dir)`: its effect on
the process-global class attributes (`ReadCSVNode.upload_dir = ...;
OutputNode.output_dir = ...`). -/
def executorInit (upload_dir output_dir : String) (_g : IODirs) : IODirs :=
  { uploadDir := some upload_dir, outputDir := some output_dir }

/-- The directory a `ReadCSVNode` instance reads from when executed
under global state `g`: the class attribute. -/
def ReadCSVNode.effectiveUploadDir (g : IODirs) : Option String :=
  g.uploadDir

/-- The path `ReadCSVNode.execute` reads
(`self.upload_dir / f"{upload_id}.csv"`). -/
def ReadCSVNode.filePath (g : IODirs) (upload_id : String) : Option String :=
  g.uploadDir.map (fun d => d ++ "/" ++ upload_id ++ ".csv")

/-- The directory an `OutputNode` instance writes to under global state
`g`. -/
def OutputNode.effectiveOutputDir (g : IODirs) : Option String :=
  g.outputDir

/-! ## Specification-side description of the forbidden constructs (C1)

An independent, splitting-based description of "the expression contains
a forbidden construct", used to state the validator claim without
referring to the scanner. -/

/-- The character before the construct (if any) is not a word character
— the `\b` context to the left of every forbidden pattern. -/
def LeftBoundary (pre : List Char) : Prop :=
  ∀ c, pre.getLast? = some c → isWordChar c = false

/-- `act` spells `pat` up to ASCII case. -/
def CIEq (pat : String) (act : List Char) : Prop :=
  act.map Char.toLower = pat.data

/-- The names that `DANGEROUS_PATTERNS` forbids only as calls
(`\b<name>\s*\(`). -/
def CALL_NAMES : List String :=
  ["exec", "eval", "compile", "open", "globals", "locals", "getattr",
   "setattr", "delattr"]

/-- A forbidden construct starting at the current position:
a `__<word>__` identifier; one of the `CALL_NAMES` followed (after
optional whitespace) by `(`; `import` or `lambda` followed by a
whitespace character; `os.`/`sys.` followed by a word character;
`subprocess` or `__builtins__` anywhere — all case-insensitive. -/
inductive ForbiddenStart : List Char → Prop
  | dunder (w rest : List Char) (hw : w ≠ [])
      (hword : ∀ c ∈ w, isWordChar c = true)
      (hrest : ∀ c, rest.head? = some c → isWordChar c = false) :
      ForbiddenStart ('_' :: '_' :: (w ++ '_' :: '_' :: rest))
  | call (name : String) (hn : name ∈ CALL_NAMES) (act ws rest : List Char)
      (hci : CIEq name act) (hws : ∀ c ∈ ws, isSpaceChar c = true) :
      ForbiddenStart (act ++ ws ++ '(' :: rest)
  | importKw (act : List Char) (c : Char) (rest : List Char)
      (hci : CIEq "import" act) (hc : isSpaceChar c = true) :
      ForbiddenStart (act ++ c :: rest)
  | lambdaKw (act : List Char) (c : Char) (rest : List Char)
      (hci : CIEq "lambda" act) (hc : isSpaceChar c = true) :
      ForbiddenStart (act ++ c :: rest)
  | osDotted (act : List Char) (c : Char) (rest : List Char)
      (hci : CIEq "os." act) (hc : isWordChar c = true) :
      ForbiddenStart (act ++ c :: rest)
  | sysDotted (act : List Char) (c : Char) (rest : List Char)
      (hci : CIEq "sys." act) (hc : isWordChar c = true) :
      ForbiddenStart (act ++ c :: rest)
  | subprocessName (act rest : List Char) (hci : CIEq "subprocess" act) :
      ForbiddenStart (act ++ rest)
  | builtinsName (act rest : List Char) (hci : CIEq "__builtins__" act) :
      ForbiddenStart (act ++ rest)

/-- The expression contains a forbidden construct at a word boundary. -/
def ContainsForbidden (e : String) : Prop :=
  ∃ pre post, e.data = pre ++ post ∧ LeftBoundary pre ∧ ForbiddenStart post

/-! ## Invariant vocabulary for the Kahn loop -/

/-- Number of edge instances into `v` whose source has not been emitted
(the quantity `in_degree[v]` maintains). -/
def remainingInDegree (E : List (String × String)) (res : List String)
    (v : String) : Nat :=
  (E.filter (fun e => e.2 == v && !(res.contains e.1))).length

/-- Invariant of the `while queue` loop of `_topological_sort`:
`deg` is keyed by the node ids and holds the remaining in-degrees
w.r.t. the emitted prefix `res`; `queue` holds exactly the unemitted
nodes of remaining in-degree zero; emitted nodes have all their
predecessors emitted. -/
structure KahnInv (E : List (String × String)) (ids : List String)
    (deg : List (String × Nat)) (queue res : List String) : Prop where
  deg_keys : deg.map (fun p => p.1) = ids
  deg_val : ∀ v ∈ ids, degOf deg v = remainingInDegree E res v
  queue_nodup : queue.Nodup
  res_nodup : res.Nodup
  queue_sub : ∀ v ∈ queue, v ∈ ids
  res_sub : ∀ v ∈ res, v ∈ ids
  queue_iff : ∀ v ∈ ids,
    (v ∈ queue ↔ (v ∉ res ∧ remainingInDegree E res v = 0))
  res_closed : ∀ e ∈ E, e.2 ∈ res → e.1 ∈ res

/-- A chosen unemitted predecessor of `v` (used to extract a cycle from
a stuck state). -/
def pickPred (E : List (String × String)) (emitted : List String)
    (v : String) : String :=
  match E.find? (fun e => e.2 == v && !(emitted.contains e.1)) with
  | some e => e.1
  | none => v

/-! # Theorems -/

/-! ## The stable sort toolkit -/

theorem insertSorted_mem {α : Type} (le : α → α → Bool) (a c : α)
    (l : List α) : c ∈ insertSorted le a l ↔ c = a ∨ c ∈ l := by
  induction l with
  | nil => simp [insertSorted]
  | cons b t ih =>
    by_cases h : le a b = true
    · simp [insertSorted, h]
    · simp only [insertSorted, h, if_neg, Bool.not_eq_true, List.mem_cons, ih]
      tauto

theorem insertSorted_perm {α : Type} (le : α → α → Bool) (a : α)
    (l : List α) : (insertSorted le a l).Perm (a :: l) := by
  induction l with
  | nil => simp [insertSorted]
  | cons b t ih =>
    by_cases h : le a b = true
    · simp [insertSorted, h]
    · simp only [insertSorted, h, if_neg, Bool.not_eq_true]
      exact (ih.cons b).trans (List.Perm.swap a b t)

theorem stableSort_perm {α : Type} (le : α → α → Bool) (l : List α) :
    (stableSort le l).Perm l := by
  induction l with
  | nil => simp [stableSort]
  | cons a t ih =>
    exact (insertSorted_perm le a (stableSort le t)).trans (ih.cons a)

theorem stableSort_mem {α : Type} (le : α → α → Bool) (c : α) (l : List α) :
    c ∈ stableSort le l ↔ c ∈ l :=
  (stableSort_perm le l).mem_iff

theorem insertSorted_pairwise {α : Type} (le : α → α → Bool)
    (htr : ∀ a b c, le a b = true → le b c = true → le a c = true)
    (hto : ∀ a b, le a b = true ∨ le b a = true) (a : α) (l : List α)
    (h : l.Pairwise (fun x y => le x y = true)) :
    (insertSorted le a l).Pairwise (fun x y => le x y = true) := by
  induction l with
  | nil => simp [insertSorted]
  | cons b t ih =>
    rcases List.pairwise_cons.mp h with ⟨hb, ht⟩
    by_cases hab : le a b = true
    · rw [insertSorted, if_pos hab]
      refine List.pairwise_cons.mpr ⟨?_, h⟩
      intro c hc
      rcases List.mem_cons.mp hc with rfl | hc
      · exact hab
      · exact htr a b c hab (hb c hc)
    · rw [insertSorted, if_neg hab]
      refine List.pairwise_cons.mpr ⟨?_, ih ht⟩
      intro c hc
      rcases (insertSorted_mem le a c t).mp hc with rfl | hc
      · exact (hto c b).resolve_left hab
      · exact hb c hc

theorem stableSort_pairwise {α : Type} (le : α → α → Bool)
    (htr : ∀ a b c, le a b = true → le b c = true → le a c = true)
    (hto : ∀ a b, le a b = true ∨ le b a = true) (l : List α) :
    (stableSort le l).Pairwise (fun x y => le x y = true) := by
  induction l with
  | nil => simp [stableSort]
  | cons a t ih => exact insertSorted_pairwise le htr hto a _ ih

/-- A stable sort leaves an already-sorted list unchanged. -/
theorem stableSort_sorted_eq {α : Type} (le : α → α → Bool) :
    ∀ l : List α, l.Pairwise (fun x y => le x y = true) →
    stableSort le l = l
  | [], _ => rfl
  | [a], _ => rfl
  | a :: b :: t, h => by
    rcases List.pairwise_cons.mp h with ⟨hb, ht⟩
    have hrec : stableSort le (b :: t) = b :: t :=
      stableSort_sorted_eq le (b :: t) ht
    have hab : le a b = true := hb b (List.mem_cons_self b t)
    simp [stableSort] at hrec ⊢
    rw [hrec, insertSorted, if_pos hab]

theorem insertSorted_filter_pos {α : Type} (le : α → α → Bool)
    (p : α → Bool) (a : α) (l : List α) (hpa : p a = true)
    (hle : ∀ c ∈ l, p c = true → le a c = true) :
    (insertSorted le a l).filter p = a :: l.filter p := by
  induction l with
  | nil => simp [insertSorted, hpa]
  | cons b t ih =>
    by_cases hab : le a b = true
    · simp [insertSorted, hab, List.filter, hpa]
    · rw [insertSorted, if_neg hab]
      have hpb : p b = false := by
        by_contra hpb
        exact hab (hle b (List.mem_cons_self b t)
          (Bool.eq_true_of_not_eq_false hpb))
      rw [List.filter_cons_of_neg (by simp [hpb]),
        List.filter_cons_of_neg (by simp [hpb])]
      exact ih (fun c hc => hle c (List.mem_cons_of_mem b hc))

theorem insertSorted_filter_neg {α : Type} (le : α → α → Bool)
    (p : α → Bool) (a : α) (l : List α) (hpa : p a = false) :
    (insertSorted le a l).filter p = l.filter p := by
  induction l with
  | nil => simp [insertSorted, hpa]
  | cons b t ih =>
    by_cases hab : le a b = true
    · simp [insertSorted, hab, List.filter, hpa]
    · rw [insertSorted, if_neg hab]
      by_cases hpb : p b = true
      · rw [List.filter_cons_of_pos (by simp [hpb]),
          List.filter_cons_of_pos (by simp [hpb]), ih]
      · rw [List.filter_cons_of_neg (by simp [hpb]),
          List.filter_cons_of_neg (by simp [hpb]), ih]

/-- Stability: filtering any class of pairwise le-equivalent elements
out of the sorted list yields the original subsequence. -/
theorem stableSort_filter {α : Type} (le : α → α → Bool) (p : α → Bool)
    (l : List α)
    (heq : ∀ a ∈ l, ∀ b ∈ l, p a = true → p b = true → le a b = true) :
    (stableSort le l).filter p = l.filter p := by
  induction l with
  | nil => simp [stableSort]
  | cons a t ih =>
    have ht : ∀ x ∈ t, ∀ y ∈ t, p x = true → p y = true → le x y = true :=
      fun x hx y hy => heq x (List.mem_cons_of_mem a hx) y
        (List.mem_cons_of_mem a hy)
    by_cases hpa : p a = true
    · rw [stableSort, insertSorted_filter_pos le p a _ hpa
        (fun c hc hpc => heq a (List.mem_cons_self a t) c
          (List.mem_cons_of_mem a ((stableSort_mem le c t).mp hc)) hpa hpc),
        List.filter_cons_of_pos (by simp [hpa]), ih ht]
    · rw [stableSort, insertSorted_filter_neg le p a _
        (Bool.eq_false_iff.mpr (by simp [hpa])),
        List.filter_cons_of_neg (by simp [hpa]), ih ht]

/-- The head of the stably sorted list is a minimum. -/
theorem stableSort_head_min {α : Type} (le : α → α → Bool)
    (htr : ∀ a b c, le a b = true → le b c = true → le a c = true)
    (hto : ∀ a b, le a b = true ∨ le b a = true) (l : List α) (m : α)
    (rest : List α) (h : stableSort le l = m :: rest) :
    m ∈ l ∧ ∀ x ∈ l, le m x = true := by
  have hmem : m ∈ l := by
    have := (stableSort_mem le m l).mp (by rw [h]; exact List.mem_cons_self m rest)
    exact this
  refine ⟨hmem, fun x hx => ?_⟩
  have hx' : x ∈ m :: rest := by
    rw [← h]; exact (stableSort_mem le x l).mpr hx
  rcases List.mem_cons.mp hx' with rfl | hx'
  · exact (hto x x).elim id id
  · have hp := stableSort_pairwise le htr hto l
    rw [h] at hp
    exact (List.pairwise_cons.mp hp).1 x hx'

/-! ## The string and value orders are total preorders -/

theorem charLe_total (c d : Char) : charLe c d = true ∨ charLe d c = true := by
  unfold charLe
  rcases Nat.le_total c.val.toNat d.val.toNat with h | h
  · exact Or.inl (by simpa using h)
  · exact Or.inr (by simpa using h)

theorem charLe_trans (a b c : Char) (h1 : charLe a b = true)
    (h2 : charLe b c = true) : charLe a c = true := by
  unfold charLe at *
  simp only [decide_eq_true_eq] at *
  exact Nat.le_trans h1 h2

theorem charLe_antisymm (a b : Char) (h1 : charLe a b = true)
    (h2 : charLe b a = true) : a = b := by
  unfold charLe at *
  simp only [decide_eq_true_eq] at *
  exact Char.ext (UInt32.ext (Nat.le_antisymm h1 h2))

theorem charListLe_total : ∀ x y : List Char,
    charListLe x y = true ∨ charListLe y x = true
  | [], _ => Or.inl rfl
  | _ :: _, [] => Or.inr rfl
  | c :: cs, d :: ds => by
    by_cases h : c = d
    · subst h
      simpa [charListLe] using charListLe_total cs ds
    · have hne : (c == d) = false := by simpa using h
      have hne2 : (d == c) = false := by
        simp only [beq_eq_false_iff_ne, ne_eq]
        exact fun hdc => h hdc.symm
      simp only [charListLe, hne, hne2, Bool.false_eq_true, if_false]
      exact charLe_total c d

theorem charListLe_trans : ∀ x y z : List Char, charListLe x y = true →
    charListLe y z = true → charListLe x z = true
  | [], _, _, _, _ => rfl
  | _ :: _, [], _, h1, _ => by simp [charListLe] at h1
  | _ :: _, _ :: _, [], _, h2 => by simp [charListLe] at h2
  | a :: as, b :: bs, c :: cs, h1, h2 => by
    by_cases hab : a = b
    · subst hab
      simp only [charListLe, beq_self_eq_true, if_true] at h1
      by_cases hac : a = c
      · subst hac
        simp only [charListLe, beq_self_eq_true, if_true] at h2 ⊢
        exact charListLe_trans as bs cs h1 h2
      · have hne : (a == c) = false := by simpa using hac
        simpa [charListLe, hne] using h2
    · have hne : (a == b) = false := by simpa using hab
      simp only [charListLe, hne, Bool.false_eq_true, if_false] at h1
      by_cases hbc : b = c
      · subst hbc
        have hne2 : (a == b) = false := hne
        simp only [charListLe, hne2, Bool.false_eq_true, if_false]
        exact h1
      · have hne2 : (b == c) = false := by simpa using hbc
        simp only [charListLe, hne2, Bool.false_eq_true, if_false] at h2
        have hac : ¬ a = c := by
          intro he
          subst he
          exact hab (charLe_antisymm a b h1 h2)
        have hne3 : (a == c) = false := by simpa using hac
        simp only [charListLe, hne3, Bool.false_eq_true, if_false]
        exact charLe_trans a b c h1 h2

theorem charListLe_antisymm : ∀ x y : List Char, charListLe x y = true →
    charListLe y x = true → x = y
  | [], [], _, _ => rfl
  | [], _ :: _, _, h2 => by simp [charListLe] at h2
  | _ :: _, [], h1, _ => by simp [charListLe] at h1
  | a :: as, b :: bs, h1, h2 => by
    by_cases hab : a = b
    · subst hab
      simp only [charListLe, beq_self_eq_true, if_true] at h1 h2
      rw [charListLe_antisymm as bs h1 h2]
    · have hne : (a == b) = false := by simpa using hab
      have hne2 : (b == a) = false := by
        simp only [beq_eq_false_iff_ne, ne_eq]
        exact fun hba => hab hba.symm
      simp only [charListLe, hne, hne2, Bool.false_eq_true, if_false] at h1 h2
      exact absurd (charLe_antisymm a b h1 h2) hab

theorem strLe_total (a b : String) : strLe a b = true ∨ strLe b a = true :=
  charListLe_total a.data b.data

theorem strLe_trans (a b c : String) (h1 : strLe a b = true)
    (h2 : strLe b c = true) : strLe a c = true :=
  charListLe_trans a.data b.data c.data h1 h2

theorem strLe_antisymm (a b : String) (h1 : strLe a b = true)
    (h2 : strLe b a = true) : a = b := by
  cases a with
  | mk da =>
    cases b with
    | mk db =>
      exact congrArg String.mk (charListLe_antisymm da db h1 h2)

theorem charListLe_refl : ∀ x : List Char, charListLe x x = true
  | [] => rfl
  | c :: cs => by simp [charListLe, charListLe_refl cs]

theorem strLe_refl (a : String) : strLe a a = true := charListLe_refl a.data

theorem valueLe_refl (a : Value) : valueLe a a = true := by
  cases a <;> simp [valueLe, strLe_refl]

theorem valueLe_total (a b : Value) :
    valueLe a b = true ∨ valueLe b a = true := by
  cases a <;> cases b <;>
    simp only [valueLe, Value.rank, decide_eq_true_eq] <;>
    first
    | exact Int.le_total _ _
    | exact strLe_total _ _
    | (rename_i x y; cases x <;> cases y <;> simp)
    | omega
    | simp

theorem valueLe_trans (a b c : Value) (h1 : valueLe a b = true)
    (h2 : valueLe b c = true) : valueLe a c = true := by
  cases a <;> cases b <;> cases c <;>
    simp only [valueLe, Value.rank, decide_eq_true_eq] at h1 h2 ⊢ <;>
    first
    | exact Int.le_trans h1 h2
    | exact strLe_trans _ _ _ h1 h2
    | (rename_i x y z; cases x <;> cases y <;> cases z <;> simp_all)
    | omega
    | simp_all

theorem valueLe_antisymm (a b : Value) (h1 : valueLe a b = true)
    (h2 : valueLe b a = true) : a = b := by
  cases a <;> cases b <;>
    simp only [valueLe, Value.rank, decide_eq_true_eq] at h1 h2 <;>
    first
    | (rename_i x y; exact congrArg Value.int (Int.le_antisymm h1 h2))
    | (rename_i x y; exact congrArg Value.str (strLe_antisymm x y h1 h2))
    | (rename_i x y; cases x <;> cases y <;> simp_all)
    | rfl
    | omega

theorem keyLe_refl : ∀ k : List Value, keyLe k k = true
  | [] => rfl
  | _ :: as => by simp [keyLe, keyLe_refl as]

theorem keyLe_total : ∀ x y : List Value, keyLe x y = true ∨ keyLe y x = true
  | [], _ => Or.inl rfl
  | _ :: _, [] => Or.inr rfl
  | a :: as, b :: bs => by
    by_cases h : a = b
    · subst h
      simpa [keyLe] using keyLe_total as bs
    · have hne : (a == b) = false := by simpa using h
      have hne2 : (b == a) = false := by
        simp only [beq_eq_false_iff_ne, ne_eq]
        exact fun hba => h hba.symm
      simp only [keyLe, hne, hne2, Bool.false_eq_true, if_false]
      exact valueLe_total a b

theorem keyLe_trans : ∀ x y z : List Value, keyLe x y = true →
    keyLe y z = true → keyLe x z = true
  | [], _, _, _, _ => rfl
  | _ :: _, [], _, h1, _ => by simp [keyLe] at h1
  | _ :: _, _ :: _, [], _, h2 => by simp [keyLe] at h2
  | a :: as, b :: bs, c :: cs, h1, h2 => by
    by_cases hab : a = b
    · subst hab
      simp only [keyLe, beq_self_eq_true, if_true] at h1
      by_cases hac : a = c
      · subst hac
        simp only [keyLe, beq_self_eq_true, if_true] at h2 ⊢
        exact keyLe_trans as bs cs h1 h2
      · have hne : (a == c) = false := by simpa using hac
        simpa [keyLe, hne] using h2
    · have hne : (a == b) = false := by simpa using hab
      simp only [keyLe, hne, Bool.false_eq_true, if_false] at h1
      by_cases hbc : b = c
      · subst hbc
        simp only [keyLe, hne, Bool.false_eq_true, if_false]
        exact h1
      · have hne2 : (b == c) = false := by simpa using hbc
        simp only [keyLe, hne2, Bool.false_eq_true, if_false] at h2
        have hac : ¬ a = c := by
          intro he
          subst he
          exact hab (valueLe_antisymm a b h1 h2)
        have hne3 : (a == c) = false := by simpa using hac
        simp only [keyLe, hne3, Bool.false_eq_true, if_false]
        exact valueLe_trans a b c h1 h2

theorem keyLe_antisymm : ∀ x y : List Value, keyLe x y = true →
    keyLe y x = true → x = y
  | [], [], _, _ => rfl
  | [], _ :: _, _, h2 => by simp [keyLe] at h2
  | _ :: _, [], h1, _ => by simp [keyLe] at h1
  | a :: as, b :: bs, h1, h2 => by
    by_cases hab : a = b
    · subst hab
      simp only [keyLe, beq_self_eq_true, if_true] at h1 h2
      rw [keyLe_antisymm as bs h1 h2]
    · have hne : (a == b) = false := by simpa using hab
      have hne2 : (b == a) = false := by
        simp only [beq_eq_false_iff_ne, ne_eq]
        exact fun hba => hab hba.symm
      simp only [keyLe, hne, hne2, Bool.false_eq_true, if_false] at h1 h2
      exact absurd (valueLe_antisymm a b h1 h2) hab

/-! ## Sort node: stability, order, index reset, idempotence (C6) -/

theorem rowLe_total (cols columns : List String)
    (p q : Nat × List Value) :
    rowLe cols columns true p q = true ∨ rowLe cols columns true q p = true := by
  simp only [rowLe, if_true]
  exact keyLe_total _ _

theorem rowLe_trans (cols columns : List String)
    (p q r : Nat × List Value) (h1 : rowLe cols columns true p q = true)
    (h2 : rowLe cols columns true q r = true) :
    rowLe cols columns true p r = true := by
  simp only [rowLe, if_true] at h1 h2 ⊢
  exact keyLe_trans _ _ _ h1 h2

theorem sortValues_single (qs : SortKind) (df : Table)
    (columns : List String) (ascending : Bool) (h : columns.length = 1) :
    sortValues qs df columns ascending =
      { cols := df.cols,
        index := (qs (rowLe df.cols columns ascending)
          (df.index.zip df.rows)).map (fun p => p.1),
        rows := (qs (rowLe df.cols columns ascending)
          (df.index.zip df.rows)).map (fun p => p.2) } := by
  simp only [sortValues, h, beq_self_eq_true, if_true]

theorem sortValues_multi (qs : SortKind) (df : Table)
    (columns : List String) (ascending : Bool) (h : columns.length ≠ 1) :
    sortValues qs df columns ascending =
      { cols := df.cols,
        index := (stableSort (rowLe df.cols columns ascending)
          (df.index.zip df.rows)).map (fun p => p.1),
        rows := (stableSort (rowLe df.cols columns ascending)
          (df.index.zip df.rows)).map (fun p => p.2) } := by
  have hb : (columns.length == 1) = false := by simpa using h
  simp only [sortValues, hb, Bool.false_eq_true, if_false]

/-- Claim C6 (amended).  For every input table (with a well-formed
index), non-empty list of existing sort columns and any single-column
sorting backend satisfying the documented quicksort contract,
`SortNode.execute` succeeds and its output: keeps the column list; is a
permutation of the input rows sorted lexicographically by the given key
order; and has its row index reset.  When two or more sort columns are
given, pandas sorts with its stable lexsort, so additionally the sort is
stable (rows with equal key tuples keep their relative input order) and
sorting the output again by the same keys returns it unchanged.  (For a
single sort column pandas applies its default unstable `quicksort`,
which promises only a sorted permutation; see the counterexample.) -/
theorem c6_sort_ordered_reset_stable_multikey
    (qs : SortKind) (hqs : SortKindSpec qs)
    (df : Table) (columns : List String)
    (hne : columns ≠ [])
    (hex : ∀ c ∈ columns, df.cols.contains c = true)
    (hidx : df.index.length = df.rows.length) :
    ∃ d : Table,
      SortNode.execute qs columns true [df] =
        { success := true, data := some d, error := none } ∧
      d.cols = df.cols ∧
      d.rows.Perm df.rows ∧
      d.rows.Pairwise (fun r s =>
        keyLe (keyOf df.cols columns r) (keyOf df.cols columns s) = true) ∧
      d.index = List.range d.rows.length ∧
      (2 ≤ columns.length →
        (∀ k : List Value,
          d.rows.filter (fun r => keyOf df.cols columns r == k) =
            df.rows.filter (fun r => keyOf df.cols columns r == k)) ∧
        SortNode.execute qs columns true [d] =
          { success := true, data := some d, error := none }) := by
  have hmiss : columns.filter (fun c => !(df.cols.contains c)) = [] := by
    rw [List.filter_eq_nil]
    intro c hc
    rw [hex c hc]
    simp
  have hcolsne : columns.isEmpty = false := by
    cases columns with
    | nil => exact absurd rfl hne
    | cons c t => rfl
  set le := rowLe df.cols columns true with hle
  set pairs := df.index.zip df.rows with hpairs
  have hmapsnd : pairs.map Prod.snd = df.rows :=
    List.map_snd_zip df.index df.rows (le_of_eq hidx.symm)
  set d : Table := resetIndex (sortValues qs df columns true) with hd
  have hdcols : d.cols = df.cols := rfl
  have hdidx : d.index = List.range d.rows.length := rfl
  have hexec1 : SortNode.execute qs columns true [df] =
      { success := true, data := some d, error := none } := by
    simp only [SortNode.execute, hcolsne, Bool.false_eq_true, if_false,
      hmiss, List.isEmpty_nil, Bool.not_true, if_false]
  by_cases h1 : columns.length = 1
  · obtain ⟨hperm, hpw0⟩ := hqs le pairs (rowLe_total df.cols columns)
      (rowLe_trans df.cols columns)
    have hdrows : d.rows = (qs le pairs).map Prod.snd := by
      show (sortValues qs df columns true).rows = _
      rw [sortValues_single qs df columns true h1]
    refine ⟨d, hexec1, hdcols, ?_, ?_, hdidx, ?_⟩
    · rw [hdrows, ← hmapsnd]
      exact hperm.map Prod.snd
    · rw [hdrows, List.pairwise_map]
      refine hpw0.imp ?_
      intro a b h
      simpa [hle, rowLe] using h
    · intro h2
      omega
  · set sorted := stableSort le pairs with hsorted
    have hdrows : d.rows = sorted.map Prod.snd := by
      show (sortValues qs df columns true).rows = _
      rw [sortValues_multi qs df columns true h1]
    have hstab : ∀ k : List Value,
        d.rows.filter (fun r => keyOf df.cols columns r == k) =
          df.rows.filter (fun r => keyOf df.cols columns r == k) := by
      intro k
      have hfilter :
          sorted.filter (fun p => keyOf df.cols columns p.2 == k) =
            pairs.filter (fun p => keyOf df.cols columns p.2 == k) := by
        apply stableSort_filter
        intro a _ b _ hpa hpb
        have hka : keyOf df.cols columns a.2 = k := by simpa using hpa
        have hkb : keyOf df.cols columns b.2 = k := by simpa using hpb
        simp only [hle, rowLe, if_true, hka, hkb]
        exact keyLe_refl k
      calc d.rows.filter (fun r => keyOf df.cols columns r == k)
          = (sorted.map Prod.snd).filter
              (fun r => keyOf df.cols columns r == k) := by rw [hdrows]
        _ = (sorted.filter (fun p => keyOf df.cols columns p.2 == k)).map
              Prod.snd := by
            rw [List.filter_map]
            rfl
        _ = (pairs.filter (fun p => keyOf df.cols columns p.2 == k)).map
              Prod.snd := by rw [hfilter]
        _ = (pairs.map Prod.snd).filter
              (fun r => keyOf df.cols columns r == k) := by
            rw [List.filter_map]
            rfl
        _ = df.rows.filter (fun r => keyOf df.cols columns r == k) := by
            rw [hmapsnd]
    have hpw : d.rows.Pairwise (fun r s =>
        keyLe (keyOf df.cols columns r) (keyOf df.cols columns s) = true) := by
      rw [hdrows, List.pairwise_map]
      have := stableSort_pairwise le (rowLe_trans df.cols columns)
        (rowLe_total df.cols columns) pairs
      rw [← hsorted] at this
      refine this.imp ?_
      intro a b h
      simpa [hle, rowLe] using h
    have hdperm : d.rows.Perm df.rows := by
      rw [hdrows, ← hmapsnd]
      exact ((stableSort_perm le pairs).map Prod.snd).trans
        (List.Perm.refl _)
    have hdlen : d.index.length = d.rows.length := by
      rw [hdidx, List.length_range]
    have hmapsnd2 : (d.index.zip d.rows).map Prod.snd = d.rows :=
      List.map_snd_zip d.index d.rows (le_of_eq hdlen.symm)
    have hpairs2 : (d.index.zip d.rows).Pairwise (fun p q => le p q = true) := by
      have hthis : ((d.index.zip d.rows).map Prod.snd).Pairwise (fun r s =>
          keyLe (keyOf df.cols columns r) (keyOf df.cols columns s) = true) := by
        rw [hmapsnd2]
        exact hpw
      rw [List.pairwise_map] at hthis
      refine hthis.imp ?_
      intro a b h
      simpa [hle, rowLe] using h
    have hsort2 : stableSort le (d.index.zip d.rows) = d.index.zip d.rows :=
      stableSort_sorted_eq le _ hpairs2
    have hlc : rowLe d.cols columns true = le := by
      rw [hdcols]
    have hexec2 : SortNode.execute qs columns true [d] =
        { success := true, data := some d, error := none } := by
      have hmiss2 : columns.filter (fun c => !(d.cols.contains c)) = [] := by
        rw [hdcols]
        exact hmiss
      simp only [SortNode.execute, hcolsne, Bool.false_eq_true, if_false,
        hmiss2, List.isEmpty_nil, Bool.not_true, if_false]
      have hres : resetIndex (sortValues qs d columns true) = d := by
        have hsv2 : sortValues qs d columns true =
            { cols := d.cols, index := (d.index.zip d.rows).map Prod.fst,
              rows := (d.index.zip d.rows).map Prod.snd } := by
          rw [sortValues_multi qs d columns true h1, hlc, hsort2]
        rw [hsv2]
        simp only [resetIndex, hmapsnd2]
        rw [← hdidx]
      rw [hres]
    exact ⟨d, hexec1, hdcols, hdperm, hpw, hdidx,
      fun _ => ⟨hstab, hexec2⟩⟩

/-- Counterexample to C6 as stated: for a single sort column pandas
applies its default `kind='quicksort'`, whose order among tied rows the
documentation leaves unspecified.  The backend
`fun le l => stableSort le l.reverse` satisfies that documented contract
(`SortKindSpec`: a sorted permutation), yet under it the Sort node swaps
the two equal-key rows of a two-row table — the sort is not stable — and
sorting the output again swaps them back — sorting twice differs from
sorting once. -/
theorem c6_counterexample :
    SortKindSpec (fun le l => stableSort le l.reverse) ∧
    SortNode.execute (fun le l => stableSort le l.reverse) ["a"] true
      [{ cols := ["a", "b"], index := [0, 1],
         rows := [[Value.int 1, Value.int 10],
                  [Value.int 1, Value.int 20]] }] =
      { success := true,
        data := some { cols := ["a", "b"], index := [0, 1],
                       rows := [[Value.int 1, Value.int 20],
                                [Value.int 1, Value.int 10]] },
        error := none } ∧
    SortNode.execute (fun le l => stableSort le l.reverse) ["a"] true
      [{ cols := ["a", "b"], index := [0, 1],
         rows := [[Value.int 1, Value.int 20],
                  [Value.int 1, Value.int 10]] }] =
      { success := true,
        data := some { cols := ["a", "b"], index := [0, 1],
                       rows := [[Value.int 1, Value.int 10],
                                [Value.int 1, Value.int 20]] },
        error := none } := by
  refine ⟨?_, by decide, by decide⟩
  intro le l hto htr
  exact ⟨(stableSort_perm le l.reverse).trans l.reverse_perm,
    stableSort_pairwise le htr hto l.reverse⟩

/-- Witness for C6: the theorem applied, with the stable backend (which
satisfies the quicksort contract), to a three-row table sorted by two
key columns with a duplicated key tuple. -/
theorem c6_witness :
    ∃ d : Table,
      SortNode.execute (fun le l => stableSort le l) ["a", "b"] true
          [{ cols := ["a", "b"], index := [0, 1, 2],
             rows := [[Value.int 2, Value.int 5],
                      [Value.int 1, Value.int 9],
                      [Value.int 2, Value.int 5]] }] =
        { success := true, data := some d, error := none } ∧
      d.cols = ["a", "b"] ∧
      d.rows.Perm [[Value.int 2, Value.int 5], [Value.int 1, Value.int 9],
                   [Value.int 2, Value.int 5]] ∧
      d.rows.Pairwise (fun r s =>
        keyLe (keyOf ["a", "b"] ["a", "b"] r)
          (keyOf ["a", "b"] ["a", "b"] s) = true) ∧
      d.index = List.range d.rows.length ∧
      (2 ≤ (["a", "b"] : List String).length →
        (∀ k : List Value,
          d.rows.filter (fun r => keyOf ["a", "b"] ["a", "b"] r == k) =
            [[Value.int 2, Value.int 5], [Value.int 1, Value.int 9],
             [Value.int 2, Value.int 5]].filter
              (fun r => keyOf ["a", "b"] ["a", "b"] r == k)) ∧
        SortNode.execute (fun le l => stableSort le l) ["a", "b"] true [d] =
          { success := true, data := some d, error := none }) :=
  c6_sort_ordered_reset_stable_multikey (fun le l => stableSort le l)
    (fun le l hto htr =>
      ⟨stableSort_perm le l, stableSort_pairwise le htr hto l⟩)
    { cols := ["a", "b"], index := [0, 1, 2],
      rows := [[Value.int 2, Value.int 5], [Value.int 1, Value.int 9],
               [Value.int 2, Value.int 5]] }
    ["a", "b"] (by decide) (by decide) (by decide)

/-! ## Validator: forbidden constructs are rejected (C1) -/

theorem matchCI_append (rest : List Char) :
    ∀ (act pat : List Char), act.map Char.toLower = pat →
    matchCI pat (act ++ rest) = some rest := by
  intro act
  induction act with
  | nil =>
    intro pat h
    rw [← h]
    rfl
  | cons c cs ih =>
    intro pat h
    rw [← h]
    simp only [List.map, List.cons_append, matchCI, beq_self_eq_true, if_true]
    exact ih (cs.map Char.toLower) rfl

theorem wsThenParen_append (ws rest : List Char)
    (hws : ∀ c ∈ ws, isSpaceChar c = true) :
    wsThenParen (ws ++ '(' :: rest) = true := by
  induction ws with
  | nil => rfl
  | cons c t ih =>
    have hc : isSpaceChar c = true := hws c (List.mem_cons_self c t)
    have hcp : (c == '(') = false := by
      by_contra h
      have : c = '(' := by
        have := Bool.eq_true_of_not_eq_false h
        simpa using this
      subst this
      simp [isSpaceChar] at hc
    simp only [List.cons_append, wsThenParen, hcp, Bool.false_eq_true,
      if_false, hc, if_true]
    exact ih (fun d hd => hws d (List.mem_cons_of_mem c hd))

theorem boundaryAfter_of_head (rest : List Char)
    (h : ∀ c, rest.head? = some c → isWordChar c = false) :
    boundaryAfter rest = true := by
  cases rest with
  | nil => rfl
  | cons c t =>
    simp only [boundaryAfter]
    rw [h c rfl]
    rfl

theorem dunderClose_append (rest : List Char)
    (hb : boundaryAfter rest = true) :
    ∀ w : List Char, w ≠ [] → (∀ c ∈ w, isWordChar c = true) →
    dunderClose (w ++ '_' :: '_' :: rest) = true := by
  intro w
  induction w with
  | nil => intro h; exact absurd rfl h
  | cons c t ih =>
    intro _ hword
    have hc : isWordChar c = true := hword c (List.mem_cons_self c t)
    cases t with
    | nil =>
      show dunderClose (c :: '_' :: '_' :: rest) = true
      rw [show dunderClose (c :: '_' :: '_' :: rest) =
        (isWordChar c && (startsDunderEnd ('_' :: '_' :: rest) ||
          dunderClose ('_' :: '_' :: rest))) from rfl]
      rw [hc, show startsDunderEnd ('_' :: '_' :: rest) =
        boundaryAfter rest from rfl, hb]
      simp
    | cons d u =>
      have ht : dunderClose ((d :: u) ++ '_' :: '_' :: rest) = true :=
        ih (by simp) (fun x hx => hword x (List.mem_cons_of_mem c hx))
      show dunderClose (c :: ((d :: u) ++ '_' :: '_' :: rest)) = true
      rw [show dunderClose (c :: ((d :: u) ++ '_' :: '_' :: rest)) =
        (isWordChar c && (startsDunderEnd ((d :: u) ++ '_' :: '_' :: rest) ||
          dunderClose ((d :: u) ++ '_' :: '_' :: rest))) from rfl]
      rw [hc, ht]
      simp

theorem callAt_true (name : String) (act ws rest : List Char)
    (hci : CIEq name act) (hws : ∀ c ∈ ws, isSpaceChar c = true) :
    callAt name.data (act ++ (ws ++ '(' :: rest)) = true := by
  unfold callAt
  rw [matchCI_append (ws ++ '(' :: rest) act name.data hci]
  exact wsThenParen_append ws rest hws

theorem nameSpaceAt_true (name : String) (act : List Char) (c : Char)
    (rest : List Char) (hci : CIEq name act) (hc : isSpaceChar c = true) :
    nameSpaceAt name.data (act ++ c :: rest) = true := by
  unfold nameSpaceAt
  rw [matchCI_append (c :: rest) act name.data hci]
  simp [hc]

theorem dottedAt_true (name : String) (act : List Char) (c : Char)
    (rest : List Char) (hci : CIEq name act) (hc : isWordChar c = true) :
    dottedAt name.data (act ++ c :: rest) = true := by
  unfold dottedAt
  rw [matchCI_append (c :: rest) act name.data hci]
  simp [hc]

theorem literalAt_true (name : String) (act rest : List Char)
    (hci : CIEq name act) : literalAt name.data (act ++ rest) = true := by
  unfold literalAt
  rw [matchCI_append rest act name.data hci]
  rfl

/-- Every forbidden construct is matched by one of the compiled
patterns at its own position. -/
theorem exists_pattern_of_forbiddenStart (post : List Char)
    (h : ForbiddenStart post) :
    ∃ pp, pp ∈ DANGEROUS_PATTERNS ∧ pp.2 post = true := by
  cases h with
  | dunder w rest hw hword hrest =>
    refine ⟨("\\b__\\w+__\\b", dunderAt), by simp [DANGEROUS_PATTERNS], ?_⟩
    simp only [dunderAt]
    exact dunderClose_append rest (boundaryAfter_of_head rest hrest) w hw hword
  | call name hn act ws rest hci hws =>
    have hmatch : callAt name.data ((act ++ ws) ++ '(' :: rest) = true := by
      rw [List.append_assoc]
      exact callAt_true name act ws rest hci hws
    simp only [CALL_NAMES, List.mem_cons, List.not_mem_nil, or_false] at hn
    rcases hn with rfl | rfl | rfl | rfl | rfl | rfl | rfl | rfl | rfl
    · exact ⟨("\\bexec\\s*\\(", callAt "exec".data),
        by simp [DANGEROUS_PATTERNS], hmatch⟩
    · exact ⟨("\\beval\\s*\\(", callAt "eval".data),
        by simp [DANGEROUS_PATTERNS], hmatch⟩
    · exact ⟨("\\bcompile\\s*\\(", callAt "compile".data),
        by simp [DANGEROUS_PATTERNS], hmatch⟩
    · exact ⟨("\\bopen\\s*\\(", callAt "open".data),
        by simp [DANGEROUS_PATTERNS], hmatch⟩
    · exact ⟨("\\bglobals\\s*\\(", callAt "globals".data),
        by simp [DANGEROUS_PATTERNS], hmatch⟩
    · exact ⟨("\\blocals\\s*\\(", callAt "locals".data),
        by simp [DANGEROUS_PATTERNS], hmatch⟩
    · exact ⟨("\\bgetattr\\s*\\(", callAt "getattr".data),
        by simp [DANGEROUS_PATTERNS], hmatch⟩
    · exact ⟨("\\bsetattr\\s*\\(", callAt "setattr".data),
        by simp [DANGEROUS_PATTERNS], hmatch⟩
    · exact ⟨("\\bdelattr\\s*\\(", callAt "delattr".data),
        by simp [DANGEROUS_PATTERNS], hmatch⟩
  | importKw act c rest hci hc =>
    exact ⟨("\\bimport\\s", nameSpaceAt "import".data),
      by simp [DANGEROUS_PATTERNS], nameSpaceAt_true "import" act c rest hci hc⟩
  | lambdaKw act c rest hci hc =>
    exact ⟨("\\blambda\\s", nameSpaceAt "lambda".data),
      by simp [DANGEROUS_PATTERNS], nameSpaceAt_true "lambda" act c rest hci hc⟩
  | osDotted act c rest hci hc =>
    exact ⟨("\\bos\\.\\w+", dottedAt "os.".data),
      by simp [DANGEROUS_PATTERNS], dottedAt_true "os." act c rest hci hc⟩
  | sysDotted act c rest hci hc =>
    exact ⟨("\\bsys\\.\\w+", dottedAt "sys.".data),
      by simp [DANGEROUS_PATTERNS], dottedAt_true "sys." act c rest hci hc⟩
  | subprocessName act rest hci =>
    exact ⟨("\\bsubprocess", literalAt "subprocess".data),
      by simp [DANGEROUS_PATTERNS], literalAt_true "subprocess" act rest hci⟩
  | builtinsName act rest hci =>
    exact ⟨("\\b__builtins__", literalAt "__builtins__".data),
      by simp [DANGEROUS_PATTERNS], literalAt_true "__builtins__" act rest hci⟩

/-- The scanner finds a pattern match placed after a word boundary. -/
theorem scanFrom_append (p : List Char → Bool) :
    ∀ (pre : List Char) (pw : Bool) (post : List Char), post ≠ [] →
    p post = true → LeftBoundary pre → (pre = [] → pw = false) →
    scanFrom p pw (pre ++ post) = true := by
  intro pre
  induction pre with
  | nil =>
    intro pw post hne hp _ hpw
    cases post with
    | nil => exact absurd rfl hne
    | cons c t => simp [scanFrom, hpw rfl, hp]
  | cons c cs ih =>
    intro pw post hne hp hb _
    have hrec : scanFrom p (isWordChar c) (cs ++ post) = true := by
      refine ih (isWordChar c) post hne hp ?_ ?_
      · intro x hx
        apply hb
        cases cs with
        | nil => simp at hx
        | cons d u => rw [List.getLast?_cons_cons]; exact hx
      · intro hcs
        subst hcs
        exact hb c rfl
    simp [scanFrom, hrec]

theorem toLower_eq_self_of_whitespace (c : Char) (h : c.isWhitespace = true) :
    c.toLower = c := by
  simp [Char.isWhitespace] at h
  rcases h with ((rfl | rfl) | rfl) | rfl <;> decide

theorem head_nonws_of_CIEq (name : String) (act : List Char)
    (hci : CIEq name act) (n0 : Char) (nrest : List Char)
    (hn : name.data = n0 :: nrest) (hn0 : n0.isWhitespace = false) :
    ∃ c ∈ act, c.isWhitespace = false := by
  cases act with
  | nil =>
    unfold CIEq at hci
    rw [hn] at hci
    simp at hci
  | cons c cs =>
    refine ⟨c, List.mem_cons_self c cs, ?_⟩
    unfold CIEq at hci
    rw [hn] at hci
    simp only [List.map, List.cons.injEq] at hci
    by_contra hws
    rw [Bool.not_eq_false] at hws
    rw [toLower_eq_self_of_whitespace c hws] at hci
    rw [hci.1] at hws
    rw [hn0] at hws
    exact absurd hws (by simp)

theorem forbiddenStart_nonws (post : List Char) (h : ForbiddenStart post) :
    ∃ c ∈ post, c.isWhitespace = false := by
  cases h with
  | dunder w rest hw hword hrest =>
    exact ⟨'_', List.mem_cons_self _ _, by decide⟩
  | call name hn act ws rest hci hws =>
    exact ⟨'(', by simp, by decide⟩
  | importKw act c rest hci hc =>
    obtain ⟨x, hx, hxw⟩ := head_nonws_of_CIEq "import" act hci 'i' _ rfl (by decide)
    exact ⟨x, List.mem_append_left _ hx, hxw⟩
  | lambdaKw act c rest hci hc =>
    obtain ⟨x, hx, hxw⟩ := head_nonws_of_CIEq "lambda" act hci 'l' _ rfl (by decide)
    exact ⟨x, List.mem_append_left _ hx, hxw⟩
  | osDotted act c rest hci hc =>
    obtain ⟨x, hx, hxw⟩ := head_nonws_of_CIEq "os." act hci 'o' _ rfl (by decide)
    exact ⟨x, List.mem_append_left _ hx, hxw⟩
  | sysDotted act c rest hci hc =>
    obtain ⟨x, hx, hxw⟩ := head_nonws_of_CIEq "sys." act hci 's' _ rfl (by decide)
    exact ⟨x, List.mem_append_left _ hx, hxw⟩
  | subprocessName act rest hci =>
    obtain ⟨x, hx, hxw⟩ :=
      head_nonws_of_CIEq "subprocess" act hci 's' _ rfl (by decide)
    exact ⟨x, List.mem_append_left _ hx, hxw⟩
  | builtinsName act rest hci =>
    obtain ⟨x, hx, hxw⟩ :=
      head_nonws_of_CIEq "__builtins__" act hci '_' _ rfl (by decide)
    exact ⟨x, List.mem_append_left _ hx, hxw⟩

theorem containsForbidden_not_blank (e : String) (h : ContainsForbidden e) :
    e.data.all Char.isWhitespace = false := by
  obtain ⟨pre, post, heq, _, hfs⟩ := h
  obtain ⟨c, hc, hcw⟩ := forbiddenStart_nonws post hfs
  by_contra hall
  rw [Bool.not_eq_false] at hall
  have := List.all_eq_true.mp hall c (by rw [heq]; exact List.mem_append_right pre hc)
  rw [hcw] at this
  exact absurd this (by simp)

theorem firstDangerous_of_contains (e : String) (h : ContainsForbidden e) :
    ∃ pat, firstDangerous e = some pat := by
  obtain ⟨pre, post, heq, hb, hfs⟩ := h
  obtain ⟨pp, hpp, hmatch⟩ := exists_pattern_of_forbiddenStart post hfs
  have hpost : post ≠ [] := by
    obtain ⟨c, hc, _⟩ := forbiddenStart_nonws post hfs
    intro hnil
    rw [hnil] at hc
    exact absurd hc (List.not_mem_nil c)
  have hscan : patSearch pp.2 e = true := by
    unfold patSearch
    rw [heq]
    exact scanFrom_append pp.2 pre false post hpost hmatch hb (fun _ => rfl)
  have hsome : (DANGEROUS_PATTERNS.find? (fun q => patSearch q.2 e)).isSome := by
    rw [List.find?_isSome]
    exact ⟨pp, hpp, hscan⟩
  obtain ⟨q, hq⟩ := Option.isSome_iff_exists.mp hsome
  refine ⟨q.1, ?_⟩
  unfold firstDangerous
  rw [hq]
  rfl

/-- Claim C1 (amended).  For every expression containing a forbidden
construct — a `__<word>__` identifier; one of `exec`, `eval`, `compile`,
`open`, `globals`, `locals`, `getattr`, `setattr`, `delattr` followed
(after optional whitespace) by an opening parenthesis; `import` or
`lambda` followed by whitespace; dotted `os.`/`sys.` access;
`subprocess` or `__builtins__` anywhere (all case-insensitive, at a left
word boundary) — `validate` rejects it with a forbidden-pattern message,
and `evaluate_filter`/`evaluate_formula` raise `ExpressionError` with
that message for every choice of the pandas evaluation functions and of
the input table, i.e. without evaluating the expression against the
table; empty or whitespace-only expressions are rejected with
"Expression cannot be empty". -/
theorem c1_validator_rejects_forbidden
    (astParse : String → Option String)
    (queryFn evalFn : Table → String → Except String Table)
    (fEval : Table → String → String → Except String Table)
    (df : Table) (e : String) (new_column : String) :
    (ContainsForbidden e →
      ∃ pat,
        validate astParse e =
          (false, some ("Expression contains forbidden pattern: " ++ pat)) ∧
        evaluate_filter astParse queryFn evalFn df e =
          Except.error ("Expression contains forbidden pattern: " ++ pat) ∧
        evaluate_formula astParse fEval df e new_column =
          Except.error ("Expression contains forbidden pattern: " ++ pat)) ∧
    (e.data.all Char.isWhitespace = true →
      validate astParse e = (false, some "Expression cannot be empty") ∧
      evaluate_filter astParse queryFn evalFn df e =
        Except.error "Expression cannot be empty" ∧
      evaluate_formula astParse fEval df e new_column =
        Except.error "Expression cannot be empty") := by
  constructor
  · intro h
    obtain ⟨pat, hpat⟩ := firstDangerous_of_contains e h
    have hnb := containsForbidden_not_blank e h
    have hval : validate astParse e =
        (false, some ("Expression contains forbidden pattern: " ++ pat)) := by
      unfold validate
      rw [hnb, hpat]
      simp
    refine ⟨pat, hval, ?_, ?_⟩
    · unfold evaluate_filter
      rw [hval]
      rfl
    · unfold evaluate_formula
      rw [hval]
      rfl
  · intro hws
    have hval : validate astParse e =
        (false, some "Expression cannot be empty") := by
      unfold validate
      rw [hws]
      simp
    refine ⟨hval, ?_, ?_⟩
    · unfold evaluate_filter
      rw [hval]
      rfl
    · unfold evaluate_formula
      rw [hval]
      rfl

/-- Witness for C1 at `"__import__"` (a forbidden dunder identifier) and
at the whitespace-only expression `" "`. -/
theorem c1_witness :
    (∃ pat,
      validate (fun _ => none) "__import__" =
        (false, some ("Expression contains forbidden pattern: " ++ pat)) ∧
      evaluate_filter (fun _ => none) (fun d _ => Except.ok d)
        (fun d _ => Except.ok d) { cols := [], index := [], rows := [] }
        "__import__" =
        Except.error ("Expression contains forbidden pattern: " ++ pat) ∧
      evaluate_formula (fun _ => none) (fun d _ _ => Except.ok d)
        { cols := [], index := [], rows := [] } "__import__" "x" =
        Except.error ("Expression contains forbidden pattern: " ++ pat)) ∧
    validate (fun _ => none) " " =
      (false, some "Expression cannot be empty") := by
  constructor
  · refine (c1_validator_rejects_forbidden (fun _ => none)
      (fun d _ => Except.ok d) (fun d _ => Except.ok d)
      (fun d _ _ => Except.ok d)
      { cols := [], index := [], rows := [] } "__import__" "x").1 ?_
    refine ⟨[], '_' :: '_' :: ("import".data ++ '_' :: '_' :: ([] : List Char)),
      rfl, ?_, ?_⟩
    · intro c hc
      simp at hc
    · exact ForbiddenStart.dunder "import".data [] (by decide) (by decide)
        (by intro c hc; simp at hc)
  · exact ((c1_validator_rejects_forbidden (fun _ => none)
      (fun d _ => Except.ok d) (fun d _ => Except.ok d)
      (fun d _ _ => Except.ok d)
      { cols := [], index := [], rows := [] } " " "x").2 (by decide)).1

/-- Counterexample to C1 as stated: the expression `"exec"` contains the
name `exec` (it is that name), yet `validate` accepts it — the
`DANGEROUS_PATTERNS` entry for `exec` requires a following `(` — so no
pattern matches, and CPython's `ast.parse` parses the bare name `exec`
(a plain identifier in Python 3), which the parameter `fun _ => none`
reflects. -/
theorem c1_counterexample :
    validate (fun _ => none) "exec" = (true, none) ∧
    firstDangerous "exec" = none := by
  constructor
  · rfl
  · rfl

/-! ## Graph build: duplicate node ids (C9) -/

theorem dictGet_map_replace_self {α : Type} (m : List (String × α))
    (k : String) (v : α) (h : m.any (fun p => p.1 == k) = true) :
    dictGet (m.map (fun p => if p.1 == k then (p.1, v) else p)) k = some v := by
  induction m with
  | nil => simp at h
  | cons p t ih =>
    by_cases hp : (p.1 == k) = true
    · have hk : p.1 = k := by simpa using hp
      simp only [List.map, hp, if_true, dictGet, List.find?, hk,
        beq_self_eq_true]
      rfl
    · have hany : t.any (fun p => p.1 == k) = true := by
        simp only [List.any_cons, hp, Bool.false_or] at h
        exact h
      simp only [List.map, hp, Bool.false_eq_true, if_false]
      unfold dictGet at ih ⊢
      simp only [List.find?, hp]
      exact ih hany

theorem dictGet_map_replace_ne {α : Type} (m : List (String × α))
    (k k' : String) (v : α) (h : k' ≠ k) :
    dictGet (m.map (fun p => if p.1 == k then (p.1, v) else p)) k' =
      dictGet m k' := by
  induction m with
  | nil => rfl
  | cons p t ih =>
    by_cases hp : (p.1 == k) = true
    · have hk : p.1 = k := by simpa using hp
      have hne : (p.1 == k') = false := by
        rw [hk]
        simp only [beq_eq_false_iff_ne, ne_eq]
        exact fun he => h he.symm
      simp only [List.map, hp, if_true]
      unfold dictGet
      simp only [List.find?, hne]
      exact ih
    · simp only [List.map, hp, Bool.false_eq_true, if_false]
      unfold dictGet at ih ⊢
      by_cases hq : (p.1 == k') = true
      · simp only [List.find?, hq]
      · simp only [List.find?, hq]
        exact ih

theorem dictGet_of_not_mem {α : Type} (m : List (String × α)) (k : String)
    (h : m.any (fun p => p.1 == k) = false) : dictGet m k = none := by
  unfold dictGet
  have hf : List.find? (fun p => p.1 == k) m = none := by
    rw [List.find?_eq_none]
    intro p hp
    have := List.any_eq_false.mp h p hp
    simpa using this
  rw [hf]
  rfl

theorem dictGet_dictInsert_self {α : Type} (m : List (String × α))
    (k : String) (v : α) : dictGet (dictInsert m k v) k = some v := by
  unfold dictInsert
  by_cases h : m.any (fun p => p.1 == k) = true
  · rw [if_pos h]
    exact dictGet_map_replace_self m k v h
  · rw [if_neg h]
    unfold dictGet
    rw [List.find?_append, List.find?_eq_none.mpr]
    · simp [List.find?]
    · intro p hp
      have := List.any_eq_false.mp (Bool.eq_false_iff.mpr h) p hp
      simpa using this

theorem dictGet_dictInsert_ne {α : Type} (m : List (String × α))
    (k k' : String) (v : α) (h : k' ≠ k) :
    dictGet (dictInsert m k v) k' = dictGet m k' := by
  unfold dictInsert
  by_cases hm : m.any (fun p => p.1 == k) = true
  · rw [if_pos hm]
    exact dictGet_map_replace_ne m k k' v h
  · rw [if_neg hm]
    unfold dictGet
    rw [List.find?_append]
    have hone : List.find? (fun p => p.1 == k') [(k, v)] = none := by
      have hkk : ((k, v).1 == k') = false := by
        simp only [beq_eq_false_iff_ne, ne_eq]
        exact fun he => h he.symm
      simp [List.find?, hkk]
    rw [hone]
    cases List.find? (fun p => p.1 == k') m <;> rfl

theorem buildNodes_ok {α : Type} :
    ∀ (l : List (NodeDef α)) (acc : List (String × NodeDef α)),
    (∀ nd ∈ l, NODE_REGISTRY_KEYS.contains nd.type = true) →
    buildNodes l acc =
      Except.ok (l.foldl (fun m nd => dictInsert m nd.id nd) acc)
  | [], acc, _ => rfl
  | nd :: t, acc, h => by
    have hnd := h nd (List.mem_cons_self nd t)
    simp only [buildNodes, hnd, if_true]
    exact buildNodes_ok t (dictInsert acc nd.id nd)
      (fun x hx => h x (List.mem_cons_of_mem nd hx))

theorem foldl_dictInsert_get {α : Type} :
    ∀ (l : List (NodeDef α)) (acc : List (String × NodeDef α)) (i : String),
    dictGet (l.foldl (fun m nd => dictInsert m nd.id nd) acc) i =
      match l.reverse.find? (fun nd => nd.id == i) with
      | some nd => some nd
      | none => dictGet acc i
  | [], acc, i => rfl
  | nd :: t, acc, i => by
    simp only [List.foldl_cons, List.reverse_cons, List.find?_append]
    rw [foldl_dictInsert_get t (dictInsert acc nd.id nd) i]
    cases hfind : t.reverse.find? (fun x => x.id == i) with
    | some x => rfl
    | none =>
      simp only [Option.none_or]
      by_cases hi : (nd.id == i) = true
      · have : nd.id = i := by simpa using hi
        subst this
        simp only [List.find?, beq_self_eq_true]
        exact dictGet_dictInsert_self acc nd.id nd
      · simp only [List.find?, hi]
        exact dictGet_dictInsert_ne acc nd.id i nd
          (fun he => hi (by simp [he]))

theorem buildEdges_ok (ids : List String) :
    ∀ (l : List EdgeDef) (adj : List (String × String))
      (radj : List (String × String × String × String)),
    (∀ e ∈ l, ids.contains e.fromNodeId = true ∧
      ids.contains e.toNodeId = true) →
    buildEdges ids l adj radj = Except.ok
      (adj ++ l.map (fun e => (e.fromNodeId, e.toNodeId)),
       radj ++ l.map (fun e => (e.toNodeId, e.fromNodeId, e.fromPort,
         e.toPort)))
  | [], adj, radj, _ => by simp [buildEdges]
  | e :: t, adj, radj, h => by
    have he := h e (List.mem_cons_self e t)
    simp only [buildEdges, he.1, he.2, Bool.not_true, Bool.false_eq_true,
      if_false]
    rw [buildEdges_ok ids t _ _ (fun x hx => h x (List.mem_cons_of_mem e hx))]
    simp [List.append_assoc]

theorem contains_keys_eq_isSome {α : Type} (m : List (String × α))
    (i : String) :
    (m.map (fun p => p.1)).contains i = (dictGet m i).isSome := by
  induction m with
  | nil => rfl
  | cons p t ih =>
    by_cases hp : p.1 = i
    · subst hp
      simp [dictGet, List.find?]
    · have h1 : (i == p.1) = false := by
        simp only [beq_eq_false_iff_ne, ne_eq]
        exact fun he => hp he.symm
      have h2 : (p.1 == i) = false := by simpa using hp
      simp only [List.map, List.contains_cons, h1, Bool.false_or]
      unfold dictGet at ih ⊢
      simp only [List.find?, h2]
      exact ih

/-- Claim C9.  A workflow whose node list contains duplicate ids builds
without error (provided, as always, that its node types are registered
and its edges reference declared ids — the duplication itself is never
rejected), and the node map holds, for each id, exactly the node built
from the **last** entry with that id: later entries silently replace
earlier ones, and execution then uses only that instance. -/
theorem c9_duplicate_ids_last_wins {α : Type}
    (nodes_config : List (NodeDef α)) (edges_config : List EdgeDef)
    (htypes : ∀ nd ∈ nodes_config, NODE_REGISTRY_KEYS.contains nd.type = true)
    (hedges : ∀ e ∈ edges_config,
      (∃ nd ∈ nodes_config, nd.id = e.fromNodeId) ∧
      (∃ nd ∈ nodes_config, nd.id = e.toNodeId)) :
    ∃ nm adj radj,
      buildGraph nodes_config edges_config = Except.ok (nm, adj, radj) ∧
      ∀ i : String,
        dictGet nm i = nodes_config.reverse.find? (fun nd => nd.id == i) := by
  have hnm := buildNodes_ok nodes_config [] htypes
  set nm := nodes_config.foldl (fun m nd => dictInsert m nd.id nd) [] with hnmdef
  have hget : ∀ i : String,
      dictGet nm i = nodes_config.reverse.find? (fun nd => nd.id == i) := by
    intro i
    rw [hnmdef, foldl_dictInsert_get nodes_config [] i]
    cases nodes_config.reverse.find? (fun nd => nd.id == i) <;> rfl
  have hkeys : ∀ i : String, (∃ nd ∈ nodes_config, nd.id = i) →
      (nm.map (fun p => p.1)).contains i = true := by
    intro i ⟨nd, hmem, hid⟩
    rw [contains_keys_eq_isSome, hget i]
    rw [Option.isSome_iff_exists]
    have : ∃ x ∈ nodes_config.reverse, (fun nd => nd.id == i) x = true :=
      ⟨nd, List.mem_reverse.mpr hmem, by simp [hid]⟩
    obtain ⟨y, hy⟩ := Option.isSome_iff_exists.mp (List.find?_isSome.mpr this)
    exact ⟨y, hy⟩
  have hbe := buildEdges_ok (nm.map (fun p => p.1)) edges_config [] []
    (fun e he => ⟨hkeys e.fromNodeId (hedges e he).1,
      hkeys e.toNodeId (hedges e he).2⟩)
  refine ⟨nm, edges_config.map (fun e => (e.fromNodeId, e.toNodeId)),
    edges_config.map (fun e => (e.toNodeId, e.fromNodeId, e.fromPort,
      e.toPort)), ?_, hget⟩
  have hred : buildGraph nodes_config edges_config =
      (match buildEdges (nm.map (fun p => p.1)) edges_config [] [] with
       | Except.error e => Except.error e
       | Except.ok (adj, radj) => Except.ok (nm, adj, radj)) := by
    unfold buildGraph
    rw [hnm]
  rw [hred, hbe]
  simp

/-- Witness for C9: two nodes with the id `"n"`; the build succeeds and
the map holds the second entry (a `Select` node), not the first. -/
theorem c9_witness :
    ∃ nm adj radj,
      buildGraph (α := Unit)
        [{ id := "n", type := "Filter", config := () },
         { id := "n", type := "Select", config := () }] [] =
        Except.ok (nm, adj, radj) ∧
      ∀ i : String,
        dictGet nm i =
          [{ id := "n", type := "Filter", config := () },
           { id := "n", type := "Select", config := () }].reverse.find?
            (fun nd => nd.id == i) :=
  c9_duplicate_ids_last_wins
    [{ id := "n", type := "Filter", config := () },
     { id := "n", type := "Select", config := () }] []
    (by decide) (fun e he => absurd he (List.not_mem_nil e))

/-! ## Aggregate node: shape of the result (C8, C10) -/

theorem buildAggDict_ok (dfCols : List String) :
    ∀ (l : List AggSpec) (acc : List (String × String × String)),
    (∀ a ∈ l, ∃ c o, a.col = some c ∧ c ≠ "" ∧ dfCols.contains c = true ∧
      a.op = some o ∧ VALID_OPS.contains o = true) →
    buildAggDict dfCols l acc = Except.ok
      (l.foldl (fun m a =>
        dictInsert m (aggAlias a) (a.col.getD "", a.op.getD "")) acc)
  | [], _, _ => rfl
  | a :: t, acc, h => by
    obtain ⟨c, o, hc, hcne, hccol, ho, hop⟩ := h a (List.mem_cons_self a t)
    have hone : o ≠ "" := by
      intro he
      subst he
      exact absurd hop (by decide)
    have hcb : (c == "") = false := by simpa using hcne
    have hob : (o == "") = false := by simpa using hone
    simp only [buildAggDict, hc, hcb, Bool.false_eq_true, if_false, ho, hob,
      hop, Bool.not_true, hccol, if_false, if_true]
    rw [buildAggDict_ok dfCols t _
      (fun x hx => h x (List.mem_cons_of_mem a hx))]
    simp [hc, ho]

theorem foldl_dictInsert_fresh {β : Type} :
    ∀ (l : List (String × β)) (acc : List (String × β)),
    (∀ p ∈ l, acc.any (fun q => q.1 == p.1) = false) →
    (l.map Prod.fst).Nodup →
    l.foldl (fun m p => dictInsert m p.1 p.2) acc = acc ++ l
  | [], acc, _, _ => by simp
  | p :: t, acc, hfresh, hnodup => by
    have hp := hfresh p (List.mem_cons_self p t)
    have hins : dictInsert acc p.1 p.2 = acc ++ [p] := by
      unfold dictInsert
      rw [if_neg (by rw [hp]; exact Bool.false_ne_true)]
    simp only [List.foldl_cons, hins]
    rw [foldl_dictInsert_fresh t (acc ++ [p]) ?_ ?_]
    · simp
    · intro q hq
      rw [List.any_append]
      have h1 := hfresh q (List.mem_cons_of_mem p hq)
      rw [h1]
      have hne : p.1 ≠ q.1 := by
        simp only [List.map, List.nodup_cons] at hnodup
        exact fun he => hnodup.1 (he ▸ List.mem_map_of_mem Prod.fst hq)
      simp [hne]
    · simp only [List.map, List.nodup_cons] at hnodup
      exact hnodup.2

/-- Successful run of `AggregateNode.execute` on a valid config with
pairwise distinct aliases disjoint from the group keys, whose
aggregations are all applicable to their columns' values: the exact
result table. -/
theorem aggregateNode_execute_ok (df : Table) (group_by : List String)
    (aggregations : List AggSpec)
    (hgb : group_by ≠ [])
    (hgbcols : ∀ c ∈ group_by, df.cols.contains c = true)
    (haggs : aggregations ≠ [])
    (hvalid : ∀ a ∈ aggregations, ∃ c o, a.col = some c ∧ c ≠ "" ∧
      df.cols.contains c = true ∧ a.op = some o ∧
      VALID_OPS.contains o = true)
    (hnodup : (aggregations.map aggAlias).Nodup)
    (hdisj : ∀ a ∈ aggregations, group_by.contains (aggAlias a) = false)
    (happ : ∀ k ∈ groupKeys df group_by, ∀ a ∈ aggregations,
      (applyOp (a.op.getD "") ((groupRows df group_by k).map
        (fun r => cellAt df.cols r (a.col.getD "")))).isSome = true) :
    AggregateNode.execute group_by aggregations [df] =
      { success := true,
        data := some
          { cols := group_by ++ aggregations.map aggAlias,
            index := List.range (groupKeys df group_by).length,
            rows := (groupKeys df group_by).map (fun k =>
              k ++ aggregations.map (fun a =>
                (applyOp (a.op.getD "") ((groupRows df group_by k).map
                  (fun r => cellAt df.cols r (a.col.getD "")))).getD
                  Value.null)) },
        error := none } := by
  have hgbne : group_by.isEmpty = false := by
    cases group_by with
    | nil => exact absurd rfl hgb
    | cons c t => rfl
  have haggne : aggregations.isEmpty = false := by
    cases aggregations with
    | nil => exact absurd rfl haggs
    | cons a t => rfl
  have hmiss : group_by.filter (fun c => !(df.cols.contains c)) = [] := by
    rw [List.filter_eq_nil]
    intro c hc
    rw [hgbcols c hc]
    simp
  have hdict := buildAggDict_ok df.cols aggregations [] hvalid
  have hfold : aggregations.foldl (fun m a =>
      dictInsert m (aggAlias a) (a.col.getD "", a.op.getD "")) [] =
      aggregations.map (fun a =>
        (aggAlias a, a.col.getD "", a.op.getD "")) := by
    have := foldl_dictInsert_fresh
      (aggregations.map (fun a => (aggAlias a, a.col.getD "", a.op.getD "")))
      [] (fun p _ => rfl) ?_
    · rw [List.foldl_map] at this
      simpa using this
    · rw [List.map_map]
      exact hnodup
  rw [hfold] at hdict
  have hcollide : (aggregations.map (fun a =>
      (aggAlias a, a.col.getD "", a.op.getD ""))).any
        (fun e => group_by.contains e.1) = false := by
    rw [List.any_eq_false]
    intro e he
    rw [List.mem_map] at he
    obtain ⟨a, ha, rfl⟩ := he
    rw [hdisj a ha]
    exact Bool.false_ne_true
  have hall : (groupKeys df group_by).all (fun k =>
      (aggregations.map (fun a =>
        (aggAlias a, a.col.getD "", a.op.getD ""))).all (fun e =>
          (applyOp e.2.2 ((groupRows df group_by k).map
            (fun r => cellAt df.cols r e.2.1))).isSome)) = true := by
    rw [List.all_eq_true]
    intro k hk
    rw [List.all_eq_true]
    intro e he
    rw [List.mem_map] at he
    obtain ⟨a, ha, rfl⟩ := he
    exact happ k hk a ha
  have hgba : groupbyAgg df group_by (aggregations.map (fun a =>
      (aggAlias a, a.col.getD "", a.op.getD ""))) = Except.ok
      { cols := group_by ++ aggregations.map aggAlias,
        index := List.range (groupKeys df group_by).length,
        rows := (groupKeys df group_by).map (fun k =>
          k ++ aggregations.map (fun a =>
            (applyOp (a.op.getD "") ((groupRows df group_by k).map
              (fun r => cellAt df.cols r (a.col.getD "")))).getD
              Value.null)) } := by
    unfold groupbyAgg
    rw [if_neg (by rw [hcollide]; exact Bool.false_ne_true)]
    simp only [hall, if_true]
    simp only [List.map_map]
    rfl
  unfold AggregateNode.execute
  simp only [hgbne, Bool.false_eq_true, if_false, haggne, hmiss,
    List.isEmpty_nil, Bool.not_true, if_false, hdict, hgba]

theorem groupKeys_length_le (df : Table) (group_by : List String) :
    (groupKeys df group_by).length ≤
      ((df.rows.map (keyOf df.cols group_by)).dedup).length := by
  unfold groupKeys
  set keys := df.rows.map (keyOf df.cols group_by) with hkeys
  set filtered := keys.filter (fun k => !(k.contains Value.null)) with hf
  have h1 : (stableSort keyLe filtered).dedup.length =
      filtered.dedup.length :=
    ((stableSort_perm keyLe filtered).dedup).length_eq
  rw [h1, ← List.card_toFinset, ← List.card_toFinset]
  apply Finset.card_le_card
  intro x hx
  simp only [List.mem_toFinset] at hx ⊢
  exact (List.filter_sublist keys).subset hx

theorem groupKeys_pairwise (df : Table) (group_by : List String) :
    (groupKeys df group_by).Pairwise
      (fun k1 k2 => keyLe k1 k2 = true ∧ k1 ≠ k2) := by
  unfold groupKeys
  have hsorted := stableSort_pairwise keyLe keyLe_trans keyLe_total
    ((df.rows.map (keyOf df.cols group_by)).filter
      (fun k => !(k.contains Value.null)))
  have hle := hsorted.sublist (List.dedup_sublist _)
  have hnd : (stableSort keyLe ((df.rows.map (keyOf df.cols group_by)).filter
      (fun k => !(k.contains Value.null)))).dedup.Nodup :=
    List.nodup_dedup _
  exact hle.and hnd

theorem groupKeys_mem_length (df : Table) (group_by : List String)
    (k : List Value) (hk : k ∈ groupKeys df group_by) :
    k.length = group_by.length := by
  unfold groupKeys at hk
  have h1 := (List.dedup_sublist _).subset hk
  rw [stableSort_mem] at h1
  rw [List.mem_filter] at h1
  obtain ⟨h2, _⟩ := h1
  rw [List.mem_map] at h2
  obtain ⟨r, _, rfl⟩ := h2
  simp [keyOf]

/-- Claim C8 (amended).  For every input table and valid Aggregate
config whose result-column names are pairwise distinct and disjoint from
the groupBy columns, and whose aggregations are applicable to their
columns' values (pandas raises, and the node fails, when e.g. `mean`,
`std` or `var` meets a string column), the output has at most as many
rows as there are distinct groupBy tuples in the input, its rows are
ordered strictly ascending by group key (lexicographic tuple compare),
and its columns are the groupBy columns in the given order followed by
one column per aggregation.  (Aggregations sharing one result name
collapse into a single column — Python-dict overwrite — which is what
forces the distinctness proviso; see the counterexample.) -/
theorem c8_aggregate_shape (df : Table) (group_by : List String)
    (aggregations : List AggSpec)
    (hgb : group_by ≠ [])
    (hgbcols : ∀ c ∈ group_by, df.cols.contains c = true)
    (haggs : aggregations ≠ [])
    (hvalid : ∀ a ∈ aggregations, ∃ c o, a.col = some c ∧ c ≠ "" ∧
      df.cols.contains c = true ∧ a.op = some o ∧
      VALID_OPS.contains o = true)
    (hnodup : (aggregations.map aggAlias).Nodup)
    (hdisj : ∀ a ∈ aggregations, group_by.contains (aggAlias a) = false)
    (happ : ∀ k ∈ groupKeys df group_by, ∀ a ∈ aggregations,
      (applyOp (a.op.getD "") ((groupRows df group_by k).map
        (fun r => cellAt df.cols r (a.col.getD "")))).isSome = true) :
    ∃ result : Table,
      AggregateNode.execute group_by aggregations [df] =
        { success := true, data := some result, error := none } ∧
      result.cols = group_by ++ aggregations.map aggAlias ∧
      result.rows.length ≤
        ((df.rows.map (keyOf df.cols group_by)).dedup).length ∧
      (result.rows.map (fun r => r.take group_by.length)).Pairwise
        (fun k1 k2 => keyLe k1 k2 = true ∧ k1 ≠ k2) := by
  refine ⟨_, aggregateNode_execute_ok df group_by aggregations hgb hgbcols
    haggs hvalid hnodup hdisj happ, rfl, ?_, ?_⟩
  · simpa using groupKeys_length_le df group_by
  · have hks : ((groupKeys df group_by).map (fun k =>
        k ++ aggregations.map (fun a =>
          (applyOp (a.op.getD "") ((groupRows df group_by k).map
            (fun r => cellAt df.cols r (a.col.getD "")))).getD
            Value.null))).map
        (fun r => r.take group_by.length) = groupKeys df group_by := by
      rw [List.map_map]
      have : ∀ k ∈ groupKeys df group_by,
          ((fun r => r.take group_by.length) ∘ (fun k =>
            k ++ aggregations.map (fun a =>
              (applyOp (a.op.getD "") ((groupRows df group_by k).map
                (fun r => cellAt df.cols r (a.col.getD "")))).getD
                Value.null))) k = id k := by
        intro k hk
        simp only [Function.comp, id]
        rw [← groupKeys_mem_length df group_by k hk]
        exact List.take_left k _
      rw [List.map_congr_left this, List.map_id]
    simpa [hks] using (hks ▸ (groupKeys_pairwise df group_by))

/-- Counterexample to C8 as stated: two aggregations sharing the result
name `"x"` (a valid config — existing columns, supported ops) produce a
single result column, because `agg_dict[alias] = (col, op)` silently
overwrites: columns are `["g", "x"]`, not one column per aggregation. -/
theorem c8_counterexample :
    AggregateNode.execute ["g"]
      [{ col := some "a", op := some "sum", asKey := some "x" },
       { col := some "a", op := some "count", asKey := some "x" }]
      [{ cols := ["g", "a"], index := [0],
         rows := [[Value.int 1, Value.int 2]] }] =
      { success := true,
        data := some { cols := ["g", "x"], index := [0],
                       rows := [[Value.int 1, Value.int 1]] },
        error := none } ∧
    (["g", "x"].length ≠ ["g"].length +
      ([{ col := some "a", op := some "sum", asKey := some "x" },
        { col := some "a", op := some "count", asKey := some "x" }] :
        List AggSpec).length) := by
  constructor
  · rfl
  · decide

/-- Witness for C8 at a concrete two-group table. -/
theorem c8_witness :
    ∃ result : Table,
      AggregateNode.execute ["g"]
        [{ col := some "v", op := some "sum", asKey := some "total" },
         { col := some "v", op := some "count" }]
        [{ cols := ["g", "v"], index := [0, 1, 2],
           rows := [[Value.str "s", Value.int 5],
                    [Value.str "e", Value.int 7],
                    [Value.str "s", Value.int 6]] }] =
        { success := true, data := some result, error := none } ∧
      result.cols = ["g"] ++
        [{ col := some "v", op := some "sum", asKey := some "total" },
         { col := some "v", op := some "count" }].map aggAlias ∧
      result.rows.length ≤
        (([[Value.str "s", Value.int 5], [Value.str "e", Value.int 7],
           [Value.str "s", Value.int 6]].map
            (keyOf ["g", "v"] ["g"])).dedup).length ∧
      (result.rows.map (fun r => r.take ["g"].length)).Pairwise
        (fun k1 k2 => keyLe k1 k2 = true ∧ k1 ≠ k2) :=
  c8_aggregate_shape
    { cols := ["g", "v"], index := [0, 1, 2],
      rows := [[Value.str "s", Value.int 5], [Value.str "e", Value.int 7],
               [Value.str "s", Value.int 6]] }
    ["g"]
    [{ col := some "v", op := some "sum", asKey := some "total" },
     { col := some "v", op := some "count" }]
    (by decide) (by decide) (by decide)
    (by
      intro a ha
      simp only [List.mem_cons, List.not_mem_nil, or_false] at ha
      rcases ha with rfl | rfl
      · exact ⟨"v", "sum", rfl, by decide, by decide, rfl, by decide⟩
      · exact ⟨"v", "count", rfl, by decide, by decide, rfl, by decide⟩)
    (by decide) (by decide) (by decide)

/-- Claim C10.  In an otherwise-valid Aggregate config (all aggregations
applicable to their columns' values), an aggregation entry with a `col`
and a supported `op` but neither an `as` nor an `alias` key does not
make the node fail: its result column is named `"<col>_<op>"`, at its
aggregation's position after the groupBy columns. -/
theorem c10_default_alias (df : Table) (group_by : List String)
    (aggregations : List AggSpec)
    (hgb : group_by ≠ [])
    (hgbcols : ∀ c ∈ group_by, df.cols.contains c = true)
    (haggs : aggregations ≠ [])
    (hvalid : ∀ a ∈ aggregations, ∃ c o, a.col = some c ∧ c ≠ "" ∧
      df.cols.contains c = true ∧ a.op = some o ∧
      VALID_OPS.contains o = true)
    (hnodup : (aggregations.map aggAlias).Nodup)
    (hdisj : ∀ a ∈ aggregations, group_by.contains (aggAlias a) = false)
    (happ : ∀ k ∈ groupKeys df group_by, ∀ a ∈ aggregations,
      (applyOp (a.op.getD "") ((groupRows df group_by k).map
        (fun r => cellAt df.cols r (a.col.getD "")))).isSome = true)
    (k : Nat) (a : AggSpec) (hk : aggregations.get? k = some a)
    (hasKey : a.asKey = none) (haliasKey : a.aliasKey = none) :
    ∃ result : Table,
      AggregateNode.execute group_by aggregations [df] =
        { success := true, data := some result, error := none } ∧
      result.cols.get? (group_by.length + k) =
        some (a.col.getD "None" ++ "_" ++ a.op.getD "None") := by
  refine ⟨_, aggregateNode_execute_ok df group_by aggregations hgb hgbcols
    haggs hvalid hnodup hdisj happ, ?_⟩
  have hlen : k < (aggregations.map aggAlias).length := by
    rw [List.length_map]
    exact List.get?_eq_some.mp hk |>.choose
  rw [List.get?_append_right (by omega)]
  have : group_by.length + k - group_by.length = k := by omega
  rw [this]
  rw [List.get?_map, hk]
  show some (aggAlias a) = _
  unfold aggAlias
  rw [hasKey, haliasKey]
  rfl

/-- Witness for C10: an aggregation `{col: "v", op: "sum"}` without
`as`/`alias` yields the column `"v_sum"` right after the group key. -/
theorem c10_witness :
    ∃ result : Table,
      AggregateNode.execute ["g"] [{ col := some "v", op := some "sum" }]
        [{ cols := ["g", "v"], index := [0],
           rows := [[Value.str "s", Value.int 5]] }] =
        { success := true, data := some result, error := none } ∧
      result.cols.get? (["g"].length + 0) = some ("v" ++ "_" ++ "sum") :=
  c10_default_alias
    { cols := ["g", "v"], index := [0],
      rows := [[Value.str "s", Value.int 5]] }
    ["g"] [{ col := some "v", op := some "sum" }]
    (by decide) (by decide) (by decide)
    (by
      intro a ha
      simp only [List.mem_cons, List.not_mem_nil, or_false] at ha
      subst ha
      exact ⟨"v", "sum", rfl, by decide, by decide, rfl, by decide⟩)
    (by decide) (by decide) (by decide)
    0 { col := some "v", op := some "sum" } rfl rfl rfl

/-! ## Class-level I/O directories are process-global (C7) -/

/-- Claim C7 evaluated on the code: `WorkflowExecutor.__init__` mutates
the class-level attributes `ReadCSVNode.upload_dir` /
`OutputNode.output_dir`, so constructing a second executor changes the
directories used by the nodes of the previously constructed executor:
after `WorkflowExecutor("/a", "/oa")` then `WorkflowExecutor("/b",
"/ob")`, every `ReadCSVNode` resolves `/b` (not `/a`) and every
`OutputNode` resolves `/ob` (not `/oa`) — directories are communicated
through process-global state, contradicting the claim. -/
theorem c7_class_level_dirs_shared :
    ReadCSVNode.effectiveUploadDir
        (executorInit "/b" "/ob" (executorInit "/a" "/oa" initialIODirs)) =
      some "/b" ∧
    ReadCSVNode.effectiveUploadDir
        (executorInit "/b" "/ob" (executorInit "/a" "/oa" initialIODirs)) ≠
      some "/a" ∧
    OutputNode.effectiveOutputDir
        (executorInit "/b" "/ob" (executorInit "/a" "/oa" initialIODirs)) ≠
      some "/oa" ∧
    ReadCSVNode.filePath
        (executorInit "/b" "/ob" (executorInit "/a" "/oa" initialIODirs))
        "u1" = some "/b/u1.csv" := by
  refine ⟨rfl, ?_, ?_, rfl⟩
  · decide
  · decide

/-! ## Kahn loop: in-degree bookkeeping -/

theorem degOf_nil (v : String) : degOf [] v = 0 := rfl

theorem degOf_cons_self (p : String × Nat) (t : List (String × Nat))
    (v : String) (h : p.1 = v) : degOf (p :: t) v = p.2 := by
  unfold degOf
  rw [List.find?_cons_of_pos]
  · rfl
  · simp [h]

theorem degOf_cons_ne (p : String × Nat) (t : List (String × Nat))
    (v : String) (h : p.1 ≠ v) : degOf (p :: t) v = degOf t v := by
  unfold degOf
  rw [List.find?_cons_of_neg]
  simp [h]

theorem decrDeg_nil (k : String) : decrDeg [] k = [] := rfl

theorem decrDeg_cons (p : String × Nat) (t : List (String × Nat))
    (k : String) :
    decrDeg (p :: t) k =
      (if (p.1 == k) = true then (p.1, p.2 - 1) else p) :: decrDeg t k := rfl

theorem bumpDeg_cons (p : String × Nat) (t : List (String × Nat))
    (k : String) :
    bumpDeg (p :: t) k =
      (if (p.1 == k) = true then (p.1, p.2 + 1) else p) :: bumpDeg t k := rfl

theorem decrDeg_keys (d : List (String × Nat)) (k : String) :
    (decrDeg d k).map (fun p => p.1) = d.map (fun p => p.1) := by
  unfold decrDeg
  rw [List.map_map]
  apply List.map_congr_left
  intro p _
  by_cases h : p.1 = k <;> simp [h]

theorem bumpDeg_keys (d : List (String × Nat)) (k : String) :
    (bumpDeg d k).map (fun p => p.1) = d.map (fun p => p.1) := by
  unfold bumpDeg
  rw [List.map_map]
  apply List.map_congr_left
  intro p _
  by_cases h : p.1 = k <;> simp [h]

theorem degOf_decrDeg (d : List (String × Nat)) (k v : String) :
    degOf (decrDeg d k) v = if v = k then degOf d v - 1 else degOf d v := by
  induction d with
  | nil =>
    by_cases h : v = k <;> simp [decrDeg_nil, degOf_nil, h]
  | cons p t ih =>
    rw [decrDeg_cons]
    by_cases hpv : p.1 = v
    · by_cases hpk : p.1 = k
      · have hvk : v = k := by rw [← hpv]; exact hpk
        rw [if_pos (by simp [hpk]),
          degOf_cons_self (p.1, p.2 - 1) _ v hpv,
          degOf_cons_self p t v hpv, if_pos hvk]
      · have hvk : ¬ v = k := by rw [← hpv]; exact hpk
        rw [if_neg (by simp [hpk]), degOf_cons_self p _ v hpv,
          degOf_cons_self p t v hpv, if_neg hvk]
    · by_cases hpk : p.1 = k
      · rw [if_pos (by simp [hpk]), degOf_cons_ne (p.1, p.2 - 1) _ v hpv,
          degOf_cons_ne p t v hpv, ih]
      · rw [if_neg (by simp [hpk]), degOf_cons_ne p _ v hpv,
          degOf_cons_ne p t v hpv, ih]

theorem degOf_bumpDeg (d : List (String × Nat)) (k v : String) :
    degOf (bumpDeg d k) v =
      if v = k ∧ (d.map (fun p => p.1)).contains v = true
      then degOf d v + 1 else degOf d v := by
  induction d with
  | nil => simp [bumpDeg, degOf_nil]
  | cons p t ih =>
    rw [bumpDeg_cons]
    by_cases hpv : p.1 = v
    · have hcont : ((p :: t).map (fun q => q.1)).contains v = true := by
        simp [hpv]
      by_cases hpk : p.1 = k
      · have hvk : v = k := by rw [← hpv]; exact hpk
        rw [if_pos (by simp [hpk]),
          degOf_cons_self (p.1, p.2 + 1) _ v hpv,
          degOf_cons_self p t v hpv, if_pos ⟨hvk, hcont⟩]
      · have hvk : ¬ v = k := by rw [← hpv]; exact hpk
        rw [if_neg (by simp [hpk]), degOf_cons_self p _ v hpv,
          degOf_cons_self p t v hpv, if_neg (fun hc => hvk hc.1)]
    · have hcont : ((p :: t).map (fun q => q.1)).contains v =
          (t.map (fun q => q.1)).contains v := by
        simp only [List.map, List.contains_cons]
        rw [show (v == p.1) = false by
          simp only [beq_eq_false_iff_ne, ne_eq]
          exact fun he => hpv he.symm]
        simp
      by_cases hpk : p.1 = k
      · rw [if_pos (by simp [hpk]), degOf_cons_ne (p.1, p.2 + 1) _ v hpv,
          degOf_cons_ne p t v hpv, ih, hcont]
      · rw [if_neg (by simp [hpk]), degOf_cons_ne p _ v hpv,
          degOf_cons_ne p t v hpv, ih, hcont]

/-- Effect of the downstream-decrement loop of one Kahn iteration:
in-degrees drop by edge multiplicity, and exactly the nodes that reach
zero are appended to the queue, each once. -/
theorem kahnFold_spec :
    ∀ (ds : List String) (deg : List (String × Nat)) (qu : List String),
    (∀ w : String, ds.count w ≤ degOf deg w) →
    ∃ (deg2 : List (String × Nat)) (app : List String),
      ds.foldl (fun (s : List (String × Nat) × List String) w =>
          let d2 := decrDeg s.1 w
          if degOf d2 w == 0 then (d2, s.2 ++ [w]) else (d2, s.2))
        (deg, qu) = (deg2, qu ++ app) ∧
      deg2.map (fun p => p.1) = deg.map (fun p => p.1) ∧
      (∀ v : String, degOf deg2 v = degOf deg v - ds.count v) ∧
      app.Nodup ∧
      (∀ w : String, w ∈ app ↔ (w ∈ ds ∧ degOf deg2 w = 0)) ∧
      (∀ w ∈ app, degOf deg w ≠ 0)
  | [], deg, qu, _ => by
    refine ⟨deg, [], by simp, rfl, by simp, List.nodup_nil, ?_, ?_⟩
    · intro w
      simp
    · intro w hw
      simp at hw
  | w :: t, deg, qu, hcount => by
    have hw1 : 1 ≤ degOf deg w := by
      have := hcount w
      rw [List.count_cons_self] at this
      omega
    have hd1 : ∀ v : String, degOf (decrDeg deg w) v =
        if v = w then degOf deg v - 1 else degOf deg v :=
      fun v => degOf_decrDeg deg w v
    have hd1w : degOf (decrDeg deg w) w = degOf deg w - 1 := by
      rw [hd1 w, if_pos rfl]
    have hge' : ∀ v : String, t.count v ≤ degOf (decrDeg deg w) v := by
      intro v
      rw [hd1 v]
      by_cases hvw : v = w
      · subst hvw
        have := hcount v
        rw [List.count_cons_self] at this
        rw [if_pos rfl]
        omega
      · have := hcount v
        rw [List.count_cons_of_ne hvw] at this
        rw [if_neg hvw]
        exact this
    by_cases h0 : degOf (decrDeg deg w) w = 0
    · obtain ⟨deg2, app', heq, hkeys, hval, hnodup, hmem, hnz⟩ :=
        kahnFold_spec t (decrDeg deg w) (qu ++ [w]) hge'
      have hvalw : ∀ v : String, degOf deg2 v =
          degOf deg v - (w :: t).count v := by
        intro v
        rw [hval v, hd1 v]
        by_cases hvw : v = w
        · subst hvw
          rw [List.count_cons_self, if_pos rfl]
          omega
        · rw [List.count_cons_of_ne hvw, if_neg hvw]
      have hnzw : ∀ v ∈ app', degOf deg v ≠ 0 := by
        intro v hv
        have := hnz v hv
        rw [hd1 v] at this
        by_cases hvw : v = w
        · subst hvw
          omega
        · rw [if_neg hvw] at this
          exact this
      refine ⟨deg2, w :: app', ?_, ?_, hvalw, ?_, ?_, ?_⟩
      · rw [List.foldl_cons]
        show List.foldl
            (fun (s : List (String × Nat) × List String) w =>
              let d2 := decrDeg s.1 w
              if degOf d2 w == 0 then (d2, s.2 ++ [w]) else (d2, s.2))
            (if degOf (decrDeg deg w) w == 0 then (decrDeg deg w, qu ++ [w])
             else (decrDeg deg w, qu)) t =
          (deg2, qu ++ w :: app')
        rw [if_pos (by simpa using h0), heq, List.append_assoc]
        rfl
      · rw [hkeys, decrDeg_keys]
      · refine List.nodup_cons.mpr ⟨?_, hnodup⟩
        intro hwapp
        exact hnz w hwapp h0
      · intro v
        constructor
        · intro hv
          rcases List.mem_cons.mp hv with rfl | hv
          · refine ⟨List.mem_cons_self _ t, ?_⟩
            rw [hvalw v, List.count_cons_self]
            omega
          · obtain ⟨h1, h2⟩ := (hmem v).mp hv
            exact ⟨List.mem_cons_of_mem w h1, h2⟩
        · rintro ⟨hv, hz⟩
          rcases List.mem_cons.mp hv with rfl | hv
          · exact List.mem_cons_self _ app'
          · exact List.mem_cons_of_mem w ((hmem v).mpr ⟨hv, hz⟩)
      · intro v hv
        rcases List.mem_cons.mp hv with rfl | hv
        · omega
        · exact hnzw v hv
    · obtain ⟨deg2, app', heq, hkeys, hval, hnodup, hmem, hnz⟩ :=
        kahnFold_spec t (decrDeg deg w) qu hge'
      have hvalw : ∀ v : String, degOf deg2 v =
          degOf deg v - (w :: t).count v := by
        intro v
        rw [hval v, hd1 v]
        by_cases hvw : v = w
        · subst hvw
          rw [List.count_cons_self, if_pos rfl]
          omega
        · rw [List.count_cons_of_ne hvw, if_neg hvw]
      have hnzw : ∀ v ∈ app', degOf deg v ≠ 0 := by
        intro v hv
        have := hnz v hv
        rw [hd1 v] at this
        by_cases hvw : v = w
        · subst hvw
          omega
        · rw [if_neg hvw] at this
          exact this
      refine ⟨deg2, app', ?_, ?_, hvalw, hnodup, ?_, hnzw⟩
      · rw [List.foldl_cons]
        show List.foldl
            (fun (s : List (String × Nat) × List String) w =>
              let d2 := decrDeg s.1 w
              if degOf d2 w == 0 then (d2, s.2 ++ [w]) else (d2, s.2))
            (if degOf (decrDeg deg w) w == 0 then (decrDeg deg w, qu ++ [w])
             else (decrDeg deg w, qu)) t =
          (deg2, qu ++ app')
        rw [if_neg (by simpa using h0), heq]
      · rw [hkeys, decrDeg_keys]
      · intro v
        rw [hmem v]
        constructor
        · rintro ⟨h1, h2⟩
          exact ⟨List.mem_cons_of_mem w h1, h2⟩
        · rintro ⟨hv, hz⟩
          rcases List.mem_cons.mp hv with rfl | hv
          · by_cases hvt : v ∈ t
            · exact ⟨hvt, hz⟩
            · exfalso
              rw [hval v, List.count_eq_zero.mpr hvt] at hz
              omega
          · exact ⟨hv, hz⟩

theorem adjOf_nil (m : String) : adjOf [] m = [] := rfl

theorem adjOf_cons (e : String × String) (t : List (String × String))
    (m : String) :
    adjOf (e :: t) m =
      if e.1 = m then e.2 :: adjOf t m else adjOf t m := by
  unfold adjOf
  by_cases h : e.1 = m
  · rw [if_pos h, List.filter_cons_of_pos (by simpa using h)]
    rfl
  · rw [if_neg h, List.filter_cons_of_neg (by simpa using h)]

theorem remainingInDegree_nil (res : List String) (v : String) :
    remainingInDegree [] res v = 0 := rfl

theorem remainingInDegree_cons (e : String × String)
    (t : List (String × String)) (res : List String) (v : String) :
    remainingInDegree (e :: t) res v =
      remainingInDegree t res v +
        (if e.2 = v ∧ res.contains e.1 = false then 1 else 0) := by
  unfold remainingInDegree
  cases hb : (e.2 == v && !(res.contains e.1)) with
  | true =>
    have hfc : List.filter (fun x => x.2 == v && !(res.contains x.1))
        (e :: t) =
        e :: List.filter (fun x => x.2 == v && !(res.contains x.1)) t :=
      List.filter_cons_of_pos hb
    rw [Bool.and_eq_true] at hb
    have h2 : e.2 = v := by simpa using hb.1
    have h1 : res.contains e.1 = false := by simpa using hb.2
    rw [hfc, if_pos ⟨h2, h1⟩, List.length_cons, Nat.add_comm]
  | false =>
    have hfc : List.filter (fun x => x.2 == v && !(res.contains x.1))
        (e :: t) =
        List.filter (fun x => x.2 == v && !(res.contains x.1)) t :=
      List.filter_cons_of_neg (by rw [hb]; simp)
    have hni : ¬ (e.2 = v ∧ res.contains e.1 = false) := by
      intro hc
      rw [Bool.and_eq_false_iff] at hb
      rcases hb with hb | hb
      · rw [hc.1] at hb
        simp at hb
      · rw [hc.2] at hb
        simp at hb
    rw [hfc, if_neg hni, Nat.add_zero]

theorem remainingInDegree_zero_iff (E : List (String × String))
    (res : List String) (v : String) :
    remainingInDegree E res v = 0 ↔
      ∀ e ∈ E, e.2 = v → res.contains e.1 = true := by
  unfold remainingInDegree
  rw [List.length_eq_zero, List.filter_eq_nil]
  constructor
  · intro h e he h2
    have := h e he
    simp only [h2, beq_self_eq_true, Bool.true_and, Bool.not_eq_true,
      Bool.not_eq_false] at this
    simpa using this
  · intro h e he
    simp only [Bool.not_eq_true, Bool.and_eq_false_iff]
    by_cases h2 : e.2 = v
    · right
      rw [h e he h2]
      rfl
    · left
      simpa using h2

theorem adjOf_count_le (E : List (String × String)) (res : List String)
    (m v : String) (hm : res.contains m = false) :
    (adjOf E m).count v ≤ remainingInDegree E res v := by
  induction E with
  | nil => simp [adjOf_nil, remainingInDegree_nil]
  | cons e t ih =>
    rw [adjOf_cons, remainingInDegree_cons]
    by_cases h1 : e.1 = m
    · rw [if_pos h1]
      by_cases h2 : e.2 = v
      · rw [show (e.2 :: adjOf t m).count v = (adjOf t m).count v + 1 by
          rw [h2, List.count_cons_self],
          if_pos ⟨h2, by rw [h1]; exact hm⟩]
        omega
      · rw [List.count_cons_of_ne (fun he => h2 he.symm)]
        omega
    · rw [if_neg h1]
      omega

theorem remainingInDegree_append (E : List (String × String))
    (res : List String) (m v : String) (hm : res.contains m = false) :
    remainingInDegree E (res ++ [m]) v =
      remainingInDegree E res v - (adjOf E m).count v := by
  have hcontra : ∀ x : String, (res ++ [m]).contains x = false ↔
      (res.contains x = false ∧ x ≠ m) := by
    intro x
    constructor
    · intro h
      have : x ∉ res ++ [m] := by simpa using h
      rw [List.mem_append] at this
      push_neg at this
      refine ⟨by simpa using this.1, ?_⟩
      intro he
      exact this.2 (by simp [he])
    · rintro ⟨h1, h2⟩
      have : x ∉ res ++ [m] := by
        rw [List.mem_append]
        push_neg
        exact ⟨by simpa using h1, by simpa using h2⟩
      simpa using this
  induction E with
  | nil => simp [adjOf_nil, remainingInDegree_nil]
  | cons e t ih =>
    have hble := adjOf_count_le t res m v hm
    rw [adjOf_cons, remainingInDegree_cons, remainingInDegree_cons, ih]
    by_cases h2 : e.2 = v
    · by_cases h1r : res.contains e.1 = false
      · by_cases h1 : e.1 = m
        · rw [if_pos h1,
            show (e.2 :: adjOf t m).count v = (adjOf t m).count v + 1 by
              rw [h2, List.count_cons_self],
            if_pos (show e.2 = v ∧ res.contains e.1 = false from ⟨h2, h1r⟩),
            if_neg (show ¬ (e.2 = v ∧ (res ++ [m]).contains e.1 = false) by
              rintro ⟨_, hc⟩
              rw [hcontra e.1] at hc
              exact hc.2 h1)]
          omega
        · rw [if_neg h1,
            if_pos (show e.2 = v ∧ res.contains e.1 = false from ⟨h2, h1r⟩),
            if_pos (show e.2 = v ∧ (res ++ [m]).contains e.1 = false from
              ⟨h2, (hcontra e.1).mpr ⟨h1r, h1⟩⟩)]
          omega
      · have h1m : ¬ e.1 = m := by
          intro he
          rw [he, hm] at h1r
          exact h1r rfl
        rw [if_neg h1m,
          if_neg (show ¬ (e.2 = v ∧ res.contains e.1 = false) from
            fun hc => h1r hc.2),
          if_neg (show ¬ (e.2 = v ∧ (res ++ [m]).contains e.1 = false) by
            rintro ⟨_, hc⟩
            rw [hcontra e.1] at hc
            exact h1r hc.1)]
        omega
    · have hcnt : ∀ l : List String,
          (if e.1 = m then e.2 :: l else l).count v = l.count v := by
        intro l
        by_cases h1 : e.1 = m
        · rw [if_pos h1, List.count_cons_of_ne (fun he => h2 he.symm)]
        · rw [if_neg h1]
      rw [hcnt,
        if_neg (show ¬ (e.2 = v ∧ (res ++ [m]).contains e.1 = false) from
          fun hc => h2 hc.1),
        if_neg (show ¬ (e.2 = v ∧ res.contains e.1 = false) from
          fun hc => h2 hc.1)]
      omega

theorem contains_iff_mem (l : List String) (x : String) :
    l.contains x = true ↔ x ∈ l := by
  simp

theorem contains_false_iff (l : List String) (x : String) :
    l.contains x = false ↔ x ∉ l := by
  rw [← Bool.not_eq_true, contains_iff_mem]

theorem mem_readyNodes (E : List (String × String)) (ids emitted : List String)
    (v : String) :
    v ∈ readyNodes E ids emitted ↔
      (v ∈ ids ∧ v ∉ emitted ∧ ∀ e ∈ E, e.2 = v → e.1 ∈ emitted) := by
  unfold readyNodes
  rw [List.mem_filter, List.mem_filter]
  constructor
  · rintro ⟨⟨hid, hnem⟩, hall⟩
    refine ⟨hid, by simpa using hnem, ?_⟩
    intro e he h2
    have := List.all_eq_true.mp hall e he
    rw [h2] at this
    simp only [bne_self_eq_false, Bool.false_or] at this
    exact (contains_iff_mem emitted e.1).mp this
  · rintro ⟨hid, hnem, hall⟩
    refine ⟨⟨hid, by simpa using hnem⟩, ?_⟩
    rw [List.all_eq_true]
    intro e he
    by_cases h2 : e.2 = v
    · rw [(contains_iff_mem emitted e.1).mpr (hall e he h2)]
      simp
    · have : (e.2 != v) = true := by simpa using h2
      rw [this]
      simp

theorem stableSort_eq_nil_iff {α : Type} (le : α → α → Bool) (l : List α) :
    stableSort le l = [] ↔ l = [] := by
  constructor
  · intro h
    have := (stableSort_perm le l).length_eq
    rw [h] at this
    exact List.length_eq_zero.mp this.symm
  · intro h
    rw [h]
    rfl

theorem stableSort_head_congr {α : Type} (le : α → α → Bool)
    (htr : ∀ a b c, le a b = true → le b c = true → le a c = true)
    (hto : ∀ a b, le a b = true ∨ le b a = true)
    (hanti : ∀ a b, le a b = true → le b a = true → a = b)
    (l1 l2 : List α) (hmem : ∀ x, x ∈ l1 ↔ x ∈ l2) :
    (stableSort le l1).head? = (stableSort le l2).head? := by
  cases h1 : stableSort le l1 with
  | nil =>
    cases h2 : stableSort le l2 with
    | nil => rfl
    | cons m2 r2 =>
      exfalso
      have hl1 : l1 = [] := (stableSort_eq_nil_iff le l1).mp h1
      have hm2 : m2 ∈ l2 := by
        have := (stableSort_mem le m2 l2).mp (by rw [h2]; simp)
        exact this
      rw [← hmem m2, hl1] at hm2
      exact List.not_mem_nil m2 hm2
  | cons m1 r1 =>
    cases h2 : stableSort le l2 with
    | nil =>
      exfalso
      have hl2 : l2 = [] := (stableSort_eq_nil_iff le l2).mp h2
      have hm1 : m1 ∈ l1 := by
        have := (stableSort_mem le m1 l1).mp (by rw [h1]; simp)
        exact this
      rw [hmem m1, hl2] at hm1
      exact List.not_mem_nil m1 hm1
    | cons m2 r2 =>
      obtain ⟨hm1, hmin1⟩ := stableSort_head_min le htr hto l1 m1 r1 h1
      obtain ⟨hm2, hmin2⟩ := stableSort_head_min le htr hto l2 m2 r2 h2
      have h12 : le m1 m2 = true := hmin1 m2 ((hmem m2).mpr hm2)
      have h21 : le m2 m1 = true := hmin2 m1 ((hmem m1).mp hm1)
      rw [hanti m1 m2 h12 h21]
      rfl

/-- One iteration of the Kahn loop preserves the invariant and emits the
least ready node — the node the canonical order emits. -/
theorem kahnStep (E : List (String × String)) (ids : List String)
    (hE : ∀ e ∈ E, e.1 ∈ ids ∧ e.2 ∈ ids)
    (deg : List (String × Nat)) (queue res : List String)
    (inv : KahnInv E ids deg queue res)
    (m : String) (rest : List String)
    (hsort : stableSort strLe queue = m :: rest) :
    ∃ deg2 queue2,
      (adjOf E m).foldl (fun (s : List (String × Nat) × List String) w =>
          let d2 := decrDeg s.1 w
          if degOf d2 w == 0 then (d2, s.2 ++ [w]) else (d2, s.2))
        (deg, rest) = (deg2, queue2) ∧
      KahnInv E ids deg2 queue2 (res ++ [m]) ∧
      (stableSort strLe (readyNodes E ids res)).head? = some m := by
  obtain ⟨hmq, hmin⟩ := stableSort_head_min strLe strLe_trans strLe_total
    queue m rest hsort
  have hmid : m ∈ ids := inv.queue_sub m hmq
  obtain ⟨hmres, hmrid⟩ := (inv.queue_iff m hmid).mp hmq
  have hmcontains : res.contains m = false := (contains_false_iff res m).mpr hmres
  -- the sorted queue is a permutation of the queue
  have hperm : (m :: rest).Perm queue := hsort ▸ stableSort_perm strLe queue
  have hnodup_mrest : (m :: rest).Nodup := hperm.nodup_iff.mpr inv.queue_nodup
  have hmnotrest : m ∉ rest := (List.nodup_cons.mp hnodup_mrest).1
  have hrestnodup : rest.Nodup := (List.nodup_cons.mp hnodup_mrest).2
  have hrest_sub : ∀ x ∈ rest, x ∈ queue :=
    fun x hx => hperm.subset (List.mem_cons_of_mem m hx)
  have hqueue_rest : ∀ x ∈ queue, x ≠ m → x ∈ rest := by
    intro x hx hxm
    have : x ∈ m :: rest := hperm.mem_iff.mpr hx
    rcases List.mem_cons.mp this with rfl | h
    · exact absurd rfl hxm
    · exact h
  -- targets of m lie in ids
  have htargets : ∀ w ∈ adjOf E m, w ∈ ids := by
    intro w hw
    unfold adjOf at hw
    rw [List.mem_map] at hw
    obtain ⟨e, he, rfl⟩ := hw
    exact (hE e (List.mem_filter.mp he).1).2
  -- enough in-degree for the decrement loop
  have hcount : ∀ w : String, (adjOf E m).count w ≤ degOf deg w := by
    intro w
    by_cases hw : w ∈ ids
    · rw [inv.deg_val w hw]
      exact adjOf_count_le E res m w hmcontains
    · rw [List.count_eq_zero.mpr (fun hc => hw (htargets w hc))]
      exact Nat.zero_le _
  obtain ⟨deg2, app, heq, hkeys, hval, happnodup, happmem, happnz⟩ :=
    kahnFold_spec (adjOf E m) deg rest hcount
  -- new degree values
  have hval2 : ∀ v ∈ ids, degOf deg2 v = remainingInDegree E (res ++ [m]) v := by
    intro v hv
    rw [hval v, inv.deg_val v hv, remainingInDegree_append E res m v hmcontains]
  -- emitted nodes have all predecessors emitted
  have hresrid : ∀ v ∈ res, remainingInDegree E res v = 0 := by
    intro v hv
    rw [remainingInDegree_zero_iff]
    intro e he h2
    exact (contains_iff_mem res e.1).mpr
      (inv.res_closed e he (h2 ▸ hv))
  have happ_ids : ∀ w ∈ app, w ∈ ids :=
    fun w hw => htargets w ((happmem w).mp hw).1
  have happ_notres : ∀ w ∈ app, w ∉ res := by
    intro w hw hwres
    have h1 := happnz w hw
    rw [inv.deg_val w (happ_ids w hw), hresrid w hwres] at h1
    exact h1 rfl
  have happ_nem : ∀ w ∈ app, w ≠ m := by
    intro w hw he
    have h1 := happnz w hw
    rw [inv.deg_val w (happ_ids w hw), he, hmrid] at h1
    exact h1 rfl
  have happ_notrest : ∀ w ∈ app, w ∉ rest := by
    intro w hw hwrest
    have h1 := happnz w hw
    rw [inv.deg_val w (happ_ids w hw)] at h1
    have := (inv.queue_iff w (happ_ids w hw)).mp (hrest_sub w hwrest)
    exact h1 this.2
  refine ⟨deg2, rest ++ app, heq, ?_, ?_⟩
  · refine ⟨?_, hval2, ?_, ?_, ?_, ?_, ?_, ?_⟩
    · rw [hkeys, inv.deg_keys]
    · rw [List.nodup_append]
      exact ⟨hrestnodup, happnodup,
        fun x hx hxa => happ_notrest x hxa hx⟩
    · rw [List.nodup_append]
      refine ⟨inv.res_nodup, List.nodup_singleton m, ?_⟩
      intro x hx hxm
      rw [List.mem_singleton] at hxm
      subst hxm
      exact hmres hx
    · intro v hv
      rcases List.mem_append.mp hv with h | h
      · exact inv.queue_sub v (hrest_sub v h)
      · exact happ_ids v h
    · intro v hv
      rcases List.mem_append.mp hv with h | h
      · exact inv.res_sub v h
      · rcases List.mem_singleton.mp h with rfl
        exact hmid
    · intro v hv
      constructor
      · intro hvq
        rcases List.mem_append.mp hvq with h | h
        · have hq := (inv.queue_iff v hv).mp (hrest_sub v h)
          have hvm : v ≠ m := by
            intro he
            subst he
            exact hmnotrest h
          refine ⟨?_, ?_⟩
          · intro hc
            rcases List.mem_append.mp hc with hc | hc
            · exact hq.1 hc
            · exact hvm (List.mem_singleton.mp hc)
          · rw [remainingInDegree_append E res m v hmcontains, hq.2]
            omega
        · refine ⟨?_, ?_⟩
          · intro hc
            rcases List.mem_append.mp hc with hc | hc
            · exact happ_notres v h hc
            · exact happ_nem v h (List.mem_singleton.mp hc)
          · rw [← hval2 v hv]
            exact ((happmem v).mp h).2
      · rintro ⟨hnres, hrid⟩
        have hvres : v ∉ res := fun hc => hnres (List.mem_append_left _ hc)
        have hvm : v ≠ m := fun hc =>
          hnres (List.mem_append_right _ (List.mem_singleton.mpr hc))
        by_cases hrid0 : remainingInDegree E res v = 0
        · exact List.mem_append_left _
            (hqueue_rest v ((inv.queue_iff v hv).mpr ⟨hvres, hrid0⟩) hvm)
        · refine List.mem_append_right _ ((happmem v).mpr ⟨?_, ?_⟩)
          · by_contra hc
            rw [remainingInDegree_append E res m v hmcontains,
              List.count_eq_zero.mpr hc, Nat.sub_zero] at hrid
            exact hrid0 hrid
          · rw [hval2 v hv]
            exact hrid
    · intro e he h2
      rcases List.mem_append.mp h2 with h | h
      · exact List.mem_append_left _ (inv.res_closed e he h)
      · have he2 : e.2 = m := List.mem_singleton.mp h
        have hp := (remainingInDegree_zero_iff E res m).mp hmrid e he he2
        exact List.mem_append_left _ ((contains_iff_mem res e.1).mp hp)
  · -- the emitted node is the least ready node
    have hmemiff : ∀ x, x ∈ readyNodes E ids res ↔ x ∈ queue := by
      intro x
      rw [mem_readyNodes]
      constructor
      · rintro ⟨hid, hnres, hall⟩
        refine (inv.queue_iff x hid).mpr ⟨hnres, ?_⟩
        rw [remainingInDegree_zero_iff]
        intro e he h2
        exact (contains_iff_mem res e.1).mpr (hall e he h2)
      · intro hx
        have hid := inv.queue_sub x hx
        obtain ⟨hnres, hrid⟩ := (inv.queue_iff x hid).mp hx
        refine ⟨hid, hnres, ?_⟩
        intro e he h2
        exact (contains_iff_mem res e.1).mp
          ((remainingInDegree_zero_iff E res x).mp hrid e he h2)
    rw [stableSort_head_congr strLe strLe_trans strLe_total strLe_antisymm
      (readyNodes E ids res) queue hmemiff, hsort]
    rfl

/-- The Kahn loop of `_topological_sort` computes exactly the canonical
least-ready-first order (whatever fuel remains and whatever prefix is
already emitted). -/
theorem kahnLoop_canonical (E : List (String × String)) (ids : List String)
    (hE : ∀ e ∈ E, e.1 ∈ ids ∧ e.2 ∈ ids) :
    ∀ (fuel : Nat) (deg : List (String × Nat)) (queue res : List String),
    KahnInv E ids deg queue res →
    kahnLoop E fuel deg queue res = res ++ canonicalFrom E ids fuel res
  | 0, deg, queue, res, _ => by simp [kahnLoop, canonicalFrom]
  | fuel + 1, deg, queue, res, inv => by
    cases hq : stableSort strLe queue with
    | nil =>
      have hqueue : queue = [] := (stableSort_eq_nil_iff strLe queue).mp hq
      have hready : readyNodes E ids res = [] := by
        rw [List.eq_nil_iff_forall_not_mem]
        intro v hv
        rw [mem_readyNodes] at hv
        obtain ⟨hid, hnres, hall⟩ := hv
        have hq2 : v ∈ queue := (inv.queue_iff v hid).mpr ⟨hnres, by
          rw [remainingInDegree_zero_iff]
          intro e he h2
          exact (contains_iff_mem res e.1).mpr (hall e he h2)⟩
        rw [hqueue] at hq2
        exact List.not_mem_nil v hq2
      have hunfold : kahnLoop E (fuel + 1) deg queue res =
          (match stableSort strLe queue with
           | [] => res
           | m :: rest =>
             let step := (adjOf E m).foldl
               (fun (s : List (String × Nat) × List String) w =>
                 let d2 := decrDeg s.1 w
                 if degOf d2 w == 0 then (d2, s.2 ++ [w]) else (d2, s.2))
               (deg, rest)
             kahnLoop E fuel step.1 step.2 (res ++ [m])) := rfl
      have hcanon : canonicalFrom E ids (fuel + 1) res =
          (match stableSort strLe (readyNodes E ids res) with
           | [] => []
           | m :: _ => m :: canonicalFrom E ids fuel (res ++ [m])) := rfl
      rw [hunfold, hq, hcanon, hready]
      simp [stableSort]
    | cons m rest =>
      obtain ⟨deg2, queue2, heq, inv2, hhead⟩ :=
        kahnStep E ids hE deg queue res inv m rest hq
      have hunfold : kahnLoop E (fuel + 1) deg queue res =
          (match stableSort strLe queue with
           | [] => res
           | m :: rest =>
             let step := (adjOf E m).foldl
               (fun (s : List (String × Nat) × List String) w =>
                 let d2 := decrDeg s.1 w
                 if degOf d2 w == 0 then (d2, s.2 ++ [w]) else (d2, s.2))
               (deg, rest)
             kahnLoop E fuel step.1 step.2 (res ++ [m])) := rfl
      rw [hunfold, hq]
      show kahnLoop E fuel
        ((adjOf E m).foldl
          (fun (s : List (String × Nat) × List String) w =>
            let d2 := decrDeg s.1 w
            if degOf d2 w == 0 then (d2, s.2 ++ [w]) else (d2, s.2))
          (deg, rest)).1
        ((adjOf E m).foldl
          (fun (s : List (String × Nat) × List String) w =>
            let d2 := decrDeg s.1 w
            if degOf d2 w == 0 then (d2, s.2 ++ [w]) else (d2, s.2))
          (deg, rest)).2
        (res ++ [m]) = res ++ canonicalFrom E ids (fuel + 1) res
      rw [heq]
      show kahnLoop E fuel deg2 queue2 (res ++ [m]) =
        res ++ canonicalFrom E ids (fuel + 1) res
      rw [kahnLoop_canonical E ids hE fuel deg2 queue2 (res ++ [m]) inv2]
      cases hr : stableSort strLe (readyNodes E ids res) with
      | nil =>
        rw [hr] at hhead
        simp at hhead
      | cons m' rest' =>
        rw [hr] at hhead
        have hm : m' = m := by simpa using hhead
        subst hm
        have hcanon : canonicalFrom E ids (fuel + 1) res =
            m' :: canonicalFrom E ids fuel (res ++ [m']) := by
          show (match stableSort strLe (readyNodes E ids res) with
            | [] => []
            | m :: _ => m :: canonicalFrom E ids fuel (res ++ [m])) = _
          rw [hr]
        rw [hcanon]
        simp

theorem foldl_bumpDeg_keys (E : List (String × String)) :
    ∀ d : List (String × Nat),
    ((E.foldl (fun d e => bumpDeg d e.2) d).map (fun p => p.1)) =
      d.map (fun p => p.1) := by
  induction E with
  | nil => intro d; rfl
  | cons e t ih =>
    intro d
    rw [List.foldl_cons, ih, bumpDeg_keys]

theorem degOf_zeros (ids : List String) (v : String) :
    degOf (ids.map (fun w => (w, 0))) v = 0 := by
  induction ids with
  | nil => rfl
  | cons a t ih =>
    by_cases h : a = v
    · rw [List.map_cons, degOf_cons_self _ _ _ h]
    · rw [List.map_cons, degOf_cons_ne _ _ _ h, ih]

theorem foldl_bumpDeg_degOf (E : List (String × String)) :
    ∀ (d : List (String × Nat)) (v : String),
    (d.map (fun p => p.1)).contains v = true →
    degOf (E.foldl (fun d e => bumpDeg d e.2) d) v =
      degOf d v + (E.filter (fun e => e.2 == v)).length := by
  induction E with
  | nil => intro d v _; rfl
  | cons e t ih =>
    intro d v hv
    rw [List.foldl_cons, ih (bumpDeg d e.2) v (by rw [bumpDeg_keys]; exact hv),
      degOf_bumpDeg]
    by_cases h : e.2 = v
    · rw [if_pos ⟨h.symm, hv⟩, List.filter_cons_of_pos (by simp [h])]
      simp
      omega
    · rw [if_neg (by intro hc; exact h hc.1.symm),
        List.filter_cons_of_neg (by simp [h])]

theorem remainingInDegree_empty (E : List (String × String)) (v : String) :
    remainingInDegree E [] v = (E.filter (fun e => e.2 == v)).length := by
  unfold remainingInDegree
  congr 1
  apply List.filter_congr
  intro e _
  simp

theorem mem_zeroFilter (d : List (String × Nat))
    (hnd : (d.map (fun p => p.1)).Nodup) (v : String) :
    (v ∈ (d.filter (fun p => p.2 == 0)).map (fun p => p.1)) ↔
      (v ∈ d.map (fun p => p.1) ∧ degOf d v = 0) := by
  induction d with
  | nil => simp [degOf_nil]
  | cons p t ih =>
    rw [List.map_cons, List.nodup_cons] at hnd
    by_cases hpv : p.1 = v
    · rw [degOf_cons_self _ _ _ hpv]
      by_cases hz : p.2 = 0
      · rw [List.filter_cons_of_pos (by simp [hz])]
        simp [hpv, hz]
      · rw [List.filter_cons_of_neg (by simp [hz])]
        rw [ih hnd.2]
        constructor
        · intro hmem
          exact absurd (hpv ▸ hmem.1) hnd.1
        · intro hmem
          exact absurd hmem.2 hz
    · rw [degOf_cons_ne _ _ _ hpv]
      by_cases hz : p.2 = 0
      · rw [List.filter_cons_of_pos (by simp [hz])]
        rw [List.map_cons, List.mem_cons, List.map_cons, List.mem_cons]
        rw [ih hnd.2]
        constructor
        · rintro (h | h)
          · exact absurd h.symm hpv
          · exact ⟨Or.inr h.1, h.2⟩
        · rintro ⟨h1 | h1, h2⟩
          · exact absurd h1.symm hpv
          · exact Or.inr ⟨h1, h2⟩
      · rw [List.filter_cons_of_neg (by simp [hz])]
        rw [List.map_cons, List.mem_cons]
        rw [ih hnd.2]
        constructor
        · intro h
          exact ⟨Or.inr h.1, h.2⟩
        · rintro ⟨h1 | h1, h2⟩
          · exact absurd h1.symm hpv
          · exact ⟨h1, h2⟩

/-- The state entering the `while queue` loop satisfies the loop
invariant. -/
theorem kahnInv_init (E : List (String × String)) (ids : List String)
    (hids : ids.Nodup) :
    KahnInv E ids (initInDegree ids E)
      (((initInDegree ids E).filter (fun p => p.2 == 0)).map (fun p => p.1))
      [] := by
  have hkeys : (initInDegree ids E).map (fun p => p.1) = ids := by
    unfold initInDegree
    rw [foldl_bumpDeg_keys, List.map_map]
    exact List.map_id ids
  have hdeg : ∀ v ∈ ids, degOf (initInDegree ids E) v =
      remainingInDegree E [] v := by
    intro v hv
    unfold initInDegree
    rw [foldl_bumpDeg_degOf E _ v (by
      rw [List.map_map]
      simpa using hv)]
    rw [degOf_zeros, remainingInDegree_empty]
    omega
  have hmemq : ∀ v,
      (v ∈ ((initInDegree ids E).filter (fun p => p.2 == 0)).map
        (fun p => p.1)) ↔
      (v ∈ ids ∧ degOf (initInDegree ids E) v = 0) := by
    intro v
    rw [mem_zeroFilter _ (by rw [hkeys]; exact hids), hkeys]
  refine ⟨hkeys, hdeg, ?_, List.nodup_nil, ?_, ?_, ?_, ?_⟩
  · have hsub : (((initInDegree ids E).filter (fun p => p.2 == 0)).map
        (fun p => p.1)).Sublist ((initInDegree ids E).map (fun p => p.1)) :=
      (List.filter_sublist _).map _
    rw [hkeys] at hsub
    exact hids.sublist hsub
  · intro v hv
    exact ((hmemq v).mp hv).1
  · intro v hv
    exact absurd hv (List.not_mem_nil v)
  · intro v hv
    rw [hmemq v, hdeg v hv]
    constructor
    · intro h
      exact ⟨List.not_mem_nil v, h.2⟩
    · intro h
      exact ⟨hv, h.2⟩
  · intro e _ h2
    exact absurd h2 (List.not_mem_nil e.2)

/-- `_topological_sort` equals the canonical Kahn order when complete,
and reports a cycle otherwise. -/
theorem topologicalSort_eq_canonical (ids : List String)
    (E : List (String × String)) (hids : ids.Nodup)
    (hE : ∀ e ∈ E, e.1 ∈ ids ∧ e.2 ∈ ids) :
    topologicalSort ids E =
      if (canonicalKahn E ids).length == ids.length
      then Except.ok (canonicalKahn E ids)
      else Except.error (WorkflowErr.cycle "Workflow contains a cycle") := by
  have hL : kahnLoop E ids.length (initInDegree ids E)
      (((initInDegree ids E).filter (fun p => p.2 == 0)).map (fun p => p.1))
      [] = canonicalKahn E ids := by
    rw [kahnLoop_canonical E ids hE ids.length (initInDegree ids E)
      (((initInDegree ids E).filter (fun p => p.2 == 0)).map (fun p => p.1))
      [] (kahnInv_init E ids hids)]
    rfl
  show (if (kahnLoop E ids.length (initInDegree ids E)
      (((initInDegree ids E).filter (fun p => p.2 == 0)).map
        (fun p => p.1)) []).length == ids.length
    then Except.ok (kahnLoop E ids.length (initInDegree ids E)
      (((initInDegree ids E).filter (fun p => p.2 == 0)).map
        (fun p => p.1)) [])
    else Except.error (WorkflowErr.cycle "Workflow contains a cycle")) = _
  rw [hL]

/-- Structural properties of the canonical least-ready-first order:
its entries are fresh ids, it is duplicate-free, and every entry has all
its graph predecessors either previously emitted or earlier in the
list. -/
theorem canonicalFrom_props (E : List (String × String)) (ids : List String) :
    ∀ (fuel : Nat) (emitted : List String),
    (∀ v ∈ canonicalFrom E ids fuel emitted, v ∈ ids ∧ v ∉ emitted) ∧
    (canonicalFrom E ids fuel emitted).Nodup ∧
    (∀ (j : Nat) (hj : j < (canonicalFrom E ids fuel emitted).length),
      ∀ e ∈ E, e.2 = (canonicalFrom E ids fuel emitted).get ⟨j, hj⟩ →
        e.1 ∈ emitted ∨ e.1 ∈ (canonicalFrom E ids fuel emitted).take j)
  | 0, emitted => by simp [canonicalFrom]
  | fuel + 1, emitted => by
    have hunfold : canonicalFrom E ids (fuel + 1) emitted =
        (match stableSort strLe (readyNodes E ids emitted) with
         | [] => []
         | m :: _ => m :: canonicalFrom E ids fuel (emitted ++ [m])) := rfl
    cases hr : stableSort strLe (readyNodes E ids emitted) with
    | nil =>
      rw [hunfold, hr]
      simp
    | cons m rest =>
      rw [hunfold, hr]
      have hmr : m ∈ readyNodes E ids emitted := by
        have hms : m ∈ stableSort strLe (readyNodes E ids emitted) := by
          rw [hr]
          exact List.mem_cons_self _ _
        exact (stableSort_mem strLe m _).mp hms
      rw [mem_readyNodes] at hmr
      obtain ⟨hmid, hmnem, hmpred⟩ := hmr
      obtain ⟨ihmem, ihnodup, ihtopo⟩ :=
        canonicalFrom_props E ids fuel (emitted ++ [m])
      refine ⟨?_, ?_, ?_⟩
      · intro v hv
        rcases List.mem_cons.mp hv with rfl | hv2
        · exact ⟨hmid, hmnem⟩
        · obtain ⟨h1, h2⟩ := ihmem v hv2
          exact ⟨h1, fun hc => h2 (List.mem_append_left _ hc)⟩
      · rw [List.nodup_cons]
        refine ⟨?_, ihnodup⟩
        intro hc
        exact (ihmem m hc).2
          (List.mem_append_right _ (List.mem_cons_self _ _))
      · intro j hj e he h2
        cases j with
        | zero =>
          have hgm : (m :: canonicalFrom E ids fuel (emitted ++ [m])).get
              ⟨0, hj⟩ = m := rfl
          rw [hgm] at h2
          exact Or.inl (hmpred e he h2)
        | succ k =>
          have hk : k < (canonicalFrom E ids fuel (emitted ++ [m])).length := by
            have := Nat.lt_of_succ_lt_succ (by simpa using hj)
            exact this
          have hget : (m :: canonicalFrom E ids fuel (emitted ++ [m])).get
              ⟨k + 1, hj⟩ =
              (canonicalFrom E ids fuel (emitted ++ [m])).get ⟨k, hk⟩ := rfl
          rw [hget] at h2
          have htake : (m :: canonicalFrom E ids fuel (emitted ++ [m])).take
              (k + 1) =
              m :: (canonicalFrom E ids fuel (emitted ++ [m])).take k := rfl
          rcases ihtopo k hk e he h2 with hem | ht
          · rcases List.mem_append.mp hem with h | h
            · exact Or.inl h
            · have hem2 : e.1 = m := by simpa using h
              right
              rw [htake, hem2]
              exact List.mem_cons_self _ _
          · right
            rw [htake]
            exact List.mem_cons_of_mem _ ht

/-- C4: When `_topological_sort` succeeds (the graph is acyclic), the
execution order is the canonical Kahn order with lexicographic
tie-breaking, and it is topologically correct: every edge source appears
strictly before its target (so no node precedes any of its
reverse-adjacency ancestors). -/
theorem c4_topo_sort_canonical_kahn (ids : List String)
    (E : List (String × String)) (order : List String)
    (hids : ids.Nodup) (hE : ∀ e ∈ E, e.1 ∈ ids ∧ e.2 ∈ ids)
    (horder : topologicalSort ids E = Except.ok order) :
    order = canonicalKahn E ids ∧
    (∀ (j : Nat) (hj : j < order.length), ∀ e ∈ E,
      e.2 = order.get ⟨j, hj⟩ → e.1 ∈ order.take j) := by
  rw [topologicalSort_eq_canonical ids E hids hE] at horder
  by_cases hlen : ((canonicalKahn E ids).length == ids.length) = true
  · rw [if_pos hlen] at horder
    have hord : order = canonicalKahn E ids := by
      injection horder with h
      exact h.symm
    subst hord
    refine ⟨rfl, ?_⟩
    intro j hj e he h2
    obtain ⟨_, _, htopo⟩ := canonicalFrom_props E ids ids.length []
    rcases htopo j hj e he h2 with hem | ht
    · exact absurd hem (List.not_mem_nil _)
    · exact ht
  · rw [if_neg hlen] at horder
    simp at horder

theorem c4_witness :
    (["a", "b", "c"] : List String) =
      canonicalKahn [("a", "c"), ("b", "c")] ["b", "a", "c"] ∧
    (∀ (j : Nat) (hj : j < (["a", "b", "c"] : List String).length),
      ∀ e ∈ [("a", "c"), ("b", "c")],
        e.2 = (["a", "b", "c"] : List String).get ⟨j, hj⟩ →
          e.1 ∈ (["a", "b", "c"] : List String).take j) :=
  c4_topo_sort_canonical_kahn ["b", "a", "c"] [("a", "c"), ("b", "c")]
    ["a", "b", "c"] (by decide) (by decide) (by rfl)

theorem dictInsert_keys_nodup {α : Type} (m : List (String × α)) (k : String)
    (v : α) (h : (m.map (fun p => p.1)).Nodup) :
    ((dictInsert m k v).map (fun p => p.1)).Nodup := by
  unfold dictInsert
  by_cases hm : m.any (fun p => p.1 == k) = true
  · rw [if_pos hm]
    have hkeys : (m.map (fun p => if p.1 == k then (p.1, v) else p)).map
        (fun p => p.1) = m.map (fun p => p.1) := by
      rw [List.map_map]
      apply List.map_congr_left
      intro p _
      by_cases hp : p.1 = k <;> simp [hp]
    rw [hkeys]
    exact h
  · rw [if_neg hm, List.map_append]
    have hk : k ∉ m.map (fun p => p.1) := by
      intro hc
      obtain ⟨p, hp, hpk⟩ := List.mem_map.mp hc
      exact hm (List.any_eq_true.mpr ⟨p, hp, by simp [hpk]⟩)
    rw [List.nodup_append]
    refine ⟨h, by simp, ?_⟩
    intro x hx
    simp only [List.map_cons, List.map_nil, List.mem_singleton]
    intro hxk
    exact hk (hxk ▸ hx)

theorem foldl_dictInsert_keys_nodup {α : Type} :
    ∀ (l : List (NodeDef α)) (acc : List (String × NodeDef α)),
    (acc.map (fun p => p.1)).Nodup →
    ((l.foldl (fun m nd => dictInsert m nd.id nd) acc).map
      (fun p => p.1)).Nodup
  | [], _, h => h
  | nd :: t, acc, h => by
    rw [List.foldl_cons]
    exact foldl_dictInsert_keys_nodup t (dictInsert acc nd.id nd)
      (dictInsert_keys_nodup acc nd.id nd h)

theorem dictGet_isSome_iff {α : Type} (m : List (String × α)) (i : String) :
    (dictGet m i).isSome = true ↔ i ∈ m.map (fun p => p.1) := by
  rw [← contains_keys_eq_isSome]
  simp

theorem foldl_dictInsert_mem_keys {α : Type} (l : List (NodeDef α))
    (acc : List (String × NodeDef α)) (i : String) :
    (i ∈ (l.foldl (fun m nd => dictInsert m nd.id nd) acc).map
      (fun p => p.1)) ↔
      i ∈ l.map NodeDef.id ∨ i ∈ acc.map (fun p => p.1) := by
  rw [← dictGet_isSome_iff, foldl_dictInsert_get]
  cases hf : l.reverse.find? (fun nd => nd.id == i) with
  | some nd =>
    show (some nd).isSome = true ↔ _
    constructor
    · intro _
      left
      have hmem := List.mem_of_find?_eq_some hf
      have hid : nd.id = i := by simpa using List.find?_some hf
      rw [List.mem_reverse] at hmem
      exact List.mem_map.mpr ⟨nd, hmem, hid⟩
    · intro _
      rfl
  | none =>
    show (dictGet acc i).isSome = true ↔ _
    rw [dictGet_isSome_iff]
    constructor
    · intro h
      exact Or.inr h
    · rintro (h | h)
      · exfalso
        obtain ⟨nd, hnd, hid⟩ := List.mem_map.mp h
        have := List.find?_eq_none.mp hf nd (List.mem_reverse.mpr hnd)
        simp [hid] at this
      · exact h

theorem buildNodes_error {α : Type} :
    ∀ (l : List (NodeDef α)) (acc : List (String × NodeDef α)),
    (∃ nd ∈ l, NODE_REGISTRY_KEYS.contains nd.type = false) →
    ∃ m, buildNodes l acc = Except.error (WorkflowErr.workflow m)
  | [], _, h => absurd h (by simp)
  | nd :: t, acc, h => by
    by_cases hnd : NODE_REGISTRY_KEYS.contains nd.type = true
    · simp only [buildNodes, hnd, if_true]
      apply buildNodes_error t
      obtain ⟨x, hx, hxf⟩ := h
      rcases List.mem_cons.mp hx with rfl | hx2
      · rw [hnd] at hxf
        cases hxf
      · exact ⟨x, hx2, hxf⟩
    · refine ⟨"Unknown node type: " ++ nd.type, ?_⟩
      simp only [buildNodes]
      rw [if_neg hnd]

theorem buildNodes_ok_valid {α : Type} :
    ∀ (l : List (NodeDef α)) (acc : List (String × NodeDef α))
      (res : List (String × NodeDef α)),
    buildNodes l acc = Except.ok res →
    ∀ nd ∈ l, NODE_REGISTRY_KEYS.contains nd.type = true
  | [], _, _, _ => by simp
  | nd :: t, acc, res, h => by
    by_cases hnd : NODE_REGISTRY_KEYS.contains nd.type = true
    · intro x hx
      rcases List.mem_cons.mp hx with rfl | hx2
      · exact hnd
      · simp only [buildNodes, hnd, if_true] at h
        exact buildNodes_ok_valid t (dictInsert acc nd.id nd) res h x hx2
    · exfalso
      simp only [buildNodes] at h
      rw [if_neg hnd] at h
      cases h

theorem buildEdges_error (ids : List String) :
    ∀ (l : List EdgeDef) (adj : List (String × String))
      (radj : List (String × String × String × String)),
    (∃ e ∈ l, ids.contains e.fromNodeId = false ∨
      ids.contains e.toNodeId = false) →
    ∃ m, buildEdges ids l adj radj =
      Except.error (WorkflowErr.nodeNotFound m)
  | [], _, _, h => absurd h (by simp)
  | e :: t, adj, radj, h => by
    by_cases hf : ids.contains e.fromNodeId = true
    · by_cases ht : ids.contains e.toNodeId = true
      · simp only [buildEdges, hf, ht, Bool.not_true, Bool.false_eq_true,
          if_false]
        apply buildEdges_error ids t
        obtain ⟨x, hx, hxf⟩ := h
        rcases List.mem_cons.mp hx with rfl | hx2
        · rcases hxf with h1 | h1
          · rw [hf] at h1
            cases h1
          · rw [ht] at h1
            cases h1
        · exact ⟨x, hx2, hxf⟩
      · refine ⟨"Edge references unknown node: " ++ e.toNodeId, ?_⟩
        have ht2 : ids.contains e.toNodeId = false :=
          Bool.eq_false_iff.mpr ht
        simp only [buildEdges, hf, ht2, Bool.not_true, Bool.not_false,
          Bool.false_eq_true, if_false, if_true]
    · refine ⟨"Edge references unknown node: " ++ e.fromNodeId, ?_⟩
      have hf2 : ids.contains e.fromNodeId = false :=
        Bool.eq_false_iff.mpr hf
      simp only [buildEdges, hf2, Bool.not_false, if_true]

theorem buildEdges_ok_valid (ids : List String) :
    ∀ (l : List EdgeDef) (adj : List (String × String))
      (radj : List (String × String × String × String)) res,
    buildEdges ids l adj radj = Except.ok res →
    ∀ e ∈ l, ids.contains e.fromNodeId = true ∧
      ids.contains e.toNodeId = true
  | [], _, _, _, _ => by simp
  | e :: t, adj, radj, res, h => by
    by_cases hf : ids.contains e.fromNodeId = true
    · by_cases ht : ids.contains e.toNodeId = true
      · intro x hx
        rcases List.mem_cons.mp hx with rfl | hx2
        · exact ⟨hf, ht⟩
        · simp only [buildEdges, hf, ht, Bool.not_true, Bool.false_eq_true,
            if_false] at h
          exact buildEdges_ok_valid ids t _ _ res h x hx2
      · exfalso
        have ht2 : ids.contains e.toNodeId = false :=
          Bool.eq_false_iff.mpr ht
        simp only [buildEdges, hf, ht2, Bool.not_true, Bool.not_false,
          Bool.false_eq_true, if_false, if_true] at h
        cases h
    · exfalso
      have hf2 : ids.contains e.fromNodeId = false :=
        Bool.eq_false_iff.mpr hf
      simp only [buildEdges, hf2, Bool.not_false, if_true] at h
      cases h

/-- If the canonical run stops early, the ready set of its final emitted
prefix is empty. -/
theorem canonicalFrom_stuck (E : List (String × String)) (ids : List String) :
    ∀ (fuel : Nat) (emitted : List String),
    (canonicalFrom E ids fuel emitted).length < fuel →
    readyNodes E ids (emitted ++ canonicalFrom E ids fuel emitted) = []
  | 0, _, h => absurd h (Nat.not_lt_zero _)
  | fuel + 1, emitted, h => by
    have hunfold : canonicalFrom E ids (fuel + 1) emitted =
        (match stableSort strLe (readyNodes E ids emitted) with
         | [] => []
         | m :: _ => m :: canonicalFrom E ids fuel (emitted ++ [m])) := rfl
    cases hr : stableSort strLe (readyNodes E ids emitted) with
    | nil =>
      rw [hunfold, hr]
      have hready : readyNodes E ids emitted = [] :=
        (stableSort_eq_nil_iff _ _).mp hr
      simpa using hready
    | cons m rest =>
      rw [hunfold, hr] at h ⊢
      have h2 : (canonicalFrom E ids fuel (emitted ++ [m])).length < fuel := by
        simp only [List.length_cons] at h
        omega
      have hrec := canonicalFrom_stuck E ids fuel (emitted ++ [m]) h2
      have hassoc : emitted ++ m :: canonicalFrom E ids fuel (emitted ++ [m]) =
          (emitted ++ [m]) ++ canonicalFrom E ids fuel (emitted ++ [m]) := by
        simp
      rw [hassoc]
      exact hrec

/-- When the ready set is empty, every unemitted node has an unemitted
predecessor, and `pickPred` names one. -/
theorem pickPred_spec (E : List (String × String)) (ids S : List String)
    (hready : readyNodes E ids S = []) (v : String) (hv : v ∈ ids)
    (hnv : v ∉ S) :
    (pickPred E S v, v) ∈ E ∧ pickPred E S v ∉ S := by
  have hnall : ¬ (∀ e ∈ E, e.2 = v → e.1 ∈ S) := by
    intro hall
    have hm : v ∈ readyNodes E ids S :=
      (mem_readyNodes E ids S v).mpr ⟨hv, hnv, hall⟩
    rw [hready] at hm
    exact List.not_mem_nil v hm
  push_neg at hnall
  obtain ⟨e, he, h2, h1⟩ := hnall
  unfold pickPred
  cases hfind : E.find? (fun e => e.2 == v && !(S.contains e.1)) with
  | none =>
    exfalso
    have hfe := List.find?_eq_none.mp hfind e he
    simp only [h2, beq_self_eq_true, Bool.true_and, Bool.not_eq_true',
      Bool.not_eq_false] at hfe
    exact h1 ((contains_iff_mem S e.1).mp hfe)
  | some f =>
    have hf := List.find?_some hfind
    have hfm := List.mem_of_find?_eq_some hfind
    simp only [Bool.and_eq_true, beq_iff_eq, Bool.not_eq_true'] at hf
    refine ⟨?_, ?_⟩
    · have hfe : (f.1, v) = f := by
        rw [← hf.1]
      exact hfe ▸ hfm
    · exact (contains_false_iff S f.1).mp hf.2

/-- A repetition along a chain of graph predecessors yields a cycle. -/
theorem hasCycle_of_iterate (E : List (String × String))
    (g : String → String) (v0 : String)
    (hedge : ∀ k, (g^[k + 1] v0, g^[k] v0) ∈ E)
    (i j : Nat) (hlt : i < j) (heq : g^[i] v0 = g^[j] v0) :
    HasCycle E := by
  obtain ⟨d', hd⟩ : ∃ d', j - i = d' + 1 := ⟨j - i - 1, by omega⟩
  refine ⟨(List.range (d' + 1)).map (fun t => g^[j - 1 - t] v0), ?_, ?_, ?_⟩
  · intro hc
    have hln := congrArg List.length hc
    simp at hln
  · rw [List.chain'_map, List.chain'_range_succ]
    intro m hm
    have harith : j - 1 - m = (j - 1 - (m + 1)) + 1 := by omega
    rw [harith]
    exact hedge (j - 1 - (m + 1))
  · intro a b ha hb
    have hha : ((List.range (d' + 1)).map
        (fun t => g^[j - 1 - t] v0)).head? = some (g^[j - 1 - 0] v0) := by
      rw [List.head?_map, List.range_succ_eq_map]
      rfl
    have hhb : ((List.range (d' + 1)).map
        (fun t => g^[j - 1 - t] v0)).getLast? = some (g^[j - 1 - d'] v0) := by
      rw [List.range_succ, List.map_append]
      exact List.getLast?_concat _
    rw [hha] at ha
    rw [hhb] at hb
    have ha2 : a = g^[j - 1 - 0] v0 := by
      injection ha with h
      exact h.symm
    have hb2 : b = g^[j - 1 - d'] v0 := by
      injection hb with h
      exact h.symm
    subst ha2
    subst hb2
    have hi : j - 1 - d' = i := by omega
    rw [hi, Nat.sub_zero, heq]
    have he := hedge (j - 1)
    have hj1 : (j - 1) + 1 = j := by omega
    rw [hj1] at he
    exact he

/-- A stuck state with an unemitted node yields a cycle (loop-free graphs
never strand the canonical run). -/
theorem hasCycle_of_stuck (E : List (String × String)) (ids : List String)
    (hE : ∀ e ∈ E, e.1 ∈ ids ∧ e.2 ∈ ids) (S : List String)
    (hready : readyNodes E ids S = []) (v0 : String) (hv0 : v0 ∈ ids)
    (hnv0 : v0 ∉ S) : HasCycle E := by
  have hstep : ∀ v, v ∈ ids → v ∉ S →
      ((pickPred E S v, v) ∈ E ∧ pickPred E S v ∈ ids ∧
        pickPred E S v ∉ S) := by
    intro v hv hnv
    obtain ⟨he, hns⟩ := pickPred_spec E ids S hready v hv hnv
    exact ⟨he, (hE _ he).1, hns⟩
  have hiter : ∀ k, (pickPred E S)^[k] v0 ∈ ids ∧
      (pickPred E S)^[k] v0 ∉ S := by
    intro k
    induction k with
    | zero => exact ⟨hv0, hnv0⟩
    | succ n ih =>
      rw [Function.iterate_succ_apply']
      obtain ⟨_, h2, h3⟩ := hstep _ ih.1 ih.2
      exact ⟨h2, h3⟩
  have hedge : ∀ k, ((pickPred E S)^[k + 1] v0, (pickPred E S)^[k] v0) ∈ E := by
    intro k
    rw [Function.iterate_succ_apply']
    exact (hstep _ (hiter k).1 (hiter k).2).1
  have hmaps : ∀ k ∈ Finset.range (ids.length + 1),
      (pickPred E S)^[k] v0 ∈ ids.toFinset := by
    intro k _
    rw [List.mem_toFinset]
    exact (hiter k).1
  have hcard : ids.toFinset.card < (Finset.range (ids.length + 1)).card := by
    rw [Finset.card_range]
    exact Nat.lt_succ_of_le ids.toFinset_card_le
  obtain ⟨i, _, j, _, hij, heq⟩ :=
    Finset.exists_ne_map_eq_of_card_lt_of_maps_to hcard hmaps
  rcases Nat.lt_or_ge i j with hlt | hge
  · exact hasCycle_of_iterate E (pickPred E S) v0 hedge i j hlt heq
  · have hlt2 : j < i := Nat.lt_of_le_of_ne hge (Ne.symm hij)
    exact hasCycle_of_iterate E (pickPred E S) v0 hedge j i hlt2 heq.symm

/-- An incomplete canonical run implies a cycle. -/
theorem canonicalKahn_incomplete_cycle (ids : List String)
    (E : List (String × String)) (hids : ids.Nodup)
    (hE : ∀ e ∈ E, e.1 ∈ ids ∧ e.2 ∈ ids)
    (hlen : (canonicalKahn E ids).length ≠ ids.length) : HasCycle E := by
  obtain ⟨hmem, hnodup, _⟩ := canonicalFrom_props E ids ids.length []
  have hsub : ∀ v ∈ canonicalFrom E ids ids.length [], v ∈ ids :=
    fun v hv => (hmem v hv).1
  have hle : (canonicalFrom E ids ids.length []).length ≤ ids.length :=
    (List.subperm_of_subset hnodup (fun a ha => hsub a ha)).length_le
  have hlt : (canonicalFrom E ids ids.length []).length < ids.length :=
    Nat.lt_of_le_of_ne hle hlen
  have hstuck := canonicalFrom_stuck E ids ids.length [] hlt
  rw [List.nil_append] at hstuck
  have hex : ∃ v ∈ ids, v ∉ canonicalFrom E ids ids.length [] := by
    by_contra hcon
    push_neg at hcon
    have hsp := List.subperm_of_subset hids (fun a ha => hcon a ha)
    have := hsp.length_le
    omega
  obtain ⟨v0, hv0, hnv0⟩ := hex
  exact hasCycle_of_stuck E ids hE (canonicalFrom E ids ids.length [])
    hstuck v0 hv0 hnv0

theorem indexOf_lt_of_mem_take (l : List String) (a : String) :
    ∀ n : Nat, a ∈ l.take n → l.indexOf a < n := by
  induction l with
  | nil =>
    intro n h
    simp at h
  | cons x t ih =>
    intro n h
    cases n with
    | zero => simp at h
    | succ k =>
      rw [List.take_succ_cons] at h
      by_cases hax : a = x
      · subst hax
        rw [List.indexOf_cons_self]
        omega
      · rcases List.mem_cons.mp h with h1 | h2
        · exact absurd h1 hax
        · rw [List.indexOf_cons_ne _ (fun hh => hax hh.symm)]
          have := ih k h2
          omega

/-- Along a chain of graph edges, positions in a position-respecting
list are monotone. -/
theorem chain_indexOf_le (L : List String) (E : List (String × String))
    (hpos : ∀ e ∈ E, L.indexOf e.1 < L.indexOf e.2) :
    ∀ c : List String, List.Chain' (fun a b => (a, b) ∈ E) c →
    ∀ a b, c.head? = some a → c.getLast? = some b →
      L.indexOf a ≤ L.indexOf b
  | [] => by
    intro _ a b ha _
    cases ha
  | [x] => by
    intro _ a b ha hb
    have ha2 : a = x := by
      injection ha with h
      exact h.symm
    have hb2 : b = x := by
      injection hb with h
      exact h.symm
    subst ha2
    subst hb2
    exact Nat.le_refl _
  | x :: y :: t => by
    intro hch a b ha hb
    rw [List.chain'_cons] at hch
    have ha2 : a = x := by
      injection ha with h
      exact h.symm
    subst ha2
    rw [List.getLast?_cons_cons] at hb
    have hxy : L.indexOf a < L.indexOf y := hpos (a, y) hch.1
    have hyb : L.indexOf y ≤ L.indexOf b :=
      chain_indexOf_le L E hpos (y :: t) hch.2 y b rfl hb
    omega

/-- A complete canonical run refutes every cycle. -/
theorem canonicalKahn_complete_no_cycle (ids : List String)
    (E : List (String × String)) (hids : ids.Nodup)
    (hE : ∀ e ∈ E, e.1 ∈ ids ∧ e.2 ∈ ids)
    (hlen : (canonicalKahn E ids).length = ids.length) : ¬ HasCycle E := by
  obtain ⟨hmem, hnodup, htopo⟩ := canonicalFrom_props E ids ids.length []
  have hlen2 : (canonicalFrom E ids ids.length []).length = ids.length := hlen
  have hsub : ∀ v ∈ canonicalFrom E ids ids.length [], v ∈ ids :=
    fun v hv => (hmem v hv).1
  have hperm : (canonicalFrom E ids ids.length []).Perm ids :=
    (List.subperm_of_subset hnodup (fun a ha => hsub a ha)).perm_of_length_le
      (Nat.le_of_eq hlen2.symm)
  have hmem2 : ∀ v ∈ ids, v ∈ canonicalFrom E ids ids.length [] :=
    fun v hv => hperm.mem_iff.mpr hv
  have hpos : ∀ e ∈ E,
      (canonicalFrom E ids ids.length []).indexOf e.1 <
      (canonicalFrom E ids ids.length []).indexOf e.2 := by
    intro e he
    have h2mem : e.2 ∈ canonicalFrom E ids ids.length [] :=
      hmem2 _ (hE e he).2
    have hj : (canonicalFrom E ids ids.length []).indexOf e.2 <
        (canonicalFrom E ids ids.length []).length :=
      List.indexOf_lt_length.mpr h2mem
    have hget : (canonicalFrom E ids ids.length []).get
        ⟨(canonicalFrom E ids ids.length []).indexOf e.2, hj⟩ = e.2 :=
      List.indexOf_get hj
    rcases htopo ((canonicalFrom E ids ids.length []).indexOf e.2) hj e he
      hget.symm with hnil | htk2
    · exact absurd hnil (List.not_mem_nil _)
    · exact indexOf_lt_of_mem_take _ e.1 _ htk2
  rintro ⟨c, hne, hchain, hclose⟩
  obtain ⟨a, ha⟩ : ∃ a, c.head? = some a := by
    cases c with
    | nil => exact absurd rfl hne
    | cons x t => exact ⟨x, rfl⟩
  obtain ⟨b, hb⟩ := Option.isSome_iff_exists.mp (List.getLast?_isSome.mpr hne)
  have hab := chain_indexOf_le (canonicalFrom E ids ids.length []) E hpos c
    hchain a b ha hb
  have hba := hpos (b, a) (hclose a b ha hb)
  simp only at hba
  omega

/-- `_topological_sort` raises its cycle error exactly on cyclic
graphs. -/
theorem topologicalSort_error_iff (ids : List String)
    (E : List (String × String)) (hids : ids.Nodup)
    (hE : ∀ e ∈ E, e.1 ∈ ids ∧ e.2 ∈ ids) :
    (∃ err, topologicalSort ids E = Except.error err) ↔ HasCycle E := by
  rw [topologicalSort_eq_canonical ids E hids hE]
  by_cases hlen : ((canonicalKahn E ids).length == ids.length) = true
  · rw [if_pos hlen]
    constructor
    · rintro ⟨err, herr⟩
      cases herr
    · intro hcyc
      exact absurd hcyc (canonicalKahn_complete_no_cycle ids E hids hE
        (by simpa using hlen))
  · rw [if_neg hlen]
    constructor
    · intro _
      exact canonicalKahn_incomplete_cycle ids E hids hE
        (by simpa using hlen)
    · intro _
      exact ⟨_, rfl⟩

/-- C2: `execute` aborts with an engine-level error (instead of
returning a per-node results map) exactly when the workflow is empty, a
node type is unknown, an edge references an absent node id, or the graph
has a cycle. -/
theorem c2_execute_error_iff {α τ : Type}
    (impl : String → String → α → List τ → ExecOutcome τ) (wf : Workflow α) :
    (∃ err, execute impl wf = Except.error err) ↔
      (wf.nodes = [] ∨
       (∃ nd ∈ wf.nodes, nd.type ∉ NODE_REGISTRY_KEYS) ∨
       (∃ e ∈ wf.edges, e.fromNodeId ∉ wf.nodes.map NodeDef.id ∨
          e.toNodeId ∉ wf.nodes.map NodeDef.id) ∨
       HasCycle (wf.edges.map (fun e => (e.fromNodeId, e.toNodeId)))) := by
  by_cases hempty : wf.nodes.isEmpty = true
  · have hnil : wf.nodes = [] := by
      cases hn : wf.nodes with
      | nil => rfl
      | cons x t =>
        rw [hn] at hempty
        cases hempty
    constructor
    · intro _
      exact Or.inl hnil
    · intro _
      refine ⟨WorkflowErr.workflow "Workflow has no nodes", ?_⟩
      unfold execute
      rw [if_pos hempty]
  · have hnnil : ¬ wf.nodes = [] := by
      intro h
      rw [h] at hempty
      exact hempty rfl
    by_cases htype : ∀ nd ∈ wf.nodes, NODE_REGISTRY_KEYS.contains nd.type = true
    · have hbn := buildNodes_ok wf.nodes [] htype
      set nm := wf.nodes.foldl (fun m nd => dictInsert m nd.id nd) [] with hnm
      have hkm : ∀ i : String,
          (i ∈ nm.map (fun p => p.1)) ↔ i ∈ wf.nodes.map NodeDef.id := by
        intro i
        rw [hnm, foldl_dictInsert_mem_keys]
        simp
      have hkeys_nodup : (nm.map (fun p => p.1)).Nodup := by
        rw [hnm]
        exact foldl_dictInsert_keys_nodup wf.nodes [] (by simp)
      by_cases hedge : ∀ e ∈ wf.edges,
          (nm.map (fun p => p.1)).contains e.fromNodeId = true ∧
          (nm.map (fun p => p.1)).contains e.toNodeId = true
      · have hbe := buildEdges_ok (nm.map (fun p => p.1)) wf.edges [] [] hedge
        rw [List.nil_append, List.nil_append] at hbe
        have hbg : buildGraph wf.nodes wf.edges = Except.ok
            (nm, wf.edges.map (fun e => (e.fromNodeId, e.toNodeId)),
             wf.edges.map (fun e =>
               (e.toNodeId, e.fromNodeId, e.fromPort, e.toPort))) := by
          unfold buildGraph
          rw [hbn]
          show (match buildEdges (nm.map (fun p => p.1)) wf.edges [] [] with
            | Except.error e => Except.error e
            | Except.ok (adj, radj) => Except.ok (nm, adj, radj)) = _
          rw [hbe]
        have hexec : execute impl wf =
            (match topologicalSort (nm.map (fun p => p.1))
                (wf.edges.map (fun e => (e.fromNodeId, e.toNodeId))) with
             | Except.error e => Except.error e
             | Except.ok order => Except.ok (runNodes impl nm
                 (wf.edges.map (fun e =>
                   (e.toNodeId, e.fromNodeId, e.fromPort, e.toPort)))
                 order [] []).2) := by
          unfold execute
          rw [if_neg hempty, hbg]
        have hiff : (∃ err, execute impl wf = Except.error err) ↔
            (∃ err, topologicalSort (nm.map (fun p => p.1))
              (wf.edges.map (fun e => (e.fromNodeId, e.toNodeId))) =
                Except.error err) := by
          rw [hexec]
          cases htopo : topologicalSort (nm.map (fun p => p.1))
              (wf.edges.map (fun e => (e.fromNodeId, e.toNodeId))) with
          | error e =>
            constructor
            · intro _
              exact ⟨e, rfl⟩
            · intro _
              exact ⟨e, rfl⟩
          | ok order =>
            constructor
            · rintro ⟨err, herr⟩
              cases herr
            · rintro ⟨err, herr⟩
              cases herr
        have hEd : ∀ p ∈ wf.edges.map (fun e => (e.fromNodeId, e.toNodeId)),
            p.1 ∈ nm.map (fun q => q.1) ∧ p.2 ∈ nm.map (fun q => q.1) := by
          intro p hp
          obtain ⟨e, he, hpe⟩ := List.mem_map.mp hp
          subst hpe
          obtain ⟨h1, h2⟩ := hedge e he
          exact ⟨(contains_iff_mem _ _).mp h1, (contains_iff_mem _ _).mp h2⟩
        rw [hiff, topologicalSort_error_iff _ _ hkeys_nodup hEd]
        constructor
        · intro hc
          exact Or.inr (Or.inr (Or.inr hc))
        · rintro (h | h | h | h)
          · exact absurd h hnnil
          · obtain ⟨nd, hnd, hnt⟩ := h
            exact absurd ((contains_iff_mem NODE_REGISTRY_KEYS nd.type).mp
              (htype nd hnd)) hnt
          · obtain ⟨e, he, hor⟩ := h
            obtain ⟨h1, h2⟩ := hedge e he
            rcases hor with hbad | hbad
            · exact absurd ((hkm e.fromNodeId).mp
                ((contains_iff_mem _ _).mp h1)) hbad
            · exact absurd ((hkm e.toNodeId).mp
                ((contains_iff_mem _ _).mp h2)) hbad
          · exact h
      · have hex : ∃ e ∈ wf.edges,
            (nm.map (fun p => p.1)).contains e.fromNodeId = false ∨
            (nm.map (fun p => p.1)).contains e.toNodeId = false := by
          obtain ⟨e, hne⟩ := not_forall.mp hedge
          obtain ⟨he, hne2⟩ := Classical.not_imp.mp hne
          refine ⟨e, he, ?_⟩
          by_cases hA : (nm.map (fun p => p.1)).contains e.fromNodeId = true
          · by_cases hB : (nm.map (fun p => p.1)).contains e.toNodeId = true
            · exact absurd ⟨hA, hB⟩ hne2
            · exact Or.inr (Bool.eq_false_iff.mpr hB)
          · exact Or.inl (Bool.eq_false_iff.mpr hA)
        obtain ⟨m, hm⟩ := buildEdges_error (nm.map (fun p => p.1))
          wf.edges [] [] hex
        have hbg : buildGraph wf.nodes wf.edges =
            Except.error (WorkflowErr.nodeNotFound m) := by
          unfold buildGraph
          rw [hbn]
          show (match buildEdges (nm.map (fun p => p.1)) wf.edges [] [] with
            | Except.error e => Except.error e
            | Except.ok (adj, radj) => Except.ok (nm, adj, radj)) = _
          rw [hm]
        have hexec : execute impl wf =
            Except.error (WorkflowErr.nodeNotFound m) := by
          unfold execute
          rw [if_neg hempty, hbg]
        constructor
        · intro _
          refine Or.inr (Or.inr (Or.inl ?_))
          obtain ⟨e, he, hor⟩ := hex
          refine ⟨e, he, ?_⟩
          rcases hor with h1 | h1
          · refine Or.inl ?_
            intro hc
            rw [← hkm e.fromNodeId, ← contains_iff_mem] at hc
            rw [h1] at hc
            cases hc
          · refine Or.inr ?_
            intro hc
            rw [← hkm e.toNodeId, ← contains_iff_mem] at hc
            rw [h1] at hc
            cases hc
        · intro _
          exact ⟨_, hexec⟩
    · have hex : ∃ nd ∈ wf.nodes,
          NODE_REGISTRY_KEYS.contains nd.type = false := by
        push_neg at htype
        obtain ⟨nd, hnd, h⟩ := htype
        exact ⟨nd, hnd, Bool.eq_false_iff.mpr h⟩
      obtain ⟨m, hm⟩ := buildNodes_error wf.nodes [] hex
      have hbg : buildGraph wf.nodes wf.edges =
          Except.error (WorkflowErr.workflow m) := by
        unfold buildGraph
        rw [hm]
      have hexec : execute impl wf =
          Except.error (WorkflowErr.workflow m) := by
        unfold execute
        rw [if_neg hempty, hbg]
      constructor
      · intro _
        refine Or.inr (Or.inl ?_)
        obtain ⟨nd, hnd, hf⟩ := hex
        refine ⟨nd, hnd, ?_⟩
        intro hc
        rw [← contains_iff_mem] at hc
        rw [hf] at hc
        cases hc
      · intro _
        exact ⟨_, hexec⟩

/-- Step equation of the run loop: an id missing from the node map is
skipped. -/
theorem runNodes_cons_none {α τ : Type}
    (impl : String → String → α → List τ → ExecOutcome τ)
    (nm : List (String × NodeDef α))
    (radj : List (String × String × String × String))
    (h : String) (t : List String) (outputs : List (String × τ))
    (results : List (String × NodeResultG τ))
    (hnd : dictGet nm h = none) :
    runNodes impl nm radj (h :: t) outputs results =
      runNodes impl nm radj t outputs results := by
  simp only [runNodes, hnd]

/-- Step equation of the run loop: a normal node result is recorded and
its data cached when successful. -/
theorem runNodes_cons_some_result {α τ : Type}
    (impl : String → String → α → List τ → ExecOutcome τ)
    (nm : List (String × NodeDef α))
    (radj : List (String × String × String × String))
    (h : String) (t : List String) (outputs : List (String × τ))
    (results : List (String × NodeResultG τ))
    (nd : NodeDef α) (r : NodeResultG τ)
    (hnd : dictGet nm h = some nd)
    (him : impl nd.type h nd.config (gatherInputs radj outputs h) =
      ExecOutcome.result r) :
    runNodes impl nm radj (h :: t) outputs results =
      runNodes impl nm radj t
        (match r.data with
         | some d => if r.success then dictInsert outputs h d else outputs
         | none => outputs)
        (dictInsert results h r) := by
  simp only [runNodes, hnd, him]

/-- Step equation of the run loop: an escaped exception is converted to
a failed `NodeResult` and the loop continues. -/
theorem runNodes_cons_some_raises {α τ : Type}
    (impl : String → String → α → List τ → ExecOutcome τ)
    (nm : List (String × NodeDef α))
    (radj : List (String × String × String × String))
    (h : String) (t : List String) (outputs : List (String × τ))
    (results : List (String × NodeResultG τ))
    (nd : NodeDef α) (msg : String)
    (hnd : dictGet nm h = some nd)
    (him : impl nd.type h nd.config (gatherInputs radj outputs h) =
      ExecOutcome.raises msg) :
    runNodes impl nm radj (h :: t) outputs results =
      runNodes impl nm radj t outputs
        (dictInsert results h
          { success := false, data := none, error := some msg }) := by
  simp only [runNodes, hnd, him]

/-- The run loop leaves the entries of ids outside the remaining order
untouched. -/
theorem runNodes_preserves {α τ : Type}
    (impl : String → String → α → List τ → ExecOutcome τ)
    (nm : List (String × NodeDef α))
    (radj : List (String × String × String × String)) :
    ∀ (order : List String) (outputs : List (String × τ))
      (results : List (String × NodeResultG τ)) (nid : String),
    nid ∉ order →
    dictGet (runNodes impl nm radj order outputs results).2 nid =
      dictGet results nid
  | [], _, _, _, _ => rfl
  | h :: t, outputs, results, nid, hn => by
    have hne : nid ≠ h := fun hc => hn (hc ▸ List.mem_cons_self h t)
    have hnt : nid ∉ t := fun hc => hn (List.mem_cons_of_mem h hc)
    cases hnd : dictGet nm h with
    | none =>
      rw [runNodes_cons_none impl nm radj h t outputs results hnd]
      exact runNodes_preserves impl nm radj t outputs results nid hnt
    | some nd =>
      cases him : impl nd.type h nd.config (gatherInputs radj outputs h) with
      | result r =>
        rw [runNodes_cons_some_result impl nm radj h t outputs results nd r
          hnd him]
        rw [runNodes_preserves impl nm radj t _ _ nid hnt]
        exact dictGet_dictInsert_ne results h nid r hne
      | raises msg =>
        rw [runNodes_cons_some_raises impl nm radj h t outputs results nd msg
          hnd him]
        rw [runNodes_preserves impl nm radj t _ _ nid hnt]
        exact dictGet_dictInsert_ne results h nid _ hne

/-- Each id of the order present in the node map ends with a recorded
entry: the node result itself when the node returned, the converted
failure when it raised. -/
theorem runNodes_entries {α τ : Type}
    (impl : String → String → α → List τ → ExecOutcome τ)
    (nm : List (String × NodeDef α))
    (radj : List (String × String × String × String)) :
    ∀ (order : List String) (outputs : List (String × τ))
      (results : List (String × NodeResultG τ)) (nid : String),
    nid ∈ order →
    ∀ nd, dictGet nm nid = some nd →
    ∃ inputs, dictGet (runNodes impl nm radj order outputs results).2 nid =
      some (match impl nd.type nid nd.config inputs with
        | ExecOutcome.result r => r
        | ExecOutcome.raises msg =>
          { success := false, data := none, error := some msg })
  | [], _, _, nid, hmem, _, _ => absurd hmem (List.not_mem_nil nid)
  | h :: t, outputs, results, nid, hmem, nd, hnd => by
    by_cases hmt : nid ∈ t
    · cases hndh : dictGet nm h with
      | none =>
        rw [runNodes_cons_none impl nm radj h t outputs results hndh]
        exact runNodes_entries impl nm radj t outputs results nid hmt nd hnd
      | some ndh =>
        cases him : impl ndh.type h ndh.config
            (gatherInputs radj outputs h) with
        | result r =>
          rw [runNodes_cons_some_result impl nm radj h t outputs results ndh r
            hndh him]
          exact runNodes_entries impl nm radj t _ _ nid hmt nd hnd
        | raises msg =>
          rw [runNodes_cons_some_raises impl nm radj h t outputs results ndh
            msg hndh him]
          exact runNodes_entries impl nm radj t _ _ nid hmt nd hnd
    · have hnh : nid = h := by
        rcases List.mem_cons.mp hmem with h1 | h1
        · exact h1
        · exact absurd h1 hmt
      subst hnh
      cases him : impl nd.type nid nd.config
          (gatherInputs radj outputs nid) with
      | result r =>
        rw [runNodes_cons_some_result impl nm radj nid t outputs results nd r
          hnd him]
        rw [runNodes_preserves impl nm radj t _ _ nid hmt]
        refine ⟨gatherInputs radj outputs nid, ?_⟩
        rw [him]
        exact dictGet_dictInsert_self results nid r
      | raises msg =>
        rw [runNodes_cons_some_raises impl nm radj nid t outputs results nd
          msg hnd him]
        rw [runNodes_preserves impl nm radj t _ _ nid hmt]
        refine ⟨gatherInputs radj outputs nid, ?_⟩
        rw [him]
        exact dictGet_dictInsert_self results nid _

/-- Inversion of a successful `_build_graph`. -/
theorem buildGraph_ok_inv {α : Type} (nodes : List (NodeDef α))
    (edges : List EdgeDef) (nm : List (String × NodeDef α))
    (adj : List (String × String))
    (radj : List (String × String × String × String))
    (h : buildGraph nodes edges = Except.ok (nm, adj, radj)) :
    buildNodes nodes [] = Except.ok nm ∧
    buildEdges (nm.map (fun p => p.1)) edges [] [] =
      Except.ok (adj, radj) := by
  unfold buildGraph at h
  cases hbn : buildNodes nodes [] with
  | error e =>
    rw [hbn] at h
    cases h
  | ok nm2 =>
    rw [hbn] at h
    have h2 : (match buildEdges (nm2.map (fun p => p.1)) edges [] [] with
      | Except.error e => Except.error e
      | Except.ok (adj, radj) => Except.ok (nm2, adj, radj)) =
        Except.ok (nm, adj, radj) := h
    cases hbe : buildEdges (nm2.map (fun p => p.1)) edges [] [] with
    | error e =>
      rw [hbe] at h2
      cases h2
    | ok pr =>
      rw [hbe] at h2
      obtain ⟨adj2, radj2⟩ := pr
      have h3 : (Except.ok (nm2, adj2, radj2) :
          Except WorkflowErr (List (String × NodeDef α) ×
            List (String × String) ×
            List (String × String × String × String))) =
          Except.ok (nm, adj, radj) := h2
      injection h3 with h4
      have hnm : nm2 = nm := congrArg (fun p => p.1) h4
      have hadj : adj2 = adj := congrArg (fun p => p.2.1) h4
      have hradj : radj2 = radj := congrArg (fun p => p.2.2) h4
      subst hnm
      subst hadj
      subst hradj
      exact ⟨rfl, hbe⟩

/-- Every id of a successful topological sort is a graph node. -/
theorem topologicalSort_ok_mem (ids : List String)
    (E : List (String × String)) (order : List String)
    (hids : ids.Nodup) (hE : ∀ e ∈ E, e.1 ∈ ids ∧ e.2 ∈ ids)
    (h : topologicalSort ids E = Except.ok order) :
    ∀ v ∈ order, v ∈ ids := by
  rw [topologicalSort_eq_canonical ids E hids hE] at h
  by_cases hlen : ((canonicalKahn E ids).length == ids.length) = true
  · rw [if_pos hlen] at h
    injection h with h2
    intro v hv
    obtain ⟨hmem, _, _⟩ := canonicalFrom_props E ids ids.length []
    rw [← h2] at hv
    exact (hmem v hv).1
  · rw [if_neg hlen] at h
    cases h

/-- C3: once graph build and topological sort succeed, `execute` returns
a results map without raising; every id of the execution order receives
an entry; and a node whose `execute` raised is recorded as
`NodeResult(success=False, error=str(e))` computed from its actual
invocation, the run continuing past it. -/
theorem c3_exceptions_converted_run_completes {α τ : Type}
    (impl : String → String → α → List τ → ExecOutcome τ) (wf : Workflow α)
    (nm : List (String × NodeDef α)) (adj : List (String × String))
    (radj : List (String × String × String × String)) (order : List String)
    (hnempty : wf.nodes ≠ [])
    (hbg : buildGraph wf.nodes wf.edges = Except.ok (nm, adj, radj))
    (hts : topologicalSort (nm.map (fun p => p.1)) adj = Except.ok order) :
    execute impl wf = Except.ok (runNodes impl nm radj order [] []).2 ∧
    (∀ nid ∈ order,
      (dictGet (runNodes impl nm radj order [] []).2 nid).isSome = true) ∧
    (∀ nid ∈ order, ∀ nd, dictGet nm nid = some nd →
      ∃ inputs, dictGet (runNodes impl nm radj order [] []).2 nid =
        some (match impl nd.type nid nd.config inputs with
          | ExecOutcome.result r => r
          | ExecOutcome.raises msg =>
            { success := false, data := none, error := some msg })) := by
  have hbne : ¬ wf.nodes.isEmpty = true := by
    intro hc
    apply hnempty
    cases hn : wf.nodes with
    | nil => rfl
    | cons x t =>
      rw [hn] at hc
      cases hc
  obtain ⟨hbn, hbe⟩ := buildGraph_ok_inv wf.nodes wf.edges nm adj radj hbg
  have hvalid := buildNodes_ok_valid wf.nodes [] nm hbn
  have hfold := buildNodes_ok wf.nodes [] hvalid
  have hnmeq : nm = wf.nodes.foldl (fun m nd => dictInsert m nd.id nd) [] := by
    rw [hbn] at hfold
    exact Except.ok.inj hfold
  have hkeys_nodup : (nm.map (fun p => p.1)).Nodup := by
    rw [hnmeq]
    exact foldl_dictInsert_keys_nodup wf.nodes [] (by simp)
  have hevalid := buildEdges_ok_valid (nm.map (fun p => p.1)) wf.edges [] []
    (adj, radj) hbe
  have hbe2 := buildEdges_ok (nm.map (fun p => p.1)) wf.edges [] [] hevalid
  have hadj : adj = wf.edges.map (fun e => (e.fromNodeId, e.toNodeId)) := by
    rw [hbe] at hbe2
    injection hbe2 with h
    have h2 := congrArg (fun p => p.1) h
    simpa using h2
  have hE : ∀ e ∈ adj, e.1 ∈ nm.map (fun p => p.1) ∧
      e.2 ∈ nm.map (fun p => p.1) := by
    intro p hp
    rw [hadj] at hp
    obtain ⟨e, he, hpe⟩ := List.mem_map.mp hp
    subst hpe
    obtain ⟨h1, h2⟩ := hevalid e he
    exact ⟨(contains_iff_mem _ _).mp h1, (contains_iff_mem _ _).mp h2⟩
  have hmemk := topologicalSort_ok_mem (nm.map (fun p => p.1)) adj order
    hkeys_nodup hE hts
  refine ⟨?_, ?_, ?_⟩
  · unfold execute
    rw [if_neg hbne, hbg]
    show (match topologicalSort (nm.map (fun p => p.1)) adj with
      | Except.error e => Except.error e
      | Except.ok order => Except.ok (runNodes impl nm radj order [] []).2) = _
    rw [hts]
  · intro nid hnid
    have hk : nid ∈ nm.map (fun p => p.1) := hmemk nid hnid
    obtain ⟨nd, hnd⟩ := Option.isSome_iff_exists.mp
      ((dictGet_isSome_iff nm nid).mpr hk)
    obtain ⟨inputs, hent⟩ := runNodes_entries impl nm radj order [] [] nid
      hnid nd hnd
    rw [hent]
    rfl
  · intro nid hnid nd hnd
    exact runNodes_entries impl nm radj order [] [] nid hnid nd hnd

theorem c3_witness :
    execute
      (fun (_ nid : String) (_ : Unit) (_ : List Nat) =>
        if nid = "b" then ExecOutcome.raises "boom"
        else ExecOutcome.result ⟨true, some 1, none⟩)
      { nodes := [⟨"a", "ReadCSV", ()⟩, ⟨"b", "Filter", ()⟩],
        edges := [⟨"a", "b", "out", "in"⟩] } =
      Except.ok (runNodes
        (fun (_ nid : String) (_ : Unit) (_ : List Nat) =>
          if nid = "b" then ExecOutcome.raises "boom"
          else ExecOutcome.result ⟨true, some 1, none⟩)
        [("a", ⟨"a", "ReadCSV", ()⟩), ("b", ⟨"b", "Filter", ()⟩)]
        [("b", "a", "out", "in")] ["a", "b"] [] []).2 ∧
    (∀ nid ∈ ["a", "b"],
      (dictGet (runNodes
        (fun (_ nid : String) (_ : Unit) (_ : List Nat) =>
          if nid = "b" then ExecOutcome.raises "boom"
          else ExecOutcome.result ⟨true, some 1, none⟩)
        [("a", ⟨"a", "ReadCSV", ()⟩), ("b", ⟨"b", "Filter", ()⟩)]
        [("b", "a", "out", "in")] ["a", "b"] [] []).2 nid).isSome = true) ∧
    (∀ nid ∈ ["a", "b"], ∀ nd : NodeDef Unit,
      dictGet ([("a", ⟨"a", "ReadCSV", ()⟩), ("b", ⟨"b", "Filter", ()⟩)] :
          List (String × NodeDef Unit))
        nid = some nd →
      ∃ _inputs : List Nat, dictGet (runNodes
        (fun (_ nid : String) (_ : Unit) (_ : List Nat) =>
          if nid = "b" then ExecOutcome.raises "boom"
          else ExecOutcome.result ⟨true, some 1, none⟩)
        [("a", ⟨"a", "ReadCSV", ()⟩), ("b", ⟨"b", "Filter", ()⟩)]
        [("b", "a", "out", "in")] ["a", "b"] [] []).2 nid =
        some (match (if nid = "b" then ExecOutcome.raises "boom"
            else ExecOutcome.result ⟨true, some 1, none⟩ :
              ExecOutcome Nat) with
          | ExecOutcome.result r => r
          | ExecOutcome.raises msg =>
            { success := false, data := none, error := some msg })) := by
  have h := c3_exceptions_converted_run_completes
    (fun (_ nid : String) (_ : Unit) (_ : List Nat) =>
      if nid = "b" then ExecOutcome.raises "boom"
      else ExecOutcome.result ⟨true, some 1, none⟩)
    { nodes := [⟨"a", "ReadCSV", ()⟩, ⟨"b", "Filter", ()⟩],
      edges := [⟨"a", "b", "out", "in"⟩] }
    [("a", ⟨"a", "ReadCSV", ()⟩), ("b", ⟨"b", "Filter", ()⟩)]
    [("a", "b")] [("b", "a", "out", "in")] ["a", "b"]
    (by decide) (by rfl) (by rfl)
  refine ⟨h.1, h.2.1, ?_⟩
  intro nid hnid nd hnd
  obtain ⟨inputs, hi⟩ := h.2.2 nid hnid nd hnd
  refine ⟨inputs, ?_⟩
  rcases List.mem_cons.mp hnid with rfl | h2
  · exact hi
  · rcases List.mem_cons.mp h2 with rfl | h3
    · exact hi
    · exact absurd h3 (List.not_mem_nil _)

theorem writeRefs_get_preserved {τ : Type} :
    ∀ (ws : List (Nat × τ)) (heap : List τ) (i : Nat),
    (∀ w ∈ ws, w.1 ≠ i) → (writeRefs heap ws).get? i = heap.get? i
  | [], _, _, _ => rfl
  | w :: t, heap, i, h => by
    obtain ⟨r, v⟩ := w
    show (writeRefs (heap.set r v) t).get? i = heap.get? i
    rw [writeRefs_get_preserved t (heap.set r v) i
      (fun x hx => h x (List.mem_cons_of_mem _ hx))]
    rw [List.get?_eq_getElem?, List.get?_eq_getElem?,
      List.getElem?_set_ne (h (r, v) (List.mem_cons_self _ t))]

theorem gatherStep_none {τ : Type} (node_id : String)
    (acc : HState τ × List (Nat × τ)) (u : String × String × String)
    (hfind : acc.1.outputs.find? (fun o => o.1 == u.1) = none) :
    gatherStep node_id acc u = acc := by
  unfold gatherStep
  rw [hfind]

theorem gatherStep_dangling {τ : Type} (node_id : String)
    (acc : HState τ × List (Nat × τ)) (u : String × String × String)
    (o : String × Nat × τ)
    (hfind : acc.1.outputs.find? (fun p => p.1 == u.1) = some o)
    (hv : acc.1.heap.get? o.2.1 = none) :
    gatherStep node_id acc u = acc := by
  unfold gatherStep
  rw [hfind]
  show (match acc.1.heap.get? o.2.1 with
    | none => acc
    | some v =>
      let newRef := acc.1.heap.length
      ({ acc.1 with
          heap := acc.1.heap ++ [v],
          log := acc.1.log ++ [(node_id, u.1, newRef, v)] },
       acc.2 ++ [(newRef, v)])) = acc
  rw [hv]

theorem gatherStep_copy {τ : Type} (node_id : String)
    (acc : HState τ × List (Nat × τ)) (u : String × String × String)
    (o : String × Nat × τ) (v : τ)
    (hfind : acc.1.outputs.find? (fun p => p.1 == u.1) = some o)
    (hv : acc.1.heap.get? o.2.1 = some v) :
    gatherStep node_id acc u =
      ({ acc.1 with
          heap := acc.1.heap ++ [v],
          log := acc.1.log ++ [(node_id, u.1, acc.1.heap.length, v)] },
       acc.2 ++ [(acc.1.heap.length, v)]) := by
  unfold gatherStep
  rw [hfind]
  show (match acc.1.heap.get? o.2.1 with
    | none => acc
    | some v =>
      let newRef := acc.1.heap.length
      ({ acc.1 with
          heap := acc.1.heap ++ [v],
          log := acc.1.log ++ [(node_id, u.1, newRef, v)] },
       acc.2 ++ [(newRef, v)])) = _
  rw [hv]

/-- Invariant of the `_gather_inputs` fold in the heap model: the cache
and results are untouched, the heap is only extended, the handed-over
references are fresh, and every new log entry snapshots the cached
upstream value through a reference distinct from the cache cell. -/
theorem gatherFold_inv {τ : Type} (node_id : String) (st0 : HState τ)
    (ha : ∀ o ∈ st0.outputs, st0.heap.get? o.2.1 = some o.2.2) :
    ∀ (us : List (String × String × String))
      (acc : HState τ × List (Nat × τ)),
    acc.1.outputs = st0.outputs →
    acc.1.results = st0.results →
    (∃ ext, acc.1.heap = st0.heap ++ ext) →
    (∀ p ∈ acc.2, st0.heap.length ≤ p.1) →
    (∀ l ∈ acc.1.log, l ∈ st0.log ∨ ∃ o ∈ st0.outputs,
        o.1 = l.2.1 ∧ l.2.2.2 = o.2.2 ∧ l.2.2.1 ≠ o.2.1) →
    (us.foldl (gatherStep node_id) acc).1.outputs = st0.outputs ∧
    (us.foldl (gatherStep node_id) acc).1.results = st0.results ∧
    (∃ ext, (us.foldl (gatherStep node_id) acc).1.heap = st0.heap ++ ext) ∧
    (∀ p ∈ (us.foldl (gatherStep node_id) acc).2,
      st0.heap.length ≤ p.1) ∧
    (∀ l ∈ (us.foldl (gatherStep node_id) acc).1.log,
      l ∈ st0.log ∨ ∃ o ∈ st0.outputs,
        o.1 = l.2.1 ∧ l.2.2.2 = o.2.2 ∧ l.2.2.1 ≠ o.2.1)
  | [], acc, h1, h2, h3, h4, h5 => ⟨h1, h2, h3, h4, h5⟩
  | u :: t, acc, h1, h2, h3, h4, h5 => by
    rw [List.foldl_cons]
    cases hfind : acc.1.outputs.find? (fun o => o.1 == u.1) with
    | none =>
      rw [gatherStep_none node_id acc u hfind]
      exact gatherFold_inv node_id st0 ha t acc h1 h2 h3 h4 h5
    | some o =>
      cases hv : acc.1.heap.get? o.2.1 with
      | none =>
        rw [gatherStep_dangling node_id acc u o hfind hv]
        exact gatherFold_inv node_id st0 ha t acc h1 h2 h3 h4 h5
      | some v =>
        rw [gatherStep_copy node_id acc u o v hfind hv]
        obtain ⟨ext, hext⟩ := h3
        have homem : o ∈ st0.outputs := by
          rw [← h1]
          exact List.mem_of_find?_eq_some hfind
        have hou : o.1 = u.1 := by
          simpa using List.find?_some hfind
        have holt : o.2.1 < st0.heap.length := by
          obtain ⟨hh, _⟩ := List.get?_eq_some.mp (ha o homem)
          exact hh
        have hvo : v = o.2.2 := by
          rw [hext, List.get?_append holt, ha o homem] at hv
          exact (Option.some.inj hv).symm
        apply gatherFold_inv node_id st0 ha t
        · exact h1
        · exact h2
        · refine ⟨ext ++ [v], ?_⟩
          show acc.1.heap ++ [v] = st0.heap ++ (ext ++ [v])
          rw [hext, List.append_assoc]
        · intro p hp
          rcases List.mem_append.mp hp with hp1 | hp1
          · exact h4 p hp1
          · have hpv : p = (acc.1.heap.length, v) := by simpa using hp1
            subst hpv
            show st0.heap.length ≤ acc.1.heap.length
            rw [hext, List.length_append]
            omega
        · intro l hl
          rcases List.mem_append.mp
              (show l ∈ acc.1.log ++
                [(node_id, u.1, acc.1.heap.length, v)] from hl) with hl1 | hl1
          · exact h5 l hl1
          · have hlv : l = (node_id, u.1, acc.1.heap.length, v) := by
              simpa using hl1
            subst hlv
            refine Or.inr ⟨o, homem, hou, hvo, ?_⟩
            show acc.1.heap.length ≠ o.2.1
            rw [hext, List.length_append]
            omega

/-- Corollary of `gatherFold_inv` at the loop entry state. -/
theorem gatherInputsH_inv {τ : Type}
    (radj : List (String × String × String × String)) (nid : String)
    (st : HState τ)
    (ha : ∀ o ∈ st.outputs, st.heap.get? o.2.1 = some o.2.2) :
    (gatherInputsH radj nid st).1.outputs = st.outputs ∧
    (gatherInputsH radj nid st).1.results = st.results ∧
    (∃ ext, (gatherInputsH radj nid st).1.heap = st.heap ++ ext) ∧
    (∀ p ∈ (gatherInputsH radj nid st).2, st.heap.length ≤ p.1) ∧
    (∀ l ∈ (gatherInputsH radj nid st).1.log,
      l ∈ st.log ∨ ∃ o ∈ st.outputs,
        o.1 = l.2.1 ∧ l.2.2.2 = o.2.2 ∧ l.2.2.1 ≠ o.2.1) :=
  gatherFold_inv nid st ha
    (stableSort (fun a b => strLe a.2.2 b.2.2)
      ((radj.filter
          (fun e : String × String × String × String => e.1 == nid)).map
        (fun e : String × String × String × String => e.2)))
    (st, []) rfl rfl ⟨[], (List.append_nil st.heap).symm⟩
    (fun p hp => absurd hp (List.not_mem_nil p))
    (fun l hl => Or.inl hl)

theorem writeRefs_length {τ : Type} :
    ∀ (ws : List (Nat × τ)) (heap : List τ),
    (writeRefs heap ws).length = heap.length
  | [], _ => rfl
  | w :: t, heap => by
    obtain ⟨r, v⟩ := w
    show (writeRefs (heap.set r v) t).length = heap.length
    rw [writeRefs_length t (heap.set r v), List.length_set]

theorem runNodesH_cons_none {α τ : Type}
    (impl : String → String → α → List τ → HOutcome τ)
    (nm : List (String × NodeDef α))
    (radj : List (String × String × String × String))
    (nid : String) (rest : List String) (st : HState τ)
    (hnd : dictGet nm nid = none) :
    runNodesH impl nm radj (nid :: rest) st =
      runNodesH impl nm radj rest st := by
  simp only [runNodesH, hnd]

theorem runNodesH_cons_cache {α τ : Type}
    (impl : String → String → α → List τ → HOutcome τ)
    (nm : List (String × NodeDef α))
    (radj : List (String × String × String × String))
    (nid : String) (rest : List String) (st : HState τ)
    (nd : NodeDef α) (r : NodeResultG τ) (mutated : List τ) (d : τ)
    (hnd : dictGet nm nid = some nd)
    (him : impl nd.type nid nd.config
      ((gatherInputsH radj nid st).2.map (fun p => p.2)) =
        HOutcome.result r mutated)
    (hd : r.data = some d) (hs : r.success = true) :
    runNodesH impl nm radj (nid :: rest) st =
      runNodesH impl nm radj rest
        { (gatherInputsH radj nid st).1 with
            heap := writeRefs (gatherInputsH radj nid st).1.heap
              (((gatherInputsH radj nid st).2.map (fun p => p.1)).zip
                mutated) ++ [d],
            outputs := (gatherInputsH radj nid st).1.outputs ++
              [(nid, (writeRefs (gatherInputsH radj nid st).1.heap
                (((gatherInputsH radj nid st).2.map (fun p => p.1)).zip
                  mutated)).length, d)],
            results := dictInsert (gatherInputsH radj nid st).1.results
              nid r } := by
  simp only [runNodesH, hnd, him, hd, hs, if_true]

theorem runNodesH_cons_nocache {α τ : Type}
    (impl : String → String → α → List τ → HOutcome τ)
    (nm : List (String × NodeDef α))
    (radj : List (String × String × String × String))
    (nid : String) (rest : List String) (st : HState τ)
    (nd : NodeDef α) (r : NodeResultG τ) (mutated : List τ) (d : τ)
    (hnd : dictGet nm nid = some nd)
    (him : impl nd.type nid nd.config
      ((gatherInputsH radj nid st).2.map (fun p => p.2)) =
        HOutcome.result r mutated)
    (hd : r.data = some d) (hs : r.success = false) :
    runNodesH impl nm radj (nid :: rest) st =
      runNodesH impl nm radj rest
        { (gatherInputsH radj nid st).1 with
            heap := writeRefs (gatherInputsH radj nid st).1.heap
              (((gatherInputsH radj nid st).2.map (fun p => p.1)).zip
                mutated),
            results := dictInsert (gatherInputsH radj nid st).1.results
              nid r } := by
  simp only [runNodesH, hnd, him, hd, hs, Bool.false_eq_true, if_false]

theorem runNodesH_cons_nodata {α τ : Type}
    (impl : String → String → α → List τ → HOutcome τ)
    (nm : List (String × NodeDef α))
    (radj : List (String × String × String × String))
    (nid : String) (rest : List String) (st : HState τ)
    (nd : NodeDef α) (r : NodeResultG τ) (mutated : List τ)
    (hnd : dictGet nm nid = some nd)
    (him : impl nd.type nid nd.config
      ((gatherInputsH radj nid st).2.map (fun p => p.2)) =
        HOutcome.result r mutated)
    (hd : r.data = none) :
    runNodesH impl nm radj (nid :: rest) st =
      runNodesH impl nm radj rest
        { (gatherInputsH radj nid st).1 with
            heap := writeRefs (gatherInputsH radj nid st).1.heap
              (((gatherInputsH radj nid st).2.map (fun p => p.1)).zip
                mutated),
            results := dictInsert (gatherInputsH radj nid st).1.results
              nid r } := by
  simp only [runNodesH, hnd, him, hd]

theorem runNodesH_cons_raises {α τ : Type}
    (impl : String → String → α → List τ → HOutcome τ)
    (nm : List (String × NodeDef α))
    (radj : List (String × String × String × String))
    (nid : String) (rest : List String) (st : HState τ)
    (nd : NodeDef α) (msg : String) (mutated : List τ)
    (hnd : dictGet nm nid = some nd)
    (him : impl nd.type nid nd.config
      ((gatherInputsH radj nid st).2.map (fun p => p.2)) =
        HOutcome.raises msg mutated) :
    runNodesH impl nm radj (nid :: rest) st =
      runNodesH impl nm radj rest
        { (gatherInputsH radj nid st).1 with
            heap := writeRefs (gatherInputsH radj nid st).1.heap
              (((gatherInputsH radj nid st).2.map (fun p => p.1)).zip
                mutated),
            results := dictInsert (gatherInputsH radj nid st).1.results
              nid { success := false, data := none, error := some msg } } := by
  simp only [runNodesH, hnd, him]

/-- Run-loop invariant of the heap model: cached output cells always
hold their recorded snapshot, and every logged hand-over snapshots an
upstream cache cell through a distinct fresh reference. -/
theorem runNodesH_inv {α τ : Type}
    (impl : String → String → α → List τ → HOutcome τ)
    (nm : List (String × NodeDef α))
    (radj : List (String × String × String × String)) :
    ∀ (order : List String) (st : HState τ),
    (∀ o ∈ st.outputs, st.heap.get? o.2.1 = some o.2.2) →
    (∀ l ∈ st.log, ∃ o ∈ st.outputs,
      o.1 = l.2.1 ∧ l.2.2.2 = o.2.2 ∧ l.2.2.1 ≠ o.2.1) →
    (∀ o ∈ (runNodesH impl nm radj order st).outputs,
      (runNodesH impl nm radj order st).heap.get? o.2.1 = some o.2.2) ∧
    (∀ l ∈ (runNodesH impl nm radj order st).log,
      ∃ o ∈ (runNodesH impl nm radj order st).outputs,
        o.1 = l.2.1 ∧ l.2.2.2 = o.2.2 ∧ l.2.2.1 ≠ o.2.1)
  | [], st, ha, hb => ⟨ha, hb⟩
  | nid :: rest, st, ha, hb => by
    cases hnd : dictGet nm nid with
    | none =>
      rw [runNodesH_cons_none impl nm radj nid rest st hnd]
      exact runNodesH_inv impl nm radj rest st ha hb
    | some nd =>
      obtain ⟨hout, hres, hh3, hrefs, hlog⟩ := gatherInputsH_inv radj nid st ha
      obtain ⟨ext, hheap⟩ := hh3
      have hWpres : ∀ (mutated : List τ) (i : Nat), i < st.heap.length →
          (writeRefs (gatherInputsH radj nid st).1.heap
            (((gatherInputsH radj nid st).2.map (fun p => p.1)).zip
              mutated)).get? i =
          (gatherInputsH radj nid st).1.heap.get? i := by
        intro mutated i hi
        apply writeRefs_get_preserved
        intro w hw
        obtain ⟨hw1, _⟩ := List.of_mem_zip hw
        obtain ⟨p, hp, hpw⟩ := List.mem_map.mp hw1
        have hple := hrefs p hp
        rw [← hpw]
        omega
      have haW : ∀ (mutated : List τ), ∀ o ∈ st.outputs,
          (writeRefs (gatherInputsH radj nid st).1.heap
            (((gatherInputsH radj nid st).2.map (fun p => p.1)).zip
              mutated)).get? o.2.1 = some o.2.2 := by
        intro mutated o ho
        have holt : o.2.1 < st.heap.length := by
          obtain ⟨hh, _⟩ := List.get?_eq_some.mp (ha o ho)
          exact hh
        rw [hWpres mutated o.2.1 holt, hheap, List.get?_append holt]
        exact ha o ho
      have hWlen : ∀ (mutated : List τ),
          (writeRefs (gatherInputsH radj nid st).1.heap
            (((gatherInputsH radj nid st).2.map (fun p => p.1)).zip
              mutated)).length = st.heap.length + ext.length := by
        intro mutated
        rw [writeRefs_length, hheap, List.length_append]
      have hblog : ∀ l ∈ (gatherInputsH radj nid st).1.log,
          ∃ o ∈ st.outputs,
            o.1 = l.2.1 ∧ l.2.2.2 = o.2.2 ∧ l.2.2.1 ≠ o.2.1 := by
        intro l hl
        rcases hlog l hl with h1 | h1
        · exact hb l h1
        · exact h1
      cases him : impl nd.type nid nd.config
          ((gatherInputsH radj nid st).2.map (fun p => p.2)) with
      | result r mutated =>
        cases hd : r.data with
        | none =>
          rw [runNodesH_cons_nodata impl nm radj nid rest st nd r mutated
            hnd him hd]
          apply runNodesH_inv impl nm radj rest
          · intro o ho
            have ho2 : o ∈ st.outputs := by
              rw [← hout]
              exact ho
            exact haW mutated o ho2
          · intro l hl
            obtain ⟨o, ho, h1, h2, h3⟩ := hblog l hl
            refine ⟨o, ?_, h1, h2, h3⟩
            show o ∈ (gatherInputsH radj nid st).1.outputs
            rw [hout]
            exact ho
        | some d =>
          cases hs : r.success with
          | false =>
            rw [runNodesH_cons_nocache impl nm radj nid rest st nd r mutated
              d hnd him hd hs]
            apply runNodesH_inv impl nm radj rest
            · intro o ho
              have ho2 : o ∈ st.outputs := by
                rw [← hout]
                exact ho
              exact haW mutated o ho2
            · intro l hl
              obtain ⟨o, ho, h1, h2, h3⟩ := hblog l hl
              refine ⟨o, ?_, h1, h2, h3⟩
              show o ∈ (gatherInputsH radj nid st).1.outputs
              rw [hout]
              exact ho
          | true =>
            rw [runNodesH_cons_cache impl nm radj nid rest st nd r mutated
              d hnd him hd hs]
            apply runNodesH_inv impl nm radj rest
            · intro o ho
              rcases List.mem_append.mp ho with h1 | h1
              · have ho2 : o ∈ st.outputs := by
                  rw [← hout]
                  exact h1
                have holt : o.2.1 < st.heap.length := by
                  obtain ⟨hh, _⟩ := List.get?_eq_some.mp (ha o ho2)
                  exact hh
                have hlt2 : o.2.1 <
                    (writeRefs (gatherInputsH radj nid st).1.heap
                      (((gatherInputsH radj nid st).2.map
                        (fun p => p.1)).zip mutated)).length := by
                  rw [hWlen]
                  omega
                rw [List.get?_append hlt2]
                exact haW mutated o ho2
              · have hoe : o = (nid,
                    (writeRefs (gatherInputsH radj nid st).1.heap
                      (((gatherInputsH radj nid st).2.map
                        (fun p => p.1)).zip mutated)).length, d) := by
                  simpa using h1
                subst hoe
                exact List.get?_concat_length _ _
            · intro l hl
              obtain ⟨o, ho, h1, h2, h3⟩ := hblog l hl
              refine ⟨o, ?_, h1, h2, h3⟩
              apply List.mem_append_left
              show o ∈ (gatherInputsH radj nid st).1.outputs
              rw [hout]
              exact ho
      | raises msg mutated =>
        rw [runNodesH_cons_raises impl nm radj nid rest st nd msg mutated
          hnd him]
        apply runNodesH_inv impl nm radj rest
        · intro o ho
          have ho2 : o ∈ st.outputs := by
            rw [← hout]
            exact ho
          exact haW mutated o ho2
        · intro l hl
          obtain ⟨o, ho, h1, h2, h3⟩ := hblog l hl
          refine ⟨o, ?_, h1, h2, h3⟩
          show o ∈ (gatherInputsH radj nid st).1.outputs
          rw [hout]
          exact ho

/-- C5: in the heap model of `execute`, every table handed to a node is
a fresh copy (a reference distinct from the cache cell, holding the
cached value), and after the run every cached output cell still holds
exactly its recorded snapshot — in-place mutation inside a node never
reaches the cache other consumers read. -/
theorem c5_input_copies_no_mutation_leak {α τ : Type}
    (impl : String → String → α → List τ → HOutcome τ) (wf : Workflow α)
    (st : HState τ) (hex : executeH impl wf = Except.ok st) :
    (∀ o ∈ st.outputs, st.heap.get? o.2.1 = some o.2.2) ∧
    (∀ l ∈ st.log, ∃ o ∈ st.outputs,
      o.1 = l.2.1 ∧ l.2.2.2 = o.2.2 ∧ l.2.2.1 ≠ o.2.1) := by
  unfold executeH at hex
  by_cases he : wf.nodes.isEmpty = true
  · rw [if_pos he] at hex
    cases hex
  · rw [if_neg he] at hex
    cases hbg : buildGraph wf.nodes wf.edges with
    | error e =>
      rw [hbg] at hex
      cases hex
    | ok t =>
      obtain ⟨nm, adj, radj⟩ := t
      rw [hbg] at hex
      have hex2 : (match topologicalSort (nm.map (fun p => p.1)) adj with
        | Except.error e => (Except.error e : Except WorkflowErr (HState τ))
        | Except.ok order =>
          Except.ok (runNodesH impl nm radj order {})) = Except.ok st := hex
      cases hts : topologicalSort (nm.map (fun p => p.1)) adj with
      | error e =>
        rw [hts] at hex2
        cases hex2
      | ok order =>
        rw [hts] at hex2
        have hst : runNodesH impl nm radj order {} = st :=
          Except.ok.inj hex2
        rw [← hst]
        exact runNodesH_inv impl nm radj order {}
          (fun o ho => absurd ho (List.not_mem_nil o))
          (fun l hl => absurd hl (List.not_mem_nil l))

theorem c5_witness :
    (∀ o ∈ ([("a", 0, 7), ("b", 2, 42)] : List (String × Nat × Nat)),
      ([7, 999, 42] : List Nat).get? o.2.1 = some o.2.2) ∧
    (∀ l ∈ ([("b", "a", 1, 7)] : List (String × String × Nat × Nat)),
      ∃ o ∈ ([("a", 0, 7), ("b", 2, 42)] : List (String × Nat × Nat)),
        o.1 = l.2.1 ∧ l.2.2.2 = o.2.2 ∧ l.2.2.1 ≠ o.2.1) :=
  c5_input_copies_no_mutation_leak
    (fun (_ nid : String) (_ : Unit) (inputs : List Nat) =>
      if nid = "b" then
        HOutcome.result ⟨true, some 42, none⟩ (inputs.map (fun _ => 999))
      else HOutcome.result ⟨true, some 7, none⟩ [])
    { nodes := [⟨"a", "ReadCSV", ()⟩, ⟨"b", "Filter", ()⟩],
      edges := [⟨"a", "b", "out", "in"⟩] }
    ⟨[7, 999, 42], [("a", 0, 7), ("b", 2, 42)],
     [("a", ⟨true, some 7, none⟩), ("b", ⟨true, some 42, none⟩)],
     [("b", "a", 1, 7)]⟩
    (by rfl)
